import Mathlib

/-!
Verification development for the gosoaap call-graph library.

The Go sources are shallowly embedded: Go maps become association lists
(`List (k × v)`) with first-match lookup and in-place replacement, the
`strset` map-as-set idiom becomes a duplicate-free `List String`, Go `int`
becomes `Int`, and functions that can recurse unboundedly in Go (trace
continuation chains, `CollectNodes` with depth -1, `Simplified`) take an
explicit fuel argument that models only the recursion the Go code actually
performs.  Side-effect-only progress reporting is elided.
-/

/-- Go map read with the zero value as default (association-list model). -/
def alookup {α β : Type} [DecidableEq α] : List (α × β) → α → Option β
  | [], _ => none
  | (k, v) :: t, k' => if k = k' then some v else alookup t k'

/-- Go map write: replace the binding in place, or append a fresh binding. -/
def ainsert {α β : Type} [DecidableEq α] : List (α × β) → α → β → List (α × β)
  | [], k, v => [(k, v)]
  | (k0, v0) :: t, k, v => if k0 = k then (k, v) :: t else (k0, v0) :: ainsert t k v

/-- The key list of an association-list map. -/
def akeys {α β : Type} (m : List (α × β)) : List α := m.map Prod.fst

/-- Go map read defaulting to a zero value. -/
def agetD {α β : Type} [DecidableEq α] (m : List (α × β)) (k : α) (d : β) : β :=
  (alookup m k).getD d

/-- A Go `strset` (map from string to presence), as a duplicate-free list. -/
abbrev strset := List String

/-- strset.Add: put an element into the set (strset.go line 18). -/
def sAdd (s : strset) (key : String) : strset :=
  if key ∈ s then s else s ++ [key]

/-- strset.Remove: delete an element (strset.go line 34). -/
def sRemove (s : strset) (key : String) : strset := s.erase key

/-- strset.Contains (strset.go line 23), as a Bool for use in Go conditions. -/
def sContains (s : strset) (key : String) : Bool := decide (key ∈ s)

/-- The net effect of `s = s.Union(other)` / the in-place update performed by
Go strset.Union (strset.go line 68): afterwards the receiver holds every
element of both sets.  All engine call sites either reassign the result to
the receiver or rely on the in-place update, so their net effect is this
functional union. -/
def sUnion (s other : strset) : strset := other.foldl sAdd s

/-- strset.Intersection (strset.go line 42): a genuinely fresh set. -/
def sInter (s other : strset) : strset := s.filter (fun k => k ∈ other)

/-- Go semantics of `result := s; for k := range other { result[k] = true }`
in strset.Union (strset.go lines 66-76): `result` aliases the receiver map,
so the function returns the result together with the receiver's contents
after the call (they are the same map). -/
def strsetUnionGo (s other : strset) : strset × strset :=
  let result := other.foldl sAdd s
  (result, result)

/-- Go semantics of strset.Intersection (strset.go lines 40-53): a new map is
allocated, so the receiver and argument are returned unchanged. -/
def strsetIntersectionGo (s other : strset) : strset × strset × strset :=
  (s.filter (fun k => k ∈ other), s, other)

/-- A location in source code (results.go line 172). -/
structure SourceLocation where
  File : String
  Line : Int
  Library : String
deriving DecidableEq, Repr

/-- The zero value of SourceLocation. -/
def SourceLocation.zero : SourceLocation := ⟨"", 0, ""⟩

/-- A call site: a function name plus a location (results.go line 158). -/
structure CallSite where
  Function : String
  Location : SourceLocation
  Trace : Int
  TraceName : String
deriving DecidableEq, Repr

/-- The zero value of CallSite. -/
def CallSite.zero : CallSite := ⟨"", SourceLocation.zero, 0, ""⟩

/-- A call-graph edge (graphing.go line 773). -/
structure Call where
  Caller : String
  Callee : String
  CallSite : SourceLocation
  Sandbox : String
deriving DecidableEq, Repr

/-- The zero value of Call (Go `var call Call`). -/
def Call.zero : Call := ⟨"", "", SourceLocation.zero, ""⟩

/-- A node in a call graph (graphing.go line 557). -/
structure GraphNode where
  Name : String
  Function : String
  Library : String
  Sandbox : String
  CVE : strset
  Owners : strset
  CallsIn : List Call
  CallsOut : List Call
  FlowsIn : List Call
  FlowsOut : List Call
  Tags : strset
deriving DecidableEq, Repr

/-- The zero value of GraphNode, as returned by a Go map read on a missing
key (nil sets and slices behave as empty for the operations used). -/
def GraphNode.zero : GraphNode := ⟨"", "", "", "", [], [], [], [], [], [], []⟩

/-- A single call trace with an optional continuation (results.go line 118). -/
structure CallTrace where
  CallSites : List CallSite
  Next : Int
deriving DecidableEq, Repr

/-- The zero value of CallTrace. -/
def CallTrace.zero : CallTrace := ⟨[], 0⟩

/-- The call-graph record (graphing.go line 12): node map, root and leaf
name sets, and the two weighted edge maps. -/
structure CallGraph where
  nodes : List (String × GraphNode)
  roots : strset
  leaves : strset
  calls : List (Call × Int)
  flows : List (Call × Int)
deriving DecidableEq, Repr

/-- NewCallGraph (graphing.go line 23): the empty graph.  The Go zero value
`CallGraph{}` (nil maps) is observationally the same in this model. -/
def NewCallGraph : CallGraph := ⟨[], [], [], [], []⟩

/-- UpdateCalls (graphing.go line 755): append each call not already in the
list. -/
def UpdateCalls (current : List Call) (calls : List Call) : List Call :=
  calls.foldl (fun cur c => if c ∈ cur then cur else cur ++ [c]) current

/-- GraphNode.Update (graphing.go line 741).  The receiver `n` is the node
being merged in; `g` is the previously stored node.  The CVE/Owners/Tags
unions land in `n` because Go strset.Union updates the receiver in place. -/
def GraphNode.Update (n g : GraphNode) : GraphNode :=
  { n with
    Library := if n.Library = "" then g.Library else n.Library
    CallsIn := UpdateCalls n.CallsIn g.CallsIn
    CallsOut := UpdateCalls n.CallsOut g.CallsOut
    FlowsIn := UpdateCalls n.FlowsIn g.FlowsIn
    FlowsOut := UpdateCalls n.FlowsOut g.FlowsOut
    CVE := sUnion n.CVE g.CVE
    Owners := sUnion n.Owners g.Owners
    Tags := sUnion n.Tags g.Tags }

/-- CallGraph.AddCall (graphing.go line 73). -/
def CallGraph.AddCall (cg : CallGraph) (call : Call) : CallGraph :=
  let calls := ainsert cg.calls call (agetD cg.calls call 0 + 1)
  let caller := call.Caller
  let callee := call.Callee
  let c := (alookup cg.nodes caller).getD GraphNode.zero
  let c := { c with CallsOut := UpdateCalls c.CallsOut [call] }
  let nodes := ainsert cg.nodes caller c
  let c2 := (alookup nodes callee).getD GraphNode.zero
  let c2 := { c2 with CallsIn := UpdateCalls c2.CallsIn [call] }
  let nodes := ainsert nodes callee c2
  { cg with
    calls := calls
    nodes := nodes
    roots := sRemove cg.roots callee
    leaves := sRemove cg.leaves caller }

/-- CallGraph.AddCalls (graphing.go line 93): AddCall, then bump the weight
by `weight - 1`. -/
def CallGraph.AddCalls (cg : CallGraph) (call : Call) (weight : Int) : CallGraph :=
  let cg := cg.AddCall call
  { cg with calls := ainsert cg.calls call (agetD cg.calls call 0 + (weight - 1)) }

/-- CallGraph.AddFlow (graphing.go line 98). -/
def CallGraph.AddFlow (cg : CallGraph) (flow : Call) : CallGraph :=
  let flows := ainsert cg.flows flow (agetD cg.flows flow 0 + 1)
  let source := flow.Caller
  let dest := flow.Callee
  let c := (alookup cg.nodes source).getD GraphNode.zero
  let c := { c with FlowsOut := UpdateCalls c.FlowsOut [flow] }
  let nodes := ainsert cg.nodes source c
  let c2 := (alookup nodes dest).getD GraphNode.zero
  let c2 := { c2 with FlowsIn := UpdateCalls c2.FlowsIn [flow] }
  let nodes := ainsert nodes dest c2
  { cg with
    flows := flows
    nodes := nodes
    roots := sRemove cg.roots dest
    leaves := sRemove cg.leaves source }

/-- CallGraph.AddFlows (graphing.go line 116). -/
def CallGraph.AddFlows (cg : CallGraph) (flow : Call) (weight : Int) : CallGraph :=
  let cg := cg.AddFlow flow
  { cg with flows := ainsert cg.flows flow (agetD cg.flows flow 0 + (weight - 1)) }

/-- CallGraph.AddNode (graphing.go line 121): merge by name, then recompute
root and leaf membership from the merged node's edge lists. -/
def CallGraph.AddNode (cg : CallGraph) (node : GraphNode) : CallGraph :=
  let name := node.Name
  let node :=
    match alookup cg.nodes name with
    | some n => node.Update n
    | none => node
  let nodes := ainsert cg.nodes name node
  let roots :=
    if node.CallsIn = [] ∧ node.FlowsIn = [] then sAdd cg.roots name else cg.roots
  let leaves :=
    if node.CallsOut = [] ∧ node.FlowsOut = [] then sAdd cg.leaves name else cg.leaves
  { cg with nodes := nodes, roots := roots, leaves := leaves }

/-- GraphNode.Callees (graphing.go line 611). -/
def GraphNode.Callees (n : GraphNode) : strset :=
  n.CallsOut.foldl (fun s c => sAdd s c.Callee) []

/-- GraphNode.Callers (graphing.go line 619). -/
def GraphNode.Callers (n : GraphNode) : strset :=
  n.CallsIn.foldl (fun s c => sAdd s c.Caller) []

/-- GraphNode.DataSinks (graphing.go line 627). -/
def GraphNode.DataSinks (n : GraphNode) : strset :=
  n.FlowsOut.foldl (fun s c => sAdd s c.Callee) []

/-- GraphNode.DataSources (graphing.go line 635). -/
def GraphNode.DataSources (n : GraphNode) : strset :=
  n.FlowsIn.foldl (fun s c => sAdd s c.Caller) []

/-- GraphNode.AllInputs (graphing.go line 603): callers plus data sources. -/
def GraphNode.AllInputs (n : GraphNode) : strset :=
  sUnion n.Callers n.DataSources

/-- GraphNode.AllOutputs (graphing.go line 607). -/
def GraphNode.AllOutputs (n : GraphNode) : strset :=
  sUnion n.Callees n.DataSinks

/-- CallGraph.CollectNodes (graphing.go line 139): the depth-bounded walk
along a selector relation.  The Go recursion has no cycle guard and does not
terminate for negative depths on cyclic graphs, so the embedding carries
fuel; fuel 0 truncates the walk (the Go code instead diverges there). -/
def CallGraph.CollectNodes (cg : CallGraph) (fuel : Nat) (root : String)
    (selector : GraphNode → strset) (depth : Int) : strset :=
  let nodes := sAdd [] root
  if depth = 0 then nodes
  else
    match fuel with
    | 0 => nodes
    | fuel + 1 =>
      (selector ((alookup cg.nodes root).getD GraphNode.zero)).foldl
        (fun acc id =>
          let acc := sAdd acc id
          sUnion acc (cg.CollectNodes fuel id selector (depth - 1)))
        nodes

/-- newCall (graphing.go line 788). -/
def newCall (caller callee : GraphNode) (cs : CallSite) (sandbox : String) : Call :=
  ⟨caller.Name, callee.Name, cs.Location, sandbox⟩

/-- One step of Union over the call map (graphing.go lines 449-452):
`cg.AddCall(call); cg.calls[call] += (count - 1)`. -/
def unionCallStep (acc : CallGraph) (p : Call × Int) : CallGraph :=
  let acc := acc.AddCall p.1
  { acc with calls := ainsert acc.calls p.1 (agetD acc.calls p.1 0 + (p.2 - 1)) }

/-- One step of Union over the flow map (graphing.go lines 454-457). -/
def unionFlowStep (acc : CallGraph) (p : Call × Int) : CallGraph :=
  let acc := acc.AddFlow p.1
  { acc with flows := ainsert acc.flows p.1 (agetD acc.flows p.1 0 + (p.2 - 1)) }

/-- CallGraph.Union (graphing.go line 444): merge every node, then add every
edge once and bump its weight by `count - 1`.  The Go function always
returns a nil error, so the embedding returns only the graph. -/
def CallGraph.Union (cg g : CallGraph) : CallGraph :=
  let cg := g.nodes.foldl (fun acc p => acc.AddNode p.2) cg
  let cg := g.calls.foldl unionCallStep cg
  let cg := g.flows.foldl unionFlowStep cg
  cg

/-- CallGraph.Intersect (graphing.go line 347): the symmetric leaf-proximity
join.  `fuel` bounds every CollectNodes walk, including the unbounded
(depth -1) backtrace walks taken when `keepBacktrace` is set. -/
def CallGraph.Intersect (cg g : CallGraph) (depth : Int) (keepBacktrace : Bool)
    (fuel : Nat) : CallGraph :=
  let sel := GraphNode.AllInputs
  let result := NewCallGraph
  let ancestors := cg.leaves.foldl
    (fun anc id => sUnion anc (cg.CollectNodes fuel id sel depth)) []
  let keep := g.leaves.foldl
    (fun keep leaf =>
      let nodes := g.CollectNodes fuel leaf sel depth
      if nodes.any (sContains ancestors) then
        let keep := sUnion keep nodes
        if keepBacktrace then sUnion keep (g.CollectNodes fuel leaf sel (-1)) else keep
      else keep)
    []
  let result := keep.foldl
    (fun r id => r.AddNode ((alookup g.nodes id).getD GraphNode.zero)) result
  let result := g.calls.foldl
    (fun r p =>
      if sContains keep p.1.Caller && sContains keep p.1.Callee then
        r.AddCalls p.1 p.2
      else r)
    result
  let result := g.flows.foldl
    (fun r p =>
      if sContains keep p.1.Caller && sContains keep p.1.Callee then
        r.AddFlows p.1 p.2
      else r)
    result
  let ancestors := keep
  let keep := cg.leaves.foldl
    (fun keep leaf =>
      let nodes := cg.CollectNodes fuel leaf sel depth
      if nodes.any (sContains ancestors) then
        let keep := sUnion keep nodes
        if keepBacktrace then sUnion keep (cg.CollectNodes fuel leaf sel (-1)) else keep
      else keep)
    []
  let result := keep.foldl
    (fun r id => r.AddNode ((alookup cg.nodes id).getD GraphNode.zero)) result
  let result := cg.calls.foldl
    (fun r p =>
      if sContains keep p.1.Caller && sContains keep p.1.Callee then
        r.AddCalls p.1 p.2
      else r)
    result
  let result := cg.flows.foldl
    (fun r p =>
      if sContains keep p.1.Caller && sContains keep p.1.Callee then
        r.AddFlows p.1 p.2
      else r)
    result
  result

/-- CallGraph.AddIntersecting (graphing.go line 296): the in-place variant
of the first phase of Intersect. -/
def CallGraph.AddIntersecting (cg g : CallGraph) (depth : Int) (fuel : Nat) : CallGraph :=
  let sel := GraphNode.AllInputs
  let ancestors := cg.leaves.foldl
    (fun anc id => sUnion anc (cg.CollectNodes fuel id sel depth)) []
  let keep := g.leaves.foldl
    (fun keep leaf =>
      let nodes := g.CollectNodes fuel leaf sel depth
      if nodes.any (sContains ancestors) then sUnion keep nodes else keep)
    []
  let cg := keep.foldl
    (fun r id => r.AddNode ((alookup g.nodes id).getD GraphNode.zero)) cg
  let cg := g.calls.foldl
    (fun r p =>
      if sContains keep p.1.Caller && sContains keep p.1.Callee then
        r.AddCalls p.1 p.2
      else r)
    cg
  let cg := g.flows.foldl
    (fun r p =>
      if sContains keep p.1.Caller && sContains keep p.1.Callee then
        r.AddFlows p.1 p.2
      else r)
    cg
  cg

/-- walkChain's loop (graphing.go line 258).  `var call Call` starts as the
zero value and the `for _, c := range n.CallsOut` loop leaves the last
element in `call`; the loop is only reached when the list has exactly one
element.  Fuel models the unbounded Go loop (it diverges on call cycles). -/
def walkChainAux (nodes : List (String × GraphNode)) :
    Nat → GraphNode → List Call → List Call
  | 0, _, chain => chain
  | fuel + 1, n, chain =>
    if 1 < n.CallsIn.length ∨ n.CallsOut.length ≠ 1 ∨ n.CVE ≠ [] then chain
    else
      let call := n.CallsOut.foldl (fun _ c => c) Call.zero
      let next := (alookup nodes call.Callee).getD GraphNode.zero
      if next.CVE ≠ [] then chain
      else walkChainAux nodes fuel next (chain ++ [call])

/-- walkChain (graphing.go line 258): traverse a linear chain of calls until
an interesting node. -/
def walkChain (fuel : Nat) (start : GraphNode) (nodes : List (String × GraphNode)) :
    List Call :=
  walkChainAux nodes fuel start []

/-- CallGraph.addSimplified (graphing.go line 213): recursively add
simplified call chains.  The Go recursion over callees has no cycle guard,
so the embedding carries fuel (the Go code diverges on cyclic graphs). -/
def CallGraph.addSimplified (cg : CallGraph) (fuel : Nat) (begin0 : GraphNode)
    (old : CallGraph) : CallGraph :=
  match fuel with
  | 0 => cg
  | fuel + 1 =>
    let cg := cg.AddNode begin0
    let cg := begin0.FlowsOut.foldl
      (fun acc f =>
        let acc := acc.AddNode ((alookup old.nodes f.Callee).getD GraphNode.zero)
        acc.AddFlow f)
      cg
    let callChain := walkChain (fuel + 1) begin0 old.nodes
    let step : GraphNode × CallGraph :=
      if h : callChain = [] then (begin0, cg)
      else
        let lastCall := callChain.getLast h
        let next := (alookup old.nodes lastCall.Callee).getD GraphNode.zero
        let cg := cg.AddNode next
        if callChain.length = 1 then (next, cg.AddCall lastCall)
        else
          let call := newCall begin0 next CallSite.zero lastCall.Sandbox
          let weight := callChain.foldl (fun w c => w + agetD old.calls c 0) 0
          (next, cg.AddCalls call weight)
    step.1.CallsOut.foldl
      (fun acc call =>
        let acc := CallGraph.addSimplified acc fuel
          ((alookup old.nodes call.Callee).getD GraphNode.zero) old
        acc.AddCall call)
      step.2

/-- CallGraph.Simplified (graphing.go line 200): rebuild the graph by
simplifying from each recorded root. -/
def CallGraph.Simplified (cg : CallGraph) (fuel : Nat) : CallGraph :=
  cg.roots.foldl
    (fun g r => g.addSimplified fuel ((alookup cg.nodes r).getD GraphNode.zero) cg)
    NewCallGraph

/-- Outcome of resolving a trace: normal return, a returned error, or fuel
exhaustion (standing for the unbounded Go recursion on a continuation
cycle, where the Go code never returns). -/
inductive ForeachOut where
  | ok
  | err (msg : String)
  | diverge
deriving DecidableEq, Repr

/-- CallTrace.Foreach (results.go line 133), modelled as the ordered list of
call sites passed to the callback together with the returned status.  Note
that the Go code discards the error of the recursive call on line 146 and
falls through to `return nil`; the embedding reproduces that. -/
def ForeachModel (fuel : Nat) (t : CallTrace) (traces : List CallTrace) :
    List CallSite × ForeachOut :=
  let visited := t.CallSites.filter (fun cs => cs.Location.File ≠ "")
  if 0 ≤ t.Next then
    if (traces.length : Int) ≤ t.Next then
      (visited, ForeachOut.err "trace ID out of range")
    else
      match fuel with
      | 0 => (visited, ForeachOut.diverge)
      | fuel + 1 =>
        let sub := ForeachModel fuel (traces.getD t.Next.toNat CallTrace.zero) traces
        (visited ++ sub.1, if sub.2 = ForeachOut.diverge then ForeachOut.diverge else ForeachOut.ok)
  else (visited, ForeachOut.ok)

/-- A CVE record (results.go line 73). -/
structure CVE where
  ID : String
deriving DecidableEq, Repr

/-- A vulnerability finding (results.go line 54).  The Go field `Type` is
rendered `Type_` because `Type` is reserved in Lean. -/
structure Vuln where
  CallSite : CallSite
  Sandbox : String
  Type_ : String
  CVE : List CVE
  Restricted : Bool
deriving DecidableEq, Repr

/-- Vuln.CVEs (results.go line 63). -/
def Vuln.CVEs (v : Vuln) : strset :=
  v.CVE.foldl (fun s c => sAdd s c.ID) []

/-- A sandbox name record (results.go line 102). -/
structure SandboxName where
  Name : String
deriving DecidableEq, Repr

/-- A data source of a private access (results.go line 106). -/
structure DataSource where
  Location : SourceLocation
  Trace : Int
  TraceRef : String
deriving DecidableEq, Repr

/-- A private-access finding (results.go line 85). -/
structure PrivAccess where
  CallSite : CallSite
  Sandboxes : List SandboxName
  Sources : List DataSource
deriving DecidableEq, Repr

/-- PrivAccess.DataOwners (results.go line 92). -/
def PrivAccess.DataOwners (p : PrivAccess) : strset :=
  p.Sandboxes.foldl (fun s sb => sAdd s sb.Name) []

/-- The results of running SOAAP on an application (results.go line 17). -/
structure Results where
  Vulnerabilities : List Vuln
  PrivateAccess : List PrivAccess
  Traces : List CallTrace
deriving DecidableEq, Repr

/-- newGraphNode (graphing.go line 586). -/
def newGraphNode (cs : CallSite) (sandbox : String) : GraphNode :=
  { Name := cs.Function ++ " : " ++ sandbox
    Function := cs.Function
    Library := cs.Location.Library
    Sandbox := sandbox
    CVE := []
    Owners := []
    CallsIn := []
    CallsOut := []
    FlowsIn := []
    FlowsOut := []
    Tags := [] }

/-- Result of a Go function that either returns a graph, returns the zero
graph together with an error, panics, or (in the fuel model) diverges. -/
inductive ARes where
  | ok (g : CallGraph)
  | err (g : CallGraph) (msg : String)
  | panicked
  | diverged
deriving DecidableEq, Repr

/-- Whether an ARes is a returned error. -/
def ARes.isErr : ARes → Bool
  | ARes.err _ _ => true
  | _ => false

/-- CallTrace.graph (graphing.go line 954).  The node maker and the call
maker are the closures built by the extractor; the call maker mutates the
extractor's outer graph, threaded here as explicit state `s`. -/
def CallTrace.graph (t : CallTrace) (top : GraphNode) (traces : List CallTrace)
    (makeNode : CallSite → GraphNode)
    (makeCall : CallGraph → GraphNode → GraphNode → CallSite → CallGraph)
    (s : CallGraph) (fuel : Nat) : CallGraph × CallGraph × ForeachOut :=
  let g := NewCallGraph.AddNode top
  let res := ForeachModel fuel t traces
  let folded := res.1.foldl
    (fun (acc : CallGraph × CallGraph × GraphNode) cs =>
      let caller := makeNode cs
      let g := acc.1.AddNode caller
      let s := makeCall acc.2.1 caller acc.2.2 cs
      (g, s, caller))
    (g, s, top)
  (folded.1, folded.2.1, res.2)

/-- VulnGraph (graphing.go line 858): the callgraph of SOAAP's vulnerability
analysis.  Go's `results.Traces[v.Trace]` panics on an out-of-range index;
the per-finding loop with early error return becomes a recursion over the
finding list. -/
def VulnGraphAux (traces : List CallTrace) (fuel : Nat) :
    List Vuln → CallGraph → ARes
  | [], graph => ARes.ok graph
  | v :: rest, graph =>
    if 0 ≤ v.CallSite.Trace ∧ v.CallSite.Trace < (traces.length : Int) then
      let trace := traces.getD v.CallSite.Trace.toNat CallTrace.zero
      let fn := fun cs => newGraphNode cs v.Sandbox
      let call := fun (s : CallGraph) caller callee cs =>
        s.AddCall (newCall caller callee cs v.Sandbox)
      let top := fn v.CallSite
      let top := { top with CVE := v.CVEs }
      let graph := graph.AddNode top
      let r := trace.graph top traces fn call graph fuel
      match r.2.2 with
      | ForeachOut.err m => ARes.err NewCallGraph m
      | ForeachOut.diverge => ARes.diverged
      | ForeachOut.ok => VulnGraphAux traces fuel rest (r.2.1.Union r.1)
    else ARes.panicked

/-- VulnGraph (graphing.go line 858). -/
def VulnGraph (results : Results) (fuel : Nat) : ARes :=
  VulnGraphAux results.Traces fuel results.Vulnerabilities NewCallGraph

/-- The inner loop of PrivAccessGraph over the data sources of one finding
(graphing.go lines 928-936). -/
def PrivSourcesAux (traces : List CallTrace) (fuel : Nat) (top : GraphNode)
    (fn : CallSite → GraphNode)
    (flow : CallGraph → GraphNode → GraphNode → CallSite → CallGraph) :
    List DataSource → CallGraph → ARes
  | [], graph => ARes.ok graph
  | source :: rest, graph =>
    if 0 ≤ source.Trace ∧ source.Trace < (traces.length : Int) then
      let trace := traces.getD source.Trace.toNat CallTrace.zero
      let r := trace.graph top traces fn flow graph fuel
      match r.2.2 with
      | ForeachOut.err m => ARes.err NewCallGraph m
      | ForeachOut.diverge => ARes.diverged
      | ForeachOut.ok => PrivSourcesAux traces fuel top fn flow rest (r.2.1.Union r.1)
    else ARes.panicked

/-- PrivAccessGraph (graphing.go line 890): the callgraph of private-data
accesses.  The chunked progress reporting (lines 893-899 and 938-943) is
side-effect only and elided. -/
def PrivAccessGraphAux (traces : List CallTrace) (fuel : Nat) :
    List PrivAccess → CallGraph → ARes
  | [], graph => ARes.ok graph
  | a :: rest, graph =>
    if 0 ≤ a.CallSite.Trace ∧ a.CallSite.Trace < (traces.length : Int) then
      let trace := traces.getD a.CallSite.Trace.toNat CallTrace.zero
      let fn := fun cs => newGraphNode cs ""
      let call := fun (s : CallGraph) caller callee cs =>
        s.AddCall (newCall caller callee cs "")
      let flow := fun (s : CallGraph) caller callee cs =>
        s.AddFlow (newCall caller callee cs "")
      let top := fn a.CallSite
      let top := { top with Owners := a.DataOwners }
      let graph := graph.AddNode top
      let r := trace.graph top traces fn call graph fuel
      match r.2.2 with
      | ForeachOut.err m => ARes.err NewCallGraph m
      | ForeachOut.diverge => ARes.diverged
      | ForeachOut.ok =>
        match PrivSourcesAux traces fuel top fn flow a.Sources (r.2.1.Union r.1) with
        | ARes.ok g => PrivAccessGraphAux traces fuel rest g
        | other => other
    else ARes.panicked

/-- PrivAccessGraph (graphing.go line 890). -/
def PrivAccessGraph (results : Results) (fuel : Nat) : ARes :=
  PrivAccessGraphAux results.Traces fuel results.PrivateAccess NewCallGraph

/-- Results.ExtractGraph (results.go line 37): look up the registered
extractor (`graphExtractors` holds exactly "privaccess" and "vuln",
graphing.go line 835) or fail.  Go returns the pair `(CallGraph{}, err)`;
the error carries the zero graph.  The Go error text wraps the name in
single quotes, elided here. -/
def Results.ExtractGraph (r : Results) (analysis : String) (fuel : Nat) : ARes :=
  if analysis = "privaccess" then PrivAccessGraph r fuel
  else if analysis = "vuln" then VulnGraph r fuel
  else ARes.err NewCallGraph ("unknown analysis: " ++ analysis)

/-- Modelled from the spec: `CallGraph.Ancestors` is called by Filter
(analysis.go line 134) but its definition is not among the source files.
Spec section 4.5 says the kept leaf set "is expanded to include every
ancestor (unbounded depth) of each kept leaf"; the engine's walk along
callers and data sources is CollectNodes with the AllInputs selector, so
Ancestors is modelled as that walk at the given depth. -/
def CallGraph.Ancestors (cg : CallGraph) (leaf : String) (depth : Int)
    (fuel : Nat) : strset :=
  cg.CollectNodes fuel leaf GraphNode.AllInputs depth

/-- Modelled from the spec: the `CallGraph.Filter` method called on
analysis.go line 137 is not among the source files.  Spec section 4.5 says
"the accumulator is replaced by the induced subgraph over that node set";
modelled as keeping the nodes in `keep` and every edge with both endpoints
kept, in the style of the keep phases of Intersect. -/
def CallGraph.FilterKeep (cg : CallGraph) (keep : strset) : CallGraph :=
  let g := keep.foldl
    (fun g id => g.AddNode ((alookup cg.nodes id).getD GraphNode.zero)) NewCallGraph
  let g := cg.calls.foldl
    (fun g p =>
      if sContains keep p.1.Caller && sContains keep p.1.Callee then
        g.AddCalls p.1 p.2
      else g)
    g
  cg.flows.foldl
    (fun g p =>
      if sContains keep p.1.Caller && sContains keep p.1.Callee then
        g.AddFlows p.1 p.2
      else g)
    g

/-- One clause step of Filter (analysis.go lines 97-130), recursing over the
colon-separated clauses with the accumulated leaf set.  Go's `s[0]` on an
empty clause panics (index out of range).  Regular-expression compilation
and matching belong to Go's standard library and are abstracted as the
parameters `compileOk` (does the pattern compile) and `rmatch` (does the
compiled pattern match a string). -/
def FilterAux (compileOk : String → Bool) (rmatch : String → String → Bool)
    (cg : CallGraph) (fuel : Nat) :
    List String → strset → ARes
  | [], leaves =>
    let keep := leaves.foldl
      (fun keep leaf => sUnion keep (cg.Ancestors leaf (-1) fuel)) []
    ARes.ok (cg.FilterKeep keep)
  | s :: rest, leaves =>
    if s = "*" then FilterAux compileOk rmatch cg fuel rest (sUnion leaves cg.leaves)
    else
      match s.data with
      | [] => ARes.panicked
      | c :: _ =>
        if c = '+' ∨ c = '-' then
          let add := c = '+'
          let pat := String.mk s.data.tail
          if compileOk pat then
            let leaves := cg.leaves.foldl
              (fun ls leaf =>
                if rmatch pat leaf then
                  if add then sAdd ls leaf else sRemove ls leaf
                else ls)
              leaves
            FilterAux compileOk rmatch cg fuel rest leaves
          else ARes.err cg "regex compile error"
        else ARes.err NewCallGraph ("unknown filter clause: " ++ s)

/-- Go strings.Split with a one-character separator, over character lists:
splitting the empty string yields one empty piece. -/
def splitChar (sep : Char) : List Char → List (List Char)
  | [] => [[]]
  | c :: rest =>
    match splitChar sep rest with
    | [] => [[]]
    | h :: t => if c = sep then [] :: h :: t else (c :: h) :: t

/-- Filter (analysis.go line 94): filter a graph by a colon-separated list
of leaf clauses. -/
def FilterModel (compileOk : String → Bool) (rmatch : String → String → Bool)
    (cg : CallGraph) (spec : String) (fuel : Nat) : ARes :=
  FilterAux compileOk rmatch cg fuel ((splitChar ':' spec.data).map String.mk) []

/-- extractAndCombine (analysis.go line 64). -/
def extractAndCombine (graphname : String) (r : Results)
    (analyse : CallGraph → ARes) (fuel : Nat) : ARes :=
  match r.ExtractGraph graphname fuel with
  | ARes.ok g => analyse g
  | other => other

/-- ApplyAnalysis (analysis.go line 26): dispatch on the leading sigil of an
analysis spec.  Go's `spec[0]` on the empty string panics. -/
def ApplyAnalysis (spec : String) (cg : CallGraph) (results : Results)
    (depth : Int) (fuel : Nat)
    (compileOk : String → Bool) (rmatch : String → String → Bool) : ARes :=
  match spec.data with
  | [] => ARes.panicked
  | c :: rest =>
    if c = '+' then
      extractAndCombine (String.mk rest) results
        (fun g => ARes.ok (cg.Union g)) fuel
    else if c = '^' then
      extractAndCombine (String.mk rest) results
        (fun g => ARes.ok (cg.Intersect g depth true fuel)) fuel
    else if c = '.' then
      extractAndCombine (String.mk rest) results
        (fun g => ARes.ok (cg.AddIntersecting g depth fuel)) fuel
    else if c = ':' then
      FilterModel compileOk rmatch cg (String.mk rest) fuel
    else
      extractAndCombine spec results
        (fun g => ARes.ok (cg.Union g)) fuel

/-- Models strconv.ParseInt(s, 10, 32) far enough for trace keys: optional
sign, a non-empty run of decimal digits, and the 32-bit range check. -/
def parseIntDec32 (s : String) : Except String Int :=
  match s.data with
  | [] => Except.error "invalid syntax"
  | c :: rest =>
    let signDigits : Bool × List Char :=
      if c = '-' then (true, rest)
      else if c = '+' then (false, rest)
      else (false, c :: rest)
    if signDigits.2 = [] then Except.error "invalid syntax"
    else if signDigits.2.all Char.isDigit then
      let n : Nat := signDigits.2.foldl (fun a d => 10 * a + (d.toNat - 48)) 0
      let v : Int := if signDigits.1 then -(n : Int) else (n : Int)
      if v < -(2 ^ 31) ∨ (2 ^ 31 - 1 : Int) < v then Except.error "value out of range"
      else Except.ok v
    else Except.error "invalid syntax"

/-- traceNumber (parsing.go line 202): extract a trace number from a key of
the form "!traceN". -/
def traceNumber (name : String) : Except String Int :=
  if name.data.take 6 = "!trace".data then parseIntDec32 (String.mk (name.data.drop 6))
  else Except.error (name ++ " is not a trace name")

/-- Outcome of dispatching one unrecognized top-level key in ParseJSON. -/
inductive ParseOutcome where
  | err (msg : String)
  | panicked
  | ok
deriving DecidableEq, Repr

/-- The trace dispatch of ParseJSON's default branch together with the front
of parseTrace (parsing.go lines 106-116 and 135-139): traceNumber on the
key, parseTrace's index range check (which only rejects indices that are
too large), and the `t := &traces[index]` slice access, which panics when
the index is negative.  Decoding the JSON body of the trace is elided;
outcome `ok` stands for proceeding into it. -/
def parseTraceKey (k : String) (numTraces : Nat) : ParseOutcome :=
  match traceNumber k with
  | Except.error _ => ParseOutcome.err (k ++ " is not a trace")
  | Except.ok index =>
    if (numTraces : Int) ≤ index then ParseOutcome.err "index too large for traces"
    else if index < 0 then ParseOutcome.panicked
    else ParseOutcome.ok

section MapLemmas

variable {α β : Type} [DecidableEq α]

theorem alookup_ainsert (m : List (α × β)) (k : α) (v : β) (k' : α) :
    alookup (ainsert m k v) k' = if k = k' then some v else alookup m k' := by
  induction m with
  | nil => simp [ainsert, alookup]
  | cons p t ih =>
    obtain ⟨k0, v0⟩ := p
    by_cases h0 : k0 = k
    · subst h0
      by_cases h1 : k0 = k' <;> simp [ainsert, alookup, h1]
    · by_cases h1 : k0 = k'
      · subst h1
        have h2 : ¬ k = k0 := fun h => h0 h.symm
        simp [ainsert, alookup, h0, h2]
      · simp [ainsert, alookup, h0, h1, ih]

theorem alookup_eq_none_iff (m : List (α × β)) (k : α) :
    alookup m k = none ↔ k ∉ akeys m := by
  induction m with
  | nil => simp [alookup, akeys]
  | cons p t ih =>
    obtain ⟨k0, v0⟩ := p
    by_cases h0 : k0 = k
    · subst h0
      simp [alookup, akeys]
    · simp [alookup, h0, akeys, ih, Ne.symm h0]

theorem alookup_isSome_iff (m : List (α × β)) (k : α) :
    (alookup m k).isSome ↔ k ∈ akeys m := by
  have h := alookup_eq_none_iff m k
  cases hm : alookup m k with
  | none =>
    simp only [hm, Option.isSome_none, Bool.false_eq_true, false_iff]
    exact (h.mp hm)
  | some v =>
    simp only [hm, Option.isSome_some, true_iff]
    by_contra hk
    rw [← h] at hk
    simp [hm] at hk

theorem mem_akeys_iff_lookup (m : List (α × β)) (k : α) :
    k ∈ akeys m ↔ ∃ v, alookup m k = some v := by
  rw [← alookup_isSome_iff]
  cases alookup m k <;> simp

theorem mem_akeys_ainsert (m : List (α × β)) (k : α) (v : β) (k' : α) :
    k' ∈ akeys (ainsert m k v) ↔ k' ∈ akeys m ∨ k' = k := by
  rw [mem_akeys_iff_lookup, mem_akeys_iff_lookup, alookup_ainsert]
  by_cases h : k = k'
  · subst h
    simp
  · have h' : k' ≠ k := fun hx => h hx.symm
    simp [h, h']

theorem akeys_ainsert_nodup (m : List (α × β)) (k : α) (v : β)
    (h : (akeys m).Nodup) : (akeys (ainsert m k v)).Nodup := by
  induction m with
  | nil => simp [ainsert, akeys]
  | cons p t ih =>
    obtain ⟨k0, v0⟩ := p
    simp only [akeys, List.map_cons, List.nodup_cons] at h
    by_cases h0 : k0 = k
    · subst h0
      simpa [ainsert, akeys, List.nodup_cons] using h
    · simp only [ainsert, if_neg h0, akeys, List.map_cons, List.nodup_cons]
      constructor
      · have : k0 ∈ List.map Prod.fst (ainsert t k v) ↔
            k0 ∈ List.map Prod.fst t ∨ k0 = k := mem_akeys_ainsert t k v k0
        rw [this]
        rintro (hx | hx)
        · exact h.1 hx
        · exact h0 hx
      · exact ih h.2

theorem agetD_ainsert (m : List (α × β)) (k : α) (v : β) (k' : α) (d : β) :
    agetD (ainsert m k v) k' d = if k = k' then v else agetD m k' d := by
  simp only [agetD, alookup_ainsert]
  by_cases h : k = k' <;> simp [h]

end MapLemmas

theorem mem_sAdd (s : strset) (k x : String) :
    x ∈ sAdd s k ↔ x ∈ s ∨ x = k := by
  by_cases h : k ∈ s
  · simp only [sAdd, if_pos h]
    constructor
    · exact Or.inl
    · rintro (hx | hx)
      · exact hx
      · exact hx ▸ h
  · simp [sAdd, if_neg h]

theorem mem_sUnion (s other : strset) (x : String) :
    x ∈ sUnion s other ↔ x ∈ s ∨ x ∈ other := by
  induction other generalizing s with
  | nil => simp [sUnion]
  | cons y t ih =>
    show x ∈ sUnion (sAdd s y) t ↔ _
    rw [ih, mem_sAdd]
    simp only [List.mem_cons]
    tauto

theorem sAdd_nodup {s : strset} (h : s.Nodup) (k : String) : (sAdd s k).Nodup := by
  by_cases hk : k ∈ s
  · simpa [sAdd, if_pos hk]
  · simp only [sAdd, if_neg hk]
    simpa [List.nodup_append] using ⟨h, hk⟩

theorem sUnion_nodup {s : strset} (h : s.Nodup) (other : strset) :
    (sUnion s other).Nodup := by
  induction other generalizing s with
  | nil => exact h
  | cons y t ih => exact ih (sAdd_nodup h y)

theorem mem_sRemove {s : strset} (h : s.Nodup) (k x : String) :
    x ∈ sRemove s k ↔ x ∈ s ∧ x ≠ k := by
  unfold sRemove
  rw [List.Nodup.mem_erase_iff h]
  tauto

theorem sRemove_nodup {s : strset} (h : s.Nodup) (k : String) :
    (sRemove s k).Nodup := List.Nodup.erase k h

/-- A bare graph node with only a name, as the tests below need. -/
def simpleNode (nm : String) : GraphNode := { GraphNode.zero with Name := nm, Function := nm }

/-- A call edge between two named nodes with an unknown location. -/
def simpleCall (x y : String) : Call :=
  { Caller := x, Callee := y, CallSite := SourceLocation.zero, Sandbox := "" }

/-- The linear chain a -> b -> c -> d with unit edge weights, built the way
the graph builders do: AddNode for every node, then AddCall for every edge. -/
def chainGraphC1 : CallGraph :=
  ((((((NewCallGraph.AddNode (simpleNode "a")).AddNode
      (simpleNode "b")).AddNode
      (simpleNode "c")).AddNode
      (simpleNode "d")).AddCall (simpleCall "a" "b")).AddCall
      (simpleCall "b" "c")).AddCall (simpleCall "c" "d")

/-- C1: the claim says Simplified is idempotent.  It is not: on the chain
a -> b -> c -> d, Simplified collapses the chain into one edge a -> d of
weight 3, but the stored node for `a` keeps its stale outgoing list
[a -> b, a -> d], so a second Simplified treats `a` as a branching node,
re-adds the dropped edge a -> b with weight 1, conjures a node with the
empty name out of the missing "b" map entry, and records a -> d with weight
1 instead of 3.  Node sets and edge weights of Simplified(Simplified(G))
and Simplified(G) therefore differ. -/
theorem C1_simplified_not_idempotent :
    ("" ∈ akeys ((chainGraphC1.Simplified 10).Simplified 10).nodes ∧
      "" ∉ akeys (chainGraphC1.Simplified 10).nodes) ∧
    agetD ((chainGraphC1.Simplified 10).Simplified 10).calls (simpleCall "a" "d") 0 = 1 ∧
    agetD (chainGraphC1.Simplified 10).calls (simpleCall "a" "d") 0 = 3 ∧
    agetD ((chainGraphC1.Simplified 10).Simplified 10).calls (simpleCall "a" "b") 0 = 1 ∧
    agetD (chainGraphC1.Simplified 10).calls (simpleCall "a" "b") 0 = 0 := by
  decide

/-- A call site whose location has an empty file name but a nonzero line. -/
def siteC5 : CallSite :=
  { Function := "f", Location := { File := "", Line := 5, Library := "" },
    Trace := 0, TraceName := "" }

/-- A terminal trace holding only siteC5. -/
def traceC5 : CallTrace := { CallSites := [siteC5], Next := -1 }

/-- C5 counterexample: the claim says trace resolution omits exactly the
entries whose location is entirely unknown (empty file AND zero line,
equivalently the zero-line entries).  The code filters on the file name
alone (results.go line 135), so a call site with an empty file but line 5
is omitted even though both readings of the claim would keep it. -/
theorem C5_counterexample :
    (ForeachModel 1 traceC5 []).1 = [] ∧
    traceC5.CallSites.filter
      (fun cs => !(decide (cs.Location.File = "" ∧ cs.Location.Line = 0))) = [siteC5] ∧
    traceC5.CallSites.filter (fun cs => !(decide (cs.Location.Line = 0))) = [siteC5] := by
  decide

/-- C5 as amended: resolving a trace with next == -1 invokes the callback on
exactly the call sites of the trace, in stored order, omitting exactly the
entries whose location has an empty file name (regardless of line number),
and reports no error. -/
theorem C5_amended (t : CallTrace) (traces : List CallTrace) (fuel : Nat)
    (h : t.Next = -1) :
    ForeachModel fuel t traces =
      (t.CallSites.filter (fun cs => cs.Location.File ≠ ""), ForeachOut.ok) := by
  rw [ForeachModel.eq_def, h]
  norm_num

/-- Witness for C5_amended at a concrete terminal trace. -/
theorem C5_amended_witness :
    traceC5.Next = -1 ∧
    ForeachModel 1 traceC5 [] =
      (traceC5.CallSites.filter (fun cs => cs.Location.File ≠ ""), ForeachOut.ok) :=
  ⟨by decide, C5_amended traceC5 [] 1 (by decide)⟩

/-- A trace that continues into trace 1. -/
def traceC6a : CallTrace := { CallSites := [], Next := 1 }

/-- A trace whose continuation index 5 is out of range for two traces. -/
def traceC6b : CallTrace := { CallSites := [], Next := 5 }

/-- C6: the claim says an out-of-range `next` anywhere along the
continuation chain makes Foreach return an out-of-range error.  Resolving
traceC6b directly does return the error, but resolving traceC6a, which
continues into traceC6b, returns nil: results.go line 146 discards the
error of the recursive Foreach call, so errors below the first continuation
are swallowed. -/
theorem C6_deep_range_error_swallowed :
    ForeachModel 5 traceC6a [traceC6a, traceC6b] = ([], ForeachOut.ok) ∧
    ForeachModel 5 traceC6b [traceC6a, traceC6b] =
      ([], ForeachOut.err "trace ID out of range") := by
  decide

/-- C7: the claim (and the function's own comment, strset.go line 66) says
Union returns a new set and mutates neither operand.  In the code
`result := s` aliases the receiver map, so after `s.Union(t)` the receiver
holds the union: starting from the empty set s and t = singleton x, the
receiver afterwards contains x.  Intersection does allocate a fresh map and
leaves both operands unchanged. -/
theorem C7_union_mutates_receiver :
    strsetUnionGo [] ["x"] = (["x"], ["x"]) ∧
    ([] : strset) ≠ (["x"] : strset) ∧
    strsetIntersectionGo ["x"] ["x", "y"] = (["x"], ["x"], ["x", "y"]) := by
  decide

/-- C10: the key "!trace-1" passes traceNumber (strconv.ParseInt accepts the
negative number), parseTrace's range check rejects only indices that are
greater than or equal to the trace count, and the subsequent indexing of the
trace slice with -1 is out of bounds, so the error branch is reached by a
panic rather than a returned parse error. -/
theorem C10_negative_trace_index_panics :
    traceNumber "!trace-1" = Except.ok (-1) ∧
    parseTraceKey "!trace-1" 1 = ParseOutcome.panicked :=
  ⟨rfl, by decide⟩

/-- Project the graph out of an ARes (ok and err carry graphs). -/
def ARes.graphD : ARes → CallGraph
  | ARes.ok g => g
  | ARes.err g _ => g
  | _ => NewCallGraph

/-- Whether an ARes is a normal result. -/
def ARes.isOk : ARes → Bool
  | ARes.ok _ => true
  | _ => false

/-- Call site "a" of trace 0 in the C8 scenario. -/
def siteC8a : CallSite :=
  { Function := "a", Location := { File := "a.c", Line := 1, Library := "la" },
    Trace := 0, TraceName := "" }

/-- Call site "b" of trace 0 in the C8 scenario. -/
def siteC8b : CallSite :=
  { Function := "b", Location := { File := "b.c", Line := 2, Library := "lb" },
    Trace := 0, TraceName := "" }

/-- The finding's own call site in the C8 scenario. -/
def siteC8w : CallSite :=
  { Function := "w", Location := { File := "w.c", Line := 3, Library := "lw" },
    Trace := 0, TraceName := "!trace0" }

/-- The single vulnerability finding of the C8 scenario: sandbox s1,
CVE-1, trace 0. -/
def vulnC8 : Vuln :=
  { CallSite := siteC8w, Sandbox := "s1", Type_ := "", CVE := [⟨"CVE-1"⟩],
    Restricted := false }

/-- The C8 input: one finding, and trace 0 = [a, b] with next = -1. -/
def resultsC8 : Results :=
  { Vulnerabilities := [vulnC8], PrivateAccess := [],
    Traces := [{ CallSites := [siteC8a, siteC8b], Next := -1 }] }

/-- C8 counterexample: the claim says the node for "a" is tagged with
CVE-1.  In the produced graph the CVE tag sits on the node made from the
finding's own call site (VulnGraph sets top.CVE, graphing.go line 873); the
node for "a" carries no CVE. -/
theorem C8_counterexample :
    (VulnGraph resultsC8 10).isOk = true ∧
    (agetD (ARes.graphD (VulnGraph resultsC8 10)).nodes "a : s1" GraphNode.zero).CVE = [] ∧
    "CVE-1" ∈ (agetD (ARes.graphD (VulnGraph resultsC8 10)).nodes "w : s1" GraphNode.zero).CVE := by
  decide

/-- C8 as amended: on the C8 input, VulnGraph produces exactly three nodes
(the finding's own site, "a" and "b", each keyed by function and sandbox
s1), where the finding's own node carries CVE-1 and sandbox s1, "a" and "b"
carry sandbox s1 and no CVE, chained by call edges a -> top and b -> a of
weight 1 each, with no flow edges. -/
theorem C8_amended :
    (VulnGraph resultsC8 10).isOk = true ∧
    akeys (ARes.graphD (VulnGraph resultsC8 10)).nodes = ["w : s1", "a : s1", "b : s1"] ∧
    (ARes.graphD (VulnGraph resultsC8 10)).calls.map
      (fun p => (p.1.Caller, p.1.Callee, p.2)) =
      [("a : s1", "w : s1", 1), ("b : s1", "a : s1", 1)] ∧
    (ARes.graphD (VulnGraph resultsC8 10)).flows = [] ∧
    (agetD (ARes.graphD (VulnGraph resultsC8 10)).nodes "w : s1" GraphNode.zero).CVE = ["CVE-1"] ∧
    (agetD (ARes.graphD (VulnGraph resultsC8 10)).nodes "w : s1" GraphNode.zero).Sandbox = "s1" ∧
    (agetD (ARes.graphD (VulnGraph resultsC8 10)).nodes "a : s1" GraphNode.zero).CVE = [] ∧
    (agetD (ARes.graphD (VulnGraph resultsC8 10)).nodes "a : s1" GraphNode.zero).Sandbox = "s1" ∧
    (agetD (ARes.graphD (VulnGraph resultsC8 10)).nodes "b : s1" GraphNode.zero).CVE = [] ∧
    (agetD (ARes.graphD (VulnGraph resultsC8 10)).nodes "b : s1" GraphNode.zero).Sandbox = "s1" := by
  decide

/-- C9 counterexample: the claim says any clause that is neither "*" nor
begins with '+' or '-' makes Filter return an unknown-clause error.  The
empty clause (which arises from the analysis spec ":", whose filter spec is
the empty string, one empty clause) is such a clause, but Go's `s[0]` on an
empty clause panics with an index-out-of-range instead of returning an
error. -/
theorem C9_counterexample :
    FilterModel (fun _ => true) (fun _ _ => false) NewCallGraph "" 3 = ARes.panicked ∧
    (FilterModel (fun _ => true) (fun _ _ => false) NewCallGraph "" 3).isErr = false ∧
    ApplyAnalysis ":" NewCallGraph ⟨[], [], []⟩ 0 3
      (fun _ => true) (fun _ _ => false) = ARes.panicked := by
  decide

theorem AddNode_calls (cg : CallGraph) (n : GraphNode) :
    (cg.AddNode n).calls = cg.calls := rfl

theorem AddNode_flows (cg : CallGraph) (n : GraphNode) :
    (cg.AddNode n).flows = cg.flows := rfl

theorem AddCall_flows (cg : CallGraph) (c : Call) :
    (cg.AddCall c).flows = cg.flows := rfl

theorem AddFlow_calls (cg : CallGraph) (c : Call) :
    (cg.AddFlow c).calls = cg.calls := rfl

theorem AddCall_calls (cg : CallGraph) (c : Call) :
    (cg.AddCall c).calls = ainsert cg.calls c (agetD cg.calls c 0 + 1) := rfl

theorem AddFlow_flows (cg : CallGraph) (c : Call) :
    (cg.AddFlow c).flows = ainsert cg.flows c (agetD cg.flows c 0 + 1) := rfl

theorem mem_akeys_AddNode_nodes (cg : CallGraph) (n : GraphNode) (k : String) :
    k ∈ akeys (cg.AddNode n).nodes ↔ k ∈ akeys cg.nodes ∨ k = n.Name := by
  show k ∈ akeys (ainsert cg.nodes n.Name _) ↔ _
  rw [mem_akeys_ainsert]

theorem mem_akeys_AddCall_nodes (cg : CallGraph) (c : Call) (k : String) :
    k ∈ akeys (cg.AddCall c).nodes ↔
      k ∈ akeys cg.nodes ∨ k = c.Caller ∨ k = c.Callee := by
  show k ∈ akeys (ainsert (ainsert cg.nodes c.Caller _) c.Callee _) ↔ _
  rw [mem_akeys_ainsert, mem_akeys_ainsert]
  tauto

theorem mem_akeys_AddFlow_nodes (cg : CallGraph) (c : Call) (k : String) :
    k ∈ akeys (cg.AddFlow c).nodes ↔
      k ∈ akeys cg.nodes ∨ k = c.Caller ∨ k = c.Callee := by
  show k ∈ akeys (ainsert (ainsert cg.nodes c.Caller _) c.Callee _) ↔ _
  rw [mem_akeys_ainsert, mem_akeys_ainsert]
  tauto

theorem agetD_AddCall_calls (cg : CallGraph) (c e : Call) :
    agetD (cg.AddCall c).calls e 0 =
      agetD cg.calls e 0 + (if c = e then 1 else 0) := by
  rw [AddCall_calls, agetD_ainsert]
  by_cases h : c = e
  · subst h
    simp
  · simp [h]

theorem mem_akeys_AddCall_calls (cg : CallGraph) (c e : Call) :
    e ∈ akeys (cg.AddCall c).calls ↔ e ∈ akeys cg.calls ∨ e = c := by
  rw [AddCall_calls, mem_akeys_ainsert]

theorem agetD_AddFlow_flows (cg : CallGraph) (c e : Call) :
    agetD (cg.AddFlow c).flows e 0 =
      agetD cg.flows e 0 + (if c = e then 1 else 0) := by
  rw [AddFlow_flows, agetD_ainsert]
  by_cases h : c = e
  · subst h
    simp
  · simp [h]

theorem mem_akeys_AddFlow_flows (cg : CallGraph) (c e : Call) :
    e ∈ akeys (cg.AddFlow c).flows ↔ e ∈ akeys cg.flows ∨ e = c := by
  rw [AddFlow_flows, mem_akeys_ainsert]

theorem unionCallStep_flows (a : CallGraph) (p : Call × Int) :
    (unionCallStep a p).flows = a.flows := rfl

theorem unionFlowStep_calls (a : CallGraph) (p : Call × Int) :
    (unionFlowStep a p).calls = a.calls := rfl

theorem unionCallStep_calls_get (a : CallGraph) (p : Call × Int) (e : Call) :
    agetD (unionCallStep a p).calls e 0 =
      agetD a.calls e 0 + (if p.1 = e then p.2 else 0) := by
  show agetD (ainsert (a.AddCall p.1).calls p.1 (agetD (a.AddCall p.1).calls p.1 0 + (p.2 - 1))) e 0 = _
  rw [agetD_ainsert]
  by_cases h : p.1 = e
  · subst h
    rw [agetD_AddCall_calls]
    simp
  · simp only [if_neg h]
    rw [agetD_AddCall_calls]
    simp [h]

theorem unionCallStep_calls_keys (a : CallGraph) (p : Call × Int) (e : Call) :
    e ∈ akeys (unionCallStep a p).calls ↔ e ∈ akeys a.calls ∨ e = p.1 := by
  show e ∈ akeys (ainsert (a.AddCall p.1).calls p.1 _) ↔ _
  rw [mem_akeys_ainsert, mem_akeys_AddCall_calls]
  tauto

theorem unionCallStep_nodes_keys (a : CallGraph) (p : Call × Int) (k : String) :
    k ∈ akeys (unionCallStep a p).nodes ↔
      k ∈ akeys a.nodes ∨ k = p.1.Caller ∨ k = p.1.Callee := by
  show k ∈ akeys (a.AddCall p.1).nodes ↔ _
  rw [mem_akeys_AddCall_nodes]

theorem unionFlowStep_flows_get (a : CallGraph) (p : Call × Int) (e : Call) :
    agetD (unionFlowStep a p).flows e 0 =
      agetD a.flows e 0 + (if p.1 = e then p.2 else 0) := by
  show agetD (ainsert (a.AddFlow p.1).flows p.1 (agetD (a.AddFlow p.1).flows p.1 0 + (p.2 - 1))) e 0 = _
  rw [agetD_ainsert]
  by_cases h : p.1 = e
  · subst h
    rw [agetD_AddFlow_flows]
    simp
  · simp only [if_neg h]
    rw [agetD_AddFlow_flows]
    simp [h]

theorem unionFlowStep_flows_keys (a : CallGraph) (p : Call × Int) (e : Call) :
    e ∈ akeys (unionFlowStep a p).flows ↔ e ∈ akeys a.flows ∨ e = p.1 := by
  show e ∈ akeys (ainsert (a.AddFlow p.1).flows p.1 _) ↔ _
  rw [mem_akeys_ainsert, mem_akeys_AddFlow_flows]
  tauto

theorem unionFlowStep_nodes_keys (a : CallGraph) (p : Call × Int) (k : String) :
    k ∈ akeys (unionFlowStep a p).nodes ↔
      k ∈ akeys a.nodes ∨ k = p.1.Caller ∨ k = p.1.Callee := by
  show k ∈ akeys (a.AddFlow p.1).nodes ↔ _
  rw [mem_akeys_AddFlow_nodes]

/-- Total weight an edge list contributes to one edge key. -/
def wsum (l : List (Call × Int)) (e : Call) : Int :=
  (l.map (fun p => if p.1 = e then p.2 else 0)).sum

theorem wsum_nil (e : Call) : wsum [] e = 0 := rfl

theorem wsum_cons (p : Call × Int) (t : List (Call × Int)) (e : Call) :
    wsum (p :: t) e = (if p.1 = e then p.2 else 0) + wsum t e := by
  simp [wsum]

theorem wsum_eq_zero_of_not_mem {l : List (Call × Int)} {e : Call}
    (h : e ∉ akeys l) : wsum l e = 0 := by
  induction l with
  | nil => rfl
  | cons p t ih =>
    simp only [akeys, List.map_cons, List.mem_cons] at h
    push_neg at h
    rw [wsum_cons, if_neg (fun hx : p.1 = e => h.1 hx.symm), ih h.2]
    simp

theorem wsum_eq_agetD {l : List (Call × Int)} (h : (akeys l).Nodup) (e : Call) :
    wsum l e = agetD l e 0 := by
  induction l with
  | nil => rfl
  | cons p t ih =>
    simp only [akeys, List.map_cons, List.nodup_cons] at h
    rw [wsum_cons]
    by_cases hp : p.1 = e
    · subst hp
      rw [wsum_eq_zero_of_not_mem h.1]
      simp [agetD, alookup]
    · rw [if_neg hp, ih h.2]
      simp only [agetD, alookup]
      rw [if_neg hp]
      simp [agetD]

theorem foldl_proj_eq {σ α γ : Type} (f : σ → α → σ) (proj : σ → γ)
    (h : ∀ a p, proj (f a p) = proj a) (l : List α) (acc : σ) :
    proj (l.foldl f acc) = proj acc := by
  induction l generalizing acc with
  | nil => rfl
  | cons p t ih => rw [List.foldl_cons, ih, h]

theorem unionNodesFold_calls (l : List (String × GraphNode)) (acc : CallGraph) :
    (l.foldl (fun a p => a.AddNode p.2) acc).calls = acc.calls :=
  foldl_proj_eq _ CallGraph.calls (fun a p => AddNode_calls a p.2) l acc

theorem unionNodesFold_flows (l : List (String × GraphNode)) (acc : CallGraph) :
    (l.foldl (fun a p => a.AddNode p.2) acc).flows = acc.flows :=
  foldl_proj_eq _ CallGraph.flows (fun a p => AddNode_flows a p.2) l acc

theorem unionNodesFold_keys (l : List (String × GraphNode)) (acc : CallGraph)
    (k : String) :
    k ∈ akeys (l.foldl (fun a p => a.AddNode p.2) acc).nodes ↔
      k ∈ akeys acc.nodes ∨ ∃ p ∈ l, k = (p.2 : GraphNode).Name := by
  induction l generalizing acc with
  | nil => simp
  | cons p t ih =>
    rw [List.foldl_cons, ih, mem_akeys_AddNode_nodes]
    simp only [List.mem_cons]
    constructor
    · rintro ((h | h) | ⟨q, hq, hk⟩)
      · exact Or.inl h
      · exact Or.inr ⟨p, Or.inl rfl, h⟩
      · exact Or.inr ⟨q, Or.inr hq, hk⟩
    · rintro (h | ⟨q, (hq | hq), hk⟩)
      · exact Or.inl (Or.inl h)
      · exact Or.inl (Or.inr (hq ▸ hk))
      · exact Or.inr ⟨q, hq, hk⟩

theorem unionCallsFold_flows (l : List (Call × Int)) (acc : CallGraph) :
    (l.foldl unionCallStep acc).flows = acc.flows :=
  foldl_proj_eq _ CallGraph.flows unionCallStep_flows l acc

theorem unionCallsFold_get (l : List (Call × Int)) (acc : CallGraph) (e : Call) :
    agetD (l.foldl unionCallStep acc).calls e 0 =
      agetD acc.calls e 0 + wsum l e := by
  induction l generalizing acc with
  | nil => simp [wsum_nil]
  | cons p t ih =>
    rw [List.foldl_cons, ih, unionCallStep_calls_get, wsum_cons]
    ring

theorem unionCallsFold_keys (l : List (Call × Int)) (acc : CallGraph) (e : Call) :
    e ∈ akeys (l.foldl unionCallStep acc).calls ↔
      e ∈ akeys acc.calls ∨ e ∈ akeys l := by
  induction l generalizing acc with
  | nil => simp [akeys]
  | cons p t ih =>
    rw [List.foldl_cons, ih, unionCallStep_calls_keys]
    simp only [akeys, List.map_cons, List.mem_cons]
    tauto

theorem unionCallsFold_nodes_keys (l : List (Call × Int)) (acc : CallGraph)
    (k : String) :
    k ∈ akeys (l.foldl unionCallStep acc).nodes ↔
      k ∈ akeys acc.nodes ∨ ∃ p ∈ l, k = (p.1 : Call).Caller ∨ k = p.1.Callee := by
  induction l generalizing acc with
  | nil => simp
  | cons p t ih =>
    rw [List.foldl_cons, ih, unionCallStep_nodes_keys]
    simp only [List.mem_cons]
    constructor
    · rintro ((h | h) | ⟨q, hq, hk⟩)
      · exact Or.inl h
      · exact Or.inr ⟨p, Or.inl rfl, h⟩
      · exact Or.inr ⟨q, Or.inr hq, hk⟩
    · rintro (h | ⟨q, (hq | hq), hk⟩)
      · exact Or.inl (Or.inl h)
      · exact Or.inl (Or.inr (hq ▸ hk))
      · exact Or.inr ⟨q, hq, hk⟩

theorem unionFlowsFold_calls (l : List (Call × Int)) (acc : CallGraph) :
    (l.foldl unionFlowStep acc).calls = acc.calls :=
  foldl_proj_eq _ CallGraph.calls unionFlowStep_calls l acc

theorem unionFlowsFold_get (l : List (Call × Int)) (acc : CallGraph) (e : Call) :
    agetD (l.foldl unionFlowStep acc).flows e 0 =
      agetD acc.flows e 0 + wsum l e := by
  induction l generalizing acc with
  | nil => simp [wsum_nil]
  | cons p t ih =>
    rw [List.foldl_cons, ih, unionFlowStep_flows_get, wsum_cons]
    ring

theorem unionFlowsFold_keys (l : List (Call × Int)) (acc : CallGraph) (e : Call) :
    e ∈ akeys (l.foldl unionFlowStep acc).flows ↔
      e ∈ akeys acc.flows ∨ e ∈ akeys l := by
  induction l generalizing acc with
  | nil => simp [akeys]
  | cons p t ih =>
    rw [List.foldl_cons, ih, unionFlowStep_flows_keys]
    simp only [akeys, List.map_cons, List.mem_cons]
    tauto

theorem unionFlowsFold_nodes_keys (l : List (Call × Int)) (acc : CallGraph)
    (k : String) :
    k ∈ akeys (l.foldl unionFlowStep acc).nodes ↔
      k ∈ akeys acc.nodes ∨ ∃ p ∈ l, k = (p.1 : Call).Caller ∨ k = p.1.Callee := by
  induction l generalizing acc with
  | nil => simp
  | cons p t ih =>
    rw [List.foldl_cons, ih, unionFlowStep_nodes_keys]
    simp only [List.mem_cons]
    constructor
    · rintro ((h | h) | ⟨q, hq, hk⟩)
      · exact Or.inl h
      · exact Or.inr ⟨p, Or.inl rfl, h⟩
      · exact Or.inr ⟨q, Or.inr hq, hk⟩
    · rintro (h | ⟨q, (hq | hq), hk⟩)
      · exact Or.inl (Or.inl h)
      · exact Or.inl (Or.inr (hq ▸ hk))
      · exact Or.inr ⟨q, hq, hk⟩

theorem Union_unfold (cg g : CallGraph) :
    cg.Union g =
      g.flows.foldl unionFlowStep
        (g.calls.foldl unionCallStep
          (g.nodes.foldl (fun a p => a.AddNode p.2) cg)) := rfl

theorem mem_akeys_iff_exists (m : List (α × β)) [DecidableEq α] (k : α) :
    k ∈ akeys m ↔ ∃ p ∈ m, (p : α × β).1 = k := by
  simp [akeys, List.mem_map]

/-- The structural well-formedness every graph produced by the engine has:
each stored node is keyed by its own name, every edge endpoint is a stored
node, and the edge maps have no duplicate keys. -/
def WFUnionOperand (g : CallGraph) : Prop :=
  (∀ p ∈ g.nodes, (p.2 : GraphNode).Name = p.1) ∧
  (∀ p ∈ g.calls,
    (p.1 : Call).Caller ∈ akeys g.nodes ∧ (p.1 : Call).Callee ∈ akeys g.nodes) ∧
  (∀ p ∈ g.flows,
    (p.1 : Call).Caller ∈ akeys g.nodes ∧ (p.1 : Call).Callee ∈ akeys g.nodes) ∧
  (akeys g.calls).Nodup ∧ (akeys g.flows).Nodup

/-- C2: Union adds weights (with weight 0 for an absent edge) and takes the
set union of node keys, call-edge keys and flow-edge keys, provided the
right operand is structurally well-formed (node keyed by name, endpoints
present, no duplicate edge keys) as every engine-built graph is. -/
theorem C2_union_weights_and_keys (g1 g2 : CallGraph) (h : WFUnionOperand g2) :
    (∀ e : Call,
      agetD (g1.Union g2).calls e 0 = agetD g1.calls e 0 + agetD g2.calls e 0) ∧
    (∀ e : Call,
      agetD (g1.Union g2).flows e 0 = agetD g1.flows e 0 + agetD g2.flows e 0) ∧
    (∀ k : String,
      k ∈ akeys (g1.Union g2).nodes ↔ k ∈ akeys g1.nodes ∨ k ∈ akeys g2.nodes) ∧
    (∀ e : Call,
      e ∈ akeys (g1.Union g2).calls ↔ e ∈ akeys g1.calls ∨ e ∈ akeys g2.calls) ∧
    (∀ e : Call,
      e ∈ akeys (g1.Union g2).flows ↔ e ∈ akeys g1.flows ∨ e ∈ akeys g2.flows) := by
  obtain ⟨hnamed, hcend, hfend, hcnd, hfnd⟩ := h
  refine ⟨?_, ?_, ?_, ?_, ?_⟩
  · intro e
    rw [Union_unfold]
    have h1 := unionFlowsFold_calls g2.flows
      (g2.calls.foldl unionCallStep (g2.nodes.foldl (fun a p => a.AddNode p.2) g1))
    rw [show agetD ((g2.flows.foldl unionFlowStep
        (g2.calls.foldl unionCallStep
          (g2.nodes.foldl (fun a p => a.AddNode p.2) g1)))).calls e 0 =
      agetD ((g2.calls.foldl unionCallStep
          (g2.nodes.foldl (fun a p => a.AddNode p.2) g1))).calls e 0 from by rw [h1]]
    rw [unionCallsFold_get, unionNodesFold_calls, wsum_eq_agetD hcnd]
  · intro e
    rw [Union_unfold, unionFlowsFold_get, unionCallsFold_flows,
      unionNodesFold_flows, wsum_eq_agetD hfnd]
  · intro k
    rw [Union_unfold, unionFlowsFold_nodes_keys, unionCallsFold_nodes_keys,
      unionNodesFold_keys]
    constructor
    · rintro ((((h | ⟨p, hp, hk⟩) | ⟨p, hp, hk⟩) | ⟨p, hp, hk⟩))
      · exact Or.inl h
      · refine Or.inr ?_
        rw [mem_akeys_iff_exists]
        refine ⟨p, hp, ?_⟩
        rw [hk]
        exact (hnamed p hp).symm
      · rcases hk with hk | hk
        · exact Or.inr (hk ▸ (hcend p hp).1)
        · exact Or.inr (hk ▸ (hcend p hp).2)
      · rcases hk with hk | hk
        · exact Or.inr (hk ▸ (hfend p hp).1)
        · exact Or.inr (hk ▸ (hfend p hp).2)
    · rintro (h | h)
      · exact Or.inl (Or.inl (Or.inl h))
      · rw [mem_akeys_iff_exists] at h
        obtain ⟨p, hp, hk⟩ := h
        exact Or.inl (Or.inl (Or.inr ⟨p, hp, hk ▸ (hnamed p hp).symm⟩))
  · intro e
    rw [Union_unfold]
    have h1 := unionFlowsFold_calls g2.flows
      (g2.calls.foldl unionCallStep (g2.nodes.foldl (fun a p => a.AddNode p.2) g1))
    rw [show e ∈ akeys ((g2.flows.foldl unionFlowStep
        (g2.calls.foldl unionCallStep
          (g2.nodes.foldl (fun a p => a.AddNode p.2) g1)))).calls ↔
      e ∈ akeys ((g2.calls.foldl unionCallStep
          (g2.nodes.foldl (fun a p => a.AddNode p.2) g1))).calls from by rw [h1]]
    rw [unionCallsFold_keys, unionNodesFold_calls]
  · intro e
    rw [Union_unfold, unionFlowsFold_keys, unionCallsFold_flows, unionNodesFold_flows]

theorem alookup_mem {α β : Type} [DecidableEq α] {m : List (α × β)} {k : α} {v : β}
    (h : alookup m k = some v) : (k, v) ∈ m := by
  induction m with
  | nil => simp [alookup] at h
  | cons p t ih =>
    obtain ⟨k0, v0⟩ := p
    by_cases h0 : k0 = k
    · subst h0
      have h' : v0 = v := by simpa [alookup] using h
      subst h'
      exact List.mem_cons_self _ _
    · simp only [alookup, if_neg h0] at h
      exact List.mem_cons_of_mem _ (ih h)

/-- Reachability in at most `d` hops along a selector relation, read off the
stored per-node edge lists the way CollectNodes walks them. -/
inductive ReachLe (cg : CallGraph) (sel : GraphNode → strset) :
    Nat → String → String → Prop
  | refl (d : Nat) (x : String) : ReachLe cg sel d x x
  | step (d : Nat) (x y z : String)
      (hy : y ∈ sel ((alookup cg.nodes x).getD GraphNode.zero))
      (hz : ReachLe cg sel d y z) : ReachLe cg sel (d + 1) x z

theorem reachLe_zero_iff (cg : CallGraph) (sel : GraphNode → strset)
    (x y : String) : ReachLe cg sel 0 x y ↔ y = x := by
  constructor
  · intro h
    cases h
    rfl
  · rintro rfl
    exact ReachLe.refl 0 _

theorem reachLe_succ_iff (cg : CallGraph) (sel : GraphNode → strset)
    (d : Nat) (x z : String) :
    ReachLe cg sel (d + 1) x z ↔
      z = x ∨ ∃ y, y ∈ sel ((alookup cg.nodes x).getD GraphNode.zero) ∧
        ReachLe cg sel d y z := by
  constructor
  · intro h
    cases h with
    | refl => exact Or.inl rfl
    | step _ _ y _ hy hz => exact Or.inr ⟨y, hy, hz⟩
  · rintro (rfl | ⟨y, hy, hz⟩)
    · exact ReachLe.refl _ _
    · exact ReachLe.step d x y z hy hz

theorem mem_foldl_sUnion (f : String → strset) (l : List String) (init : strset)
    (x : String) :
    x ∈ l.foldl (fun acc id => sUnion acc (f id)) init ↔
      x ∈ init ∨ ∃ id ∈ l, x ∈ f id := by
  induction l generalizing init with
  | nil => simp
  | cons y t ih =>
    rw [List.foldl_cons, ih, mem_sUnion]
    simp only [List.mem_cons]
    constructor
    · rintro ((h | h) | ⟨id, hid, hx⟩)
      · exact Or.inl h
      · exact Or.inr ⟨y, Or.inl rfl, h⟩
      · exact Or.inr ⟨id, Or.inr hid, hx⟩
    · rintro (h | ⟨id, (hid | hid), hx⟩)
      · exact Or.inl (Or.inl h)
      · exact Or.inl (Or.inr (hid ▸ hx))
      · exact Or.inr ⟨id, hid, hx⟩

theorem mem_foldl_sAdd_sUnion (f : String → strset) (l : List String)
    (init : strset) (x : String) :
    x ∈ l.foldl (fun acc id => sUnion (sAdd acc id) (f id)) init ↔
      x ∈ init ∨ ∃ id ∈ l, (x = id ∨ x ∈ f id) := by
  induction l generalizing init with
  | nil => simp
  | cons y t ih =>
    rw [List.foldl_cons, ih, mem_sUnion, mem_sAdd]
    simp only [List.mem_cons]
    constructor
    · rintro (((h | h) | h) | ⟨id, hid, hx⟩)
      · exact Or.inl h
      · exact Or.inr ⟨y, Or.inl rfl, Or.inl h⟩
      · exact Or.inr ⟨y, Or.inl rfl, Or.inr h⟩
      · exact Or.inr ⟨id, Or.inr hid, hx⟩
    · rintro (h | ⟨id, (hid | hid), hx⟩)
      · exact Or.inl (Or.inl (Or.inl h))
      · subst hid
        rcases hx with hx | hx
        · exact Or.inl (Or.inl (Or.inr hx))
        · exact Or.inl (Or.inr hx)
      · exact Or.inr ⟨id, hid, hx⟩

theorem root_mem_collect (cg : CallGraph) (fuel : Nat) (root : String)
    (sel : GraphNode → strset) (depth : Int) :
    root ∈ cg.CollectNodes fuel root sel depth := by
  rw [CallGraph.CollectNodes.eq_def]
  by_cases hd : depth = 0
  · simp [hd, sAdd]
  · simp only [if_neg hd]
    match fuel with
    | 0 => simp [sAdd]
    | fuel + 1 =>
      rw [mem_foldl_sAdd_sUnion]
      exact Or.inl (by simp [sAdd])

theorem mem_collect_iff (cg : CallGraph) (sel : GraphNode → strset) :
    ∀ (d fuel : Nat), d ≤ fuel → ∀ (root y : String),
      (y ∈ cg.CollectNodes fuel root sel (d : Int) ↔ ReachLe cg sel d root y) := by
  intro d
  induction d with
  | zero =>
    intro fuel _ root y
    rw [CallGraph.CollectNodes.eq_def]
    simp [reachLe_zero_iff, sAdd]
  | succ d ih =>
    intro fuel hle root y
    match fuel, hle with
    | fuel + 1, hle =>
      have hd : ((d + 1 : Nat) : Int) ≠ 0 := by positivity
      rw [CallGraph.CollectNodes.eq_def]
      simp only [if_neg hd]
      have hcast : ((d + 1 : Nat) : Int) - 1 = (d : Int) := by push_cast; ring
      rw [mem_foldl_sAdd_sUnion, reachLe_succ_iff]
      have ihs : ∀ id, y ∈ cg.CollectNodes fuel id sel (((d + 1 : Nat) : Int) - 1) ↔
          ReachLe cg sel d id y := by
        intro id
        rw [hcast]
        exact ih fuel (Nat.succ_le_succ_iff.mp hle) id y
      constructor
      · rintro (h | ⟨id, hid, (rfl | hx)⟩)
        · simp only [mem_sAdd, List.not_mem_nil, false_or] at h
          exact Or.inl h
        · exact Or.inr ⟨_, hid, ReachLe.refl _ _⟩
        · exact Or.inr ⟨id, hid, (ihs id).mp hx⟩
      · rintro (rfl | ⟨id, hid, hx⟩)
        · exact Or.inl (by simp [sAdd])
        · exact Or.inr ⟨id, hid, Or.inr ((ihs id).mpr hx)⟩

theorem collect_subset_keys (cg : CallGraph) (sel : GraphNode → strset)
    (hclosed : ∀ p ∈ cg.nodes, ∀ y ∈ sel (p : String × GraphNode).2, y ∈ akeys cg.nodes) :
    ∀ (fuel : Nat) (root : String) (depth : Int), root ∈ akeys cg.nodes →
      ∀ y ∈ cg.CollectNodes fuel root sel depth, y ∈ akeys cg.nodes := by
  intro fuel
  induction fuel with
  | zero =>
    intro root depth hroot y hy
    rw [CallGraph.CollectNodes.eq_def] at hy
    by_cases hd : depth = 0 <;> simp [hd, mem_sAdd] at hy <;> exact hy ▸ hroot
  | succ fuel ih =>
    intro root depth hroot y hy
    rw [CallGraph.CollectNodes.eq_def] at hy
    by_cases hd : depth = 0
    · simp [hd, mem_sAdd] at hy
      exact hy ▸ hroot
    · simp only [if_neg hd] at hy
      rw [mem_foldl_sAdd_sUnion] at hy
      rcases hy with hy | ⟨id, hid, hy⟩
      · simp [mem_sAdd] at hy
        exact hy ▸ hroot
      · have hsome : ∃ nd, alookup cg.nodes root = some nd :=
          (mem_akeys_iff_lookup cg.nodes root).mp hroot
        obtain ⟨nd, hnd⟩ := hsome
        rw [hnd] at hid
        have hidk : id ∈ akeys cg.nodes :=
          hclosed (root, nd) (alookup_mem hnd) id hid
        rcases hy with rfl | hy
        · exact hidk
        · exact ih id (depth - 1) hidk y hy

theorem sContains_eq_true (s : strset) (k : String) :
    sContains s k = true ↔ k ∈ s := by simp [sContains]

theorem AddCalls_nodes (cg : CallGraph) (c : Call) (w : Int) :
    (cg.AddCalls c w).nodes = (cg.AddCall c).nodes := rfl

theorem AddFlows_nodes (cg : CallGraph) (c : Call) (w : Int) :
    (cg.AddFlows c w).nodes = (cg.AddFlow c).nodes := rfl

theorem mem_akeys_AddCalls_nodes (cg : CallGraph) (c : Call) (w : Int) (k : String) :
    k ∈ akeys (cg.AddCalls c w).nodes ↔
      k ∈ akeys cg.nodes ∨ k = c.Caller ∨ k = c.Callee := by
  rw [AddCalls_nodes, mem_akeys_AddCall_nodes]

theorem mem_akeys_AddFlows_nodes (cg : CallGraph) (c : Call) (w : Int) (k : String) :
    k ∈ akeys (cg.AddFlows c w).nodes ↔
      k ∈ akeys cg.nodes ∨ k = c.Caller ∨ k = c.Callee := by
  rw [AddFlows_nodes, mem_akeys_AddFlow_nodes]

theorem foldAddNodeF_keys (f : String → GraphNode) (l : List String)
    (acc : CallGraph) (k : String) :
    k ∈ akeys (l.foldl (fun r id => r.AddNode (f id)) acc).nodes ↔
      k ∈ akeys acc.nodes ∨ ∃ id ∈ l, k = (f id).Name := by
  induction l generalizing acc with
  | nil => simp
  | cons y t ih =>
    rw [List.foldl_cons, ih, mem_akeys_AddNode_nodes]
    simp only [List.mem_cons]
    constructor
    · rintro ((h | h) | ⟨id, hid, hx⟩)
      · exact Or.inl h
      · exact Or.inr ⟨y, Or.inl rfl, h⟩
      · exact Or.inr ⟨id, Or.inr hid, hx⟩
    · rintro (h | ⟨id, (hid | hid), hx⟩)
      · exact Or.inl (Or.inl h)
      · exact Or.inl (Or.inr (hid ▸ hx))
      · exact Or.inr ⟨id, hid, hx⟩

theorem interCallsFold_nodes_keys (K : strset) (l : List (Call × Int))
    (acc : CallGraph) (k : String) :
    k ∈ akeys (l.foldl
        (fun r p =>
          if sContains K p.1.Caller && sContains K p.1.Callee then
            r.AddCalls p.1 p.2
          else r)
        acc).nodes ↔
      k ∈ akeys acc.nodes ∨
        ∃ p ∈ l, ((p : Call × Int).1.Caller ∈ K ∧ p.1.Callee ∈ K ∧
          (k = p.1.Caller ∨ k = p.1.Callee)) := by
  induction l generalizing acc with
  | nil => simp
  | cons y t ih =>
    rw [List.foldl_cons]
    by_cases hc : (sContains K y.1.Caller && sContains K y.1.Callee) = true
    · rw [if_pos hc, ih, mem_akeys_AddCalls_nodes]
      rw [Bool.and_eq_true, sContains_eq_true, sContains_eq_true] at hc
      simp only [List.mem_cons]
      constructor
      · rintro ((h | h) | ⟨p, hp, hx⟩)
        · exact Or.inl h
        · exact Or.inr ⟨y, Or.inl rfl, hc.1, hc.2, h⟩
        · exact Or.inr ⟨p, Or.inr hp, hx⟩
      · rintro (h | ⟨p, (hp | hp), hx⟩)
        · exact Or.inl (Or.inl h)
        · exact Or.inl (Or.inr (hp ▸ hx).2.2)
        · exact Or.inr ⟨p, hp, hx⟩
    · rw [if_neg hc, ih]
      rw [Bool.and_eq_true, sContains_eq_true, sContains_eq_true] at hc
      simp only [List.mem_cons]
      constructor
      · rintro (h | ⟨p, hp, hx⟩)
        · exact Or.inl h
        · exact Or.inr ⟨p, Or.inr hp, hx⟩
      · rintro (h | ⟨p, (hp | hp), hx⟩)
        · exact Or.inl h
        · exact absurd ⟨(hp ▸ hx).1, (hp ▸ hx).2.1⟩ hc
        · exact Or.inr ⟨p, hp, hx⟩

theorem interFlowsFold_nodes_keys (K : strset) (l : List (Call × Int))
    (acc : CallGraph) (k : String) :
    k ∈ akeys (l.foldl
        (fun r p =>
          if sContains K p.1.Caller && sContains K p.1.Callee then
            r.AddFlows p.1 p.2
          else r)
        acc).nodes ↔
      k ∈ akeys acc.nodes ∨
        ∃ p ∈ l, ((p : Call × Int).1.Caller ∈ K ∧ p.1.Callee ∈ K ∧
          (k = p.1.Caller ∨ k = p.1.Callee)) := by
  induction l generalizing acc with
  | nil => simp
  | cons y t ih =>
    rw [List.foldl_cons]
    by_cases hc : (sContains K y.1.Caller && sContains K y.1.Callee) = true
    · rw [if_pos hc, ih, mem_akeys_AddFlows_nodes]
      rw [Bool.and_eq_true, sContains_eq_true, sContains_eq_true] at hc
      simp only [List.mem_cons]
      constructor
      · rintro ((h | h) | ⟨p, hp, hx⟩)
        · exact Or.inl h
        · exact Or.inr ⟨y, Or.inl rfl, hc.1, hc.2, h⟩
        · exact Or.inr ⟨p, Or.inr hp, hx⟩
      · rintro (h | ⟨p, (hp | hp), hx⟩)
        · exact Or.inl (Or.inl h)
        · exact Or.inl (Or.inr (hp ▸ hx).2.2)
        · exact Or.inr ⟨p, hp, hx⟩
    · rw [if_neg hc, ih]
      rw [Bool.and_eq_true, sContains_eq_true, sContains_eq_true] at hc
      simp only [List.mem_cons]
      constructor
      · rintro (h | ⟨p, hp, hx⟩)
        · exact Or.inl h
        · exact Or.inr ⟨p, Or.inr hp, hx⟩
      · rintro (h | ⟨p, (hp | hp), hx⟩)
        · exact Or.inl h
        · exact absurd ⟨(hp ▸ hx).1, (hp ▸ hx).2.1⟩ hc
        · exact Or.inr ⟨p, hp, hx⟩

theorem keepFold_mem (g : CallGraph) (sel : GraphNode → strset) (fuel : Nat)
    (depth : Int) (anc : strset) (l : List String) (init : strset) (x : String)
    (hall : ∀ leaf ∈ l,
      (g.CollectNodes fuel leaf sel depth).any (sContains anc) = true) :
    x ∈ l.foldl
        (fun keep leaf =>
          let nodes := g.CollectNodes fuel leaf sel depth
          if nodes.any (sContains anc) then sUnion keep nodes else keep)
        init ↔
      x ∈ init ∨ ∃ leaf ∈ l, x ∈ g.CollectNodes fuel leaf sel depth := by
  induction l generalizing init with
  | nil => simp
  | cons y t ih =>
    rw [List.foldl_cons]
    have hy := hall y (List.mem_cons_self _ _)
    simp only [hy, if_pos]
    rw [ih _ (fun leaf hl => hall leaf (List.mem_cons_of_mem _ hl)), mem_sUnion]
    simp only [List.mem_cons]
    constructor
    · rintro ((h | h) | ⟨leaf, hl, hx⟩)
      · exact Or.inl h
      · exact Or.inr ⟨y, Or.inl rfl, h⟩
      · exact Or.inr ⟨leaf, Or.inr hl, hx⟩
    · rintro (h | ⟨leaf, (hl | hl), hx⟩)
      · exact Or.inl (Or.inl h)
      · exact Or.inl (Or.inr (hl ▸ hx))
      · exact Or.inr ⟨leaf, hl, hx⟩

/-- The ancestor set Intersect builds from the left graph's leaves
(graphing.go lines 354-359). -/
def interAncestors (cg : CallGraph) (sel : GraphNode → strset) (fuel : Nat)
    (depth : Int) : strset :=
  cg.leaves.foldl (fun anc id => sUnion anc (cg.CollectNodes fuel id sel depth)) []

/-- The keep set Intersect builds from one graph's leaves against an
ancestor set (graphing.go lines 362-381, without backtraces). -/
def interKeep (g : CallGraph) (sel : GraphNode → strset) (fuel : Nat)
    (depth : Int) (anc : strset) : strset :=
  g.leaves.foldl
    (fun keep leaf =>
      let nodes := g.CollectNodes fuel leaf sel depth
      if nodes.any (sContains anc) then sUnion keep nodes else keep)
    []

/-- The node-copying phase of Intersect (graphing.go lines 383-385). -/
def interAddNodes (g : CallGraph) (K : strset) (acc : CallGraph) : CallGraph :=
  K.foldl (fun r id => r.AddNode ((alookup g.nodes id).getD GraphNode.zero)) acc

/-- The call-copying phase of Intersect (graphing.go lines 387-391). -/
def interAddCalls (g : CallGraph) (K : strset) (acc : CallGraph) : CallGraph :=
  g.calls.foldl
    (fun r p =>
      if sContains K p.1.Caller && sContains K p.1.Callee then
        r.AddCalls p.1 p.2
      else r)
    acc

/-- The flow-copying phase of Intersect (graphing.go lines 393-397). -/
def interAddFlows (g : CallGraph) (K : strset) (acc : CallGraph) : CallGraph :=
  g.flows.foldl
    (fun r p =>
      if sContains K p.1.Caller && sContains K p.1.Callee then
        r.AddFlows p.1 p.2
      else r)
    acc

/-- With keepBacktrace = false, Intersect is definitionally the composition
of its phases. -/
theorem Intersect_false_unfold (cg g : CallGraph) (depth : Int) (fuel : Nat) :
    cg.Intersect g depth false fuel =
      interAddFlows cg
        (interKeep cg GraphNode.AllInputs fuel depth
          (interKeep g GraphNode.AllInputs fuel depth
            (interAncestors cg GraphNode.AllInputs fuel depth)))
        (interAddCalls cg
          (interKeep cg GraphNode.AllInputs fuel depth
            (interKeep g GraphNode.AllInputs fuel depth
              (interAncestors cg GraphNode.AllInputs fuel depth)))
          (interAddNodes cg
            (interKeep cg GraphNode.AllInputs fuel depth
              (interKeep g GraphNode.AllInputs fuel depth
                (interAncestors cg GraphNode.AllInputs fuel depth)))
            (interAddFlows g
              (interKeep g GraphNode.AllInputs fuel depth
                (interAncestors cg GraphNode.AllInputs fuel depth))
              (interAddCalls g
                (interKeep g GraphNode.AllInputs fuel depth
                  (interAncestors cg GraphNode.AllInputs fuel depth))
                (interAddNodes g
                  (interKeep g GraphNode.AllInputs fuel depth
                    (interAncestors cg GraphNode.AllInputs fuel depth))
                  NewCallGraph))))) := rfl

theorem mem_interAncestors (cg : CallGraph) (sel : GraphNode → strset)
    (fuel : Nat) (depth : Int) (x : String) :
    x ∈ interAncestors cg sel fuel depth ↔
      ∃ l ∈ cg.leaves, x ∈ cg.CollectNodes fuel l sel depth := by
  rw [interAncestors, mem_foldl_sUnion]
  simp

theorem mem_interKeep (g : CallGraph) (sel : GraphNode → strset) (fuel : Nat)
    (depth : Int) (anc : strset) (x : String)
    (hall : ∀ leaf ∈ g.leaves,
      (g.CollectNodes fuel leaf sel depth).any (sContains anc) = true) :
    x ∈ interKeep g sel fuel depth anc ↔
      ∃ leaf ∈ g.leaves, x ∈ g.CollectNodes fuel leaf sel depth := by
  rw [interKeep, keepFold_mem g sel fuel depth anc g.leaves [] x hall]
  simp

theorem interAddNodes_keys (g : CallGraph) (K : strset) (acc : CallGraph)
    (k : String) :
    k ∈ akeys (interAddNodes g K acc).nodes ↔
      k ∈ akeys acc.nodes ∨
        ∃ id ∈ K, k = ((alookup g.nodes id).getD GraphNode.zero).Name := by
  rw [interAddNodes]
  exact foldAddNodeF_keys _ K acc k

theorem interAddCalls_nodes_keys (g : CallGraph) (K : strset) (acc : CallGraph)
    (k : String) :
    k ∈ akeys (interAddCalls g K acc).nodes ↔
      k ∈ akeys acc.nodes ∨
        ∃ p ∈ g.calls, ((p : Call × Int).1.Caller ∈ K ∧ p.1.Callee ∈ K ∧
          (k = p.1.Caller ∨ k = p.1.Callee)) := by
  rw [interAddCalls]
  exact interCallsFold_nodes_keys K g.calls acc k

theorem interAddFlows_nodes_keys (g : CallGraph) (K : strset) (acc : CallGraph)
    (k : String) :
    k ∈ akeys (interAddFlows g K acc).nodes ↔
      k ∈ akeys acc.nodes ∨
        ∃ p ∈ g.flows, ((p : Call × Int).1.Caller ∈ K ∧ p.1.Callee ∈ K ∧
          (k = p.1.Caller ∨ k = p.1.Callee)) := by
  rw [interAddFlows]
  exact interFlowsFold_nodes_keys K g.flows acc k

/-- Well-formedness Intersect relies on: every stored node is keyed by its
own name, every recorded leaf is a stored node, and the per-node caller and
data-source lists only mention stored nodes. -/
def WFIntersect (g : CallGraph) : Prop :=
  (∀ p ∈ g.nodes, (p.2 : GraphNode).Name = p.1) ∧
  (∀ l ∈ g.leaves, l ∈ akeys g.nodes) ∧
  (∀ p ∈ g.nodes, ∀ y ∈ GraphNode.AllInputs (p : String × GraphNode).2,
    y ∈ akeys g.nodes)

/-- C4: the node-key set of a self-intersection without backtrace at depth
d is exactly the set of nodes reachable, along the callers-and-data-sources
relation, within d hops from some recorded leaf — for any well-formed graph
and any fuel covering the depth. -/
theorem C4_intersect_self_node_set (g : CallGraph) (d fuel : Nat)
    (hwf : WFIntersect g) (hfuel : d ≤ fuel) (k : String) :
    k ∈ akeys (g.Intersect g (d : Int) false fuel).nodes ↔
      ∃ l ∈ g.leaves, ReachLe g GraphNode.AllInputs d l k := by
  obtain ⟨hnamed, hleaves, hclosed⟩ := hwf
  have hcol : ∀ l x, x ∈ g.CollectNodes fuel l GraphNode.AllInputs (d : Int) ↔
      ReachLe g GraphNode.AllInputs d l x :=
    fun l x => mem_collect_iff g GraphNode.AllInputs d fuel hfuel l x
  -- every leaf's collect set meets the leaf-derived ancestor set
  have hall1 : ∀ leaf ∈ g.leaves,
      (g.CollectNodes fuel leaf GraphNode.AllInputs ((d : Nat) : Int)).any
        (sContains (interAncestors g GraphNode.AllInputs fuel (d : Int))) = true := by
    intro leaf hleaf
    rw [List.any_eq_true]
    refine ⟨leaf, root_mem_collect _ _ _ _ _, ?_⟩
    rw [sContains_eq_true, mem_interAncestors]
    exact ⟨leaf, hleaf, root_mem_collect _ _ _ _ _⟩
  have hkeep : ∀ x, x ∈ interKeep g GraphNode.AllInputs fuel (d : Int)
      (interAncestors g GraphNode.AllInputs fuel (d : Int)) ↔
      ∃ leaf ∈ g.leaves, x ∈ g.CollectNodes fuel leaf GraphNode.AllInputs (d : Int) :=
    fun x => mem_interKeep _ _ _ _ _ x hall1
  have hall2 : ∀ leaf ∈ g.leaves,
      (g.CollectNodes fuel leaf GraphNode.AllInputs ((d : Nat) : Int)).any
        (sContains (interKeep g GraphNode.AllInputs fuel (d : Int)
          (interAncestors g GraphNode.AllInputs fuel (d : Int)))) = true := by
    intro leaf hleaf
    rw [List.any_eq_true]
    refine ⟨leaf, root_mem_collect _ _ _ _ _, ?_⟩
    rw [sContains_eq_true, hkeep]
    exact ⟨leaf, hleaf, root_mem_collect _ _ _ _ _⟩
  have hkeep2 : ∀ x, x ∈ interKeep g GraphNode.AllInputs fuel (d : Int)
      (interKeep g GraphNode.AllInputs fuel (d : Int)
        (interAncestors g GraphNode.AllInputs fuel (d : Int))) ↔
      ∃ leaf ∈ g.leaves, x ∈ g.CollectNodes fuel leaf GraphNode.AllInputs (d : Int) :=
    fun x => mem_interKeep _ _ _ _ _ x hall2
  -- the keep sets only hold stored node keys
  have hsub : ∀ x, (∃ leaf ∈ g.leaves,
      x ∈ g.CollectNodes fuel leaf GraphNode.AllInputs (d : Int)) →
      x ∈ akeys g.nodes := by
    rintro x ⟨leaf, hleaf, hx⟩
    exact collect_subset_keys g GraphNode.AllInputs hclosed fuel leaf (d : Int)
      (hleaves leaf hleaf) x hx
  -- target set as keep-set membership
  have htgt : ∀ x, (∃ l ∈ g.leaves, ReachLe g GraphNode.AllInputs d l x) ↔
      (∃ leaf ∈ g.leaves,
        x ∈ g.CollectNodes fuel leaf GraphNode.AllInputs (d : Int)) := by
    intro x
    constructor
    · rintro ⟨l, hl, hr⟩
      exact ⟨l, hl, (hcol l x).mpr hr⟩
    · rintro ⟨l, hl, hr⟩
      exact ⟨l, hl, (hcol l x).mp hr⟩
  rw [Intersect_false_unfold, interAddFlows_nodes_keys, interAddCalls_nodes_keys,
    interAddNodes_keys, interAddFlows_nodes_keys, interAddCalls_nodes_keys,
    interAddNodes_keys, htgt]
  have hname : ∀ id, id ∈ akeys g.nodes →
      ((alookup g.nodes id).getD GraphNode.zero).Name = id := by
    intro id hid
    obtain ⟨nd, hnd⟩ := (mem_akeys_iff_lookup g.nodes id).mp hid
    rw [hnd]
    exact hnamed (id, nd) (alookup_mem hnd)
  constructor
  · rintro ((((((h0 | ⟨id, hid, hk⟩) | ⟨p, hp, h1, h2, hk⟩) | ⟨p, hp, h1, h2, hk⟩)
      | ⟨id, hid, hk⟩) | ⟨p, hp, h1, h2, hk⟩) | ⟨p, hp, h1, h2, hk⟩)
    · simp [NewCallGraph, akeys] at h0
    · have hid' := (hkeep id).mp hid
      rw [hname id (hsub id hid')] at hk
      exact hk ▸ hid'
    · rcases hk with hk | hk
      · exact hk ▸ (hkeep p.1.Caller).mp h1
      · exact hk ▸ (hkeep p.1.Callee).mp h2
    · rcases hk with hk | hk
      · exact hk ▸ (hkeep p.1.Caller).mp h1
      · exact hk ▸ (hkeep p.1.Callee).mp h2
    · have hid' := (hkeep2 id).mp hid
      rw [hname id (hsub id hid')] at hk
      exact hk ▸ hid'
    · rcases hk with hk | hk
      · exact hk ▸ (hkeep2 p.1.Caller).mp h1
      · exact hk ▸ (hkeep2 p.1.Callee).mp h2
    · rcases hk with hk | hk
      · exact hk ▸ (hkeep2 p.1.Caller).mp h1
      · exact hk ▸ (hkeep2 p.1.Callee).mp h2
  · intro h
    refine Or.inl (Or.inl (Or.inl (Or.inl (Or.inl (Or.inr ?_)))))
    refine ⟨k, (hkeep k).mpr h, ?_⟩
    exact (hname k (hsub k h)).symm

/-- A two-node, one-edge graph built through the engine operations, used as
a concrete well-formed operand. -/
def gWitness : CallGraph :=
  ((NewCallGraph.AddNode (simpleNode "a")).AddNode
    (simpleNode "b")).AddCall (simpleCall "a" "b")

/-- Witness for C2 at concrete graphs. -/
theorem C2_witness :
    WFUnionOperand gWitness ∧
    agetD (NewCallGraph.Union gWitness).calls (simpleCall "a" "b") 0 =
      agetD NewCallGraph.calls (simpleCall "a" "b") 0 +
        agetD gWitness.calls (simpleCall "a" "b") 0 ∧
    ("a" ∈ akeys (NewCallGraph.Union gWitness).nodes ↔
      "a" ∈ akeys NewCallGraph.nodes ∨ "a" ∈ akeys gWitness.nodes) :=
  ⟨by unfold WFUnionOperand; decide,
    (C2_union_weights_and_keys NewCallGraph gWitness
      (by unfold WFUnionOperand; decide)).1 (simpleCall "a" "b"),
    (C2_union_weights_and_keys NewCallGraph gWitness
      (by unfold WFUnionOperand; decide)).2.2.1 "a"⟩

/-- Witness for C4 at a concrete well-formed graph, depth 1. -/
theorem C4_witness :
    WFIntersect gWitness ∧ (1 : Nat) ≤ 1 ∧
    ("a" ∈ akeys (gWitness.Intersect gWitness ((1 : Nat) : Int) false 1).nodes ↔
      ∃ l ∈ gWitness.leaves, ReachLe gWitness GraphNode.AllInputs 1 l "a") :=
  ⟨by unfold WFIntersect; decide, le_refl 1,
    C4_intersect_self_node_set gWitness 1 1
      (by unfold WFIntersect; decide) (le_refl 1) "a"⟩

/-- C9 as amended: the unknown-category behavior is as claimed, and the
unknown-clause error is returned for the first offending clause provided it
is nonempty (an empty clause panics instead, see the counterexample) and
every earlier clause is "*" or a '+'/'-' clause whose pattern compiles. -/
theorem C9_amended :
    (∀ (cs : List Char) (r : Results) (cg : CallGraph) (depth : Int) (fuel : Nat)
        (ct : String → Bool) (mt : String → String → Bool),
        String.mk cs ≠ "privaccess" → String.mk cs ≠ "vuln" →
        (ApplyAnalysis (String.mk ('+' :: cs)) cg r depth fuel ct mt =
            ARes.err NewCallGraph ("unknown analysis: " ++ String.mk cs) ∧
          ApplyAnalysis (String.mk ('^' :: cs)) cg r depth fuel ct mt =
            ARes.err NewCallGraph ("unknown analysis: " ++ String.mk cs) ∧
          ApplyAnalysis (String.mk ('.' :: cs)) cg r depth fuel ct mt =
            ARes.err NewCallGraph ("unknown analysis: " ++ String.mk cs) ∧
          (∀ (c : Char) (cs0 : List Char), cs = c :: cs0 →
            c ≠ '+' → c ≠ '^' → c ≠ '.' → c ≠ ':' →
            ApplyAnalysis (String.mk cs) cg r depth fuel ct mt =
              ARes.err NewCallGraph ("unknown analysis: " ++ String.mk cs)))) ∧
    (∀ (ct : String → Bool) (mt : String → String → Bool) (cg : CallGraph)
        (fuel : Nat) (pre : List String) (s : String) (rest : List String)
        (leaves0 : strset),
        (∀ c ∈ pre, c = "*" ∨ ∃ h t, (c : String).data = h :: t ∧
          (h = '+' ∨ h = '-') ∧ ct (String.mk t) = true) →
        (∃ h t, s.data = h :: t ∧ h ≠ '+' ∧ h ≠ '-') → s ≠ "*" →
        FilterAux ct mt cg fuel (pre ++ s :: rest) leaves0 =
          ARes.err NewCallGraph ("unknown filter clause: " ++ s)) := by
  constructor
  · intro cs r cg depth fuel ct mt h1 h2
    refine ⟨?_, ?_, ?_, ?_⟩
    · simp [ApplyAnalysis, extractAndCombine, Results.ExtractGraph, h1, h2]
    · simp [ApplyAnalysis, extractAndCombine, Results.ExtractGraph, h1, h2]
    · simp [ApplyAnalysis, extractAndCombine, Results.ExtractGraph, h1, h2]
    · rintro c cs0 rfl hp hc hd hcol
      simp [ApplyAnalysis, extractAndCombine, Results.ExtractGraph,
        h1, h2, hp, hc, hd, hcol]
  · intro ct mt cg fuel pre
    induction pre with
    | nil =>
      intro s rest leaves0 _ hbad hstar
      obtain ⟨h, t, hdata, hplus, hminus⟩ := hbad
      rw [List.nil_append, FilterAux, if_neg hstar]
      have hno : ¬ (h = '+' ∨ h = '-') := by
        rintro (hx | hx)
        · exact hplus hx
        · exact hminus hx
      simp only [hdata, hno, if_false, ite_false]
    | cons c pre ih =>
      intro s rest leaves0 hgood hbad hstar
      have hg := hgood c (List.mem_cons_self _ _)
      have hrest : ∀ x ∈ pre, x = "*" ∨ ∃ h t, (x : String).data = h :: t ∧
          (h = '+' ∨ h = '-') ∧ ct (String.mk t) = true :=
        fun x hx => hgood x (List.mem_cons_of_mem _ hx)
      rcases hg with hg | ⟨h, t, hdata, hsign, hct⟩
      · subst hg
        rw [List.cons_append, FilterAux, if_pos rfl]
        exact ih s rest _ hrest hbad hstar
      · have hcs : c ≠ "*" := by
          intro hx
          subst hx
          simp at hdata
          rcases hsign with hs | hs <;> simp [← hdata.1] at hs
        rw [List.cons_append, FilterAux, if_neg hcs]
        simp only [hdata, hsign, List.tail_cons, hct, if_true, ite_true]
        exact ih s rest _ hrest hbad hstar

/-- Witness for C9_amended at concrete inputs. -/
theorem C9_witness :
    ("bogus" : String) ≠ "privaccess" ∧ ("bogus" : String) ≠ "vuln" ∧
    ApplyAnalysis "+bogus" NewCallGraph ⟨[], [], []⟩ 0 0
      (fun _ => true) (fun _ _ => true) =
      ARes.err NewCallGraph ("unknown analysis: " ++ "bogus") ∧
    FilterAux (fun _ => true) (fun _ _ => true) NewCallGraph 0 ["*", "?x"] [] =
      ARes.err NewCallGraph ("unknown filter clause: " ++ "?x") := by
  refine ⟨by decide, by decide, ?_, ?_⟩
  · exact (C9_amended.1 "bogus".data ⟨[], [], []⟩ NewCallGraph 0 0
      (fun _ => true) (fun _ _ => true) (by decide) (by decide)).1
  · refine C9_amended.2 (fun _ => true) (fun _ _ => true) NewCallGraph 0
      ["*"] "?x" [] [] ?_ ⟨'?', "x".data, by decide, by decide, by decide⟩
      (by decide)
    intro c hc
    rw [List.mem_singleton] at hc
    exact Or.inl hc

/-- The stored outgoing-call list of the node under a key (zero node when
the key is absent, as in Go). -/
def nOut (cg : CallGraph) (k : String) : List Call :=
  ((alookup cg.nodes k).getD GraphNode.zero).CallsOut

/-- The stored incoming-call list under a key. -/
def nIn (cg : CallGraph) (k : String) : List Call :=
  ((alookup cg.nodes k).getD GraphNode.zero).CallsIn

/-- The stored outgoing-flow list under a key. -/
def fOut (cg : CallGraph) (k : String) : List Call :=
  ((alookup cg.nodes k).getD GraphNode.zero).FlowsOut

/-- The stored incoming-flow list under a key. -/
def fIn (cg : CallGraph) (k : String) : List Call :=
  ((alookup cg.nodes k).getD GraphNode.zero).FlowsIn

/-- The stored name under a key (the empty string when absent). -/
def nName (cg : CallGraph) (k : String) : String :=
  ((alookup cg.nodes k).getD GraphNode.zero).Name

theorem mem_UpdateCalls (cur l : List Call) (x : Call) :
    x ∈ UpdateCalls cur l ↔ x ∈ cur ∨ x ∈ l := by
  induction l generalizing cur with
  | nil => simp [UpdateCalls]
  | cons c t ih =>
    show x ∈ UpdateCalls (if c ∈ cur then cur else cur ++ [c]) t ↔ _
    rw [ih]
    by_cases hc : c ∈ cur
    · rw [if_pos hc]
      simp only [List.mem_cons]
      constructor
      · rintro (h | h)
        · exact Or.inl h
        · exact Or.inr (Or.inr h)
      · rintro (h | h | h)
        · exact Or.inl h
        · exact Or.inl (h ▸ hc)
        · exact Or.inr h
    · rw [if_neg hc]
      simp only [List.mem_append, List.mem_singleton, List.mem_cons]
      tauto

theorem UpdateCalls_eq_nil_iff (cur l : List Call) :
    UpdateCalls cur l = [] ↔ cur = [] ∧ l = [] := by
  rw [List.eq_nil_iff_forall_not_mem, List.eq_nil_iff_forall_not_mem,
    List.eq_nil_iff_forall_not_mem]
  constructor
  · intro h
    constructor
    · intro x hx
      exact h x ((mem_UpdateCalls cur l x).mpr (Or.inl hx))
    · intro x hx
      exact h x ((mem_UpdateCalls cur l x).mpr (Or.inr hx))
  · rintro ⟨h1, h2⟩ x hx
    rcases (mem_UpdateCalls cur l x).mp hx with h | h
    · exact h1 x h
    · exact h2 x h

theorem alookup_of_mem_nodup {α β : Type} [DecidableEq α] {m : List (α × β)}
    (hnd : (akeys m).Nodup) {p : α × β} (hp : p ∈ m) :
    alookup m p.1 = some p.2 := by
  induction m with
  | nil => simp at hp
  | cons q t ih =>
    simp only [akeys, List.map_cons, List.nodup_cons] at hnd
    rcases List.mem_cons.mp hp with h | h
    · subst h
      simp [alookup]
    · have hne : q.1 ≠ p.1 := by
        intro hx
        exact hnd.1 (hx ▸ (List.mem_map.mpr ⟨p, h, rfl⟩))
      obtain ⟨k0, v0⟩ := q
      simp only [alookup, if_neg hne]
      exact ih hnd.2 h

theorem AddNode_stored (cg : CallGraph) (n : GraphNode) :
    alookup (cg.AddNode n).nodes n.Name =
      some (match alookup cg.nodes n.Name with
            | some ex => n.Update ex
            | none => n) := by
  show alookup (ainsert cg.nodes n.Name _) n.Name = _
  rw [alookup_ainsert, if_pos rfl]

theorem AddNode_lookup_ne (cg : CallGraph) (n : GraphNode) (k : String)
    (h : k ≠ n.Name) :
    alookup (cg.AddNode n).nodes k = alookup cg.nodes k := by
  show alookup (ainsert cg.nodes n.Name _) k = _
  rw [alookup_ainsert, if_neg (fun hx => h hx.symm)]

theorem AddNode_nOut_mem (cg : CallGraph) (n : GraphNode) (k : String) (x : Call) :
    x ∈ nOut (cg.AddNode n) k ↔
      (if k = n.Name then x ∈ n.CallsOut ∨ x ∈ nOut cg k else x ∈ nOut cg k) := by
  by_cases hk : k = n.Name
  · subst hk
    rw [if_pos rfl]
    unfold nOut
    rw [AddNode_stored]
    cases hex : alookup cg.nodes n.Name with
    | none => simp [hex, GraphNode.zero]
    | some ex => simp [hex, GraphNode.Update, mem_UpdateCalls]
  · rw [if_neg hk]
    unfold nOut
    rw [AddNode_lookup_ne cg n k hk]

theorem AddNode_nIn_mem (cg : CallGraph) (n : GraphNode) (k : String) (x : Call) :
    x ∈ nIn (cg.AddNode n) k ↔
      (if k = n.Name then x ∈ n.CallsIn ∨ x ∈ nIn cg k else x ∈ nIn cg k) := by
  by_cases hk : k = n.Name
  · subst hk
    rw [if_pos rfl]
    unfold nIn
    rw [AddNode_stored]
    cases hex : alookup cg.nodes n.Name with
    | none => simp [hex, GraphNode.zero]
    | some ex => simp [hex, GraphNode.Update, mem_UpdateCalls]
  · rw [if_neg hk]
    unfold nIn
    rw [AddNode_lookup_ne cg n k hk]

theorem AddNode_fOut_mem (cg : CallGraph) (n : GraphNode) (k : String) (x : Call) :
    x ∈ fOut (cg.AddNode n) k ↔
      (if k = n.Name then x ∈ n.FlowsOut ∨ x ∈ fOut cg k else x ∈ fOut cg k) := by
  by_cases hk : k = n.Name
  · subst hk
    rw [if_pos rfl]
    unfold fOut
    rw [AddNode_stored]
    cases hex : alookup cg.nodes n.Name with
    | none => simp [hex, GraphNode.zero]
    | some ex => simp [hex, GraphNode.Update, mem_UpdateCalls]
  · rw [if_neg hk]
    unfold fOut
    rw [AddNode_lookup_ne cg n k hk]

theorem AddNode_fIn_mem (cg : CallGraph) (n : GraphNode) (k : String) (x : Call) :
    x ∈ fIn (cg.AddNode n) k ↔
      (if k = n.Name then x ∈ n.FlowsIn ∨ x ∈ fIn cg k else x ∈ fIn cg k) := by
  by_cases hk : k = n.Name
  · subst hk
    rw [if_pos rfl]
    unfold fIn
    rw [AddNode_stored]
    cases hex : alookup cg.nodes n.Name with
    | none => simp [hex, GraphNode.zero]
    | some ex => simp [hex, GraphNode.Update, mem_UpdateCalls]
  · rw [if_neg hk]
    unfold fIn
    rw [AddNode_lookup_ne cg n k hk]

theorem AddNode_nName (cg : CallGraph) (n : GraphNode) (k : String) :
    nName (cg.AddNode n) k = if k = n.Name then n.Name else nName cg k := by
  by_cases hk : k = n.Name
  · subst hk
    rw [if_pos rfl]
    unfold nName
    rw [AddNode_stored]
    cases hex : alookup cg.nodes n.Name with
    | none => simp [hex]
    | some ex => simp [hex, GraphNode.Update]
  · rw [if_neg hk]
    unfold nName
    rw [AddNode_lookup_ne cg n k hk]

theorem AddNode_roots_mem (cg : CallGraph) (n : GraphNode) (k : String) :
    k ∈ (cg.AddNode n).roots ↔
      k ∈ cg.roots ∨ (k = n.Name ∧ n.CallsIn = [] ∧ nIn cg n.Name = [] ∧
        n.FlowsIn = [] ∧ fIn cg n.Name = []) := by
  unfold CallGraph.AddNode
  cases hex : alookup cg.nodes n.Name with
  | none =>
    have hnin : nIn cg n.Name = [] := by unfold nIn; rw [hex]; rfl
    have hfin : fIn cg n.Name = [] := by unfold fIn; rw [hex]; rfl
    simp only [hex, hnin, hfin, and_true]
    by_cases hc : n.CallsIn = [] ∧ n.FlowsIn = []
    · rw [if_pos hc, mem_sAdd]
      simp [hc.1, hc.2]
    · rw [if_neg hc]
      constructor
      · exact Or.inl
      · rintro (h | ⟨_, h1, -, h2⟩)
        · exact h
        · exact absurd ⟨h1, h2⟩ hc
  | some ex =>
    have hnin : nIn cg n.Name = ex.CallsIn := by unfold nIn; rw [hex]; rfl
    have hfin : fIn cg n.Name = ex.FlowsIn := by unfold fIn; rw [hex]; rfl
    simp only [hex, hnin, hfin]
    show k ∈ (if (n.Update ex).CallsIn = [] ∧ (n.Update ex).FlowsIn = [] then
        sAdd cg.roots n.Name else cg.roots) ↔ _
    have hui : (n.Update ex).CallsIn = UpdateCalls n.CallsIn ex.CallsIn := rfl
    have huf : (n.Update ex).FlowsIn = UpdateCalls n.FlowsIn ex.FlowsIn := rfl
    rw [hui, huf]
    by_cases hc : UpdateCalls n.CallsIn ex.CallsIn = [] ∧
        UpdateCalls n.FlowsIn ex.FlowsIn = []
    · rw [if_pos hc, mem_sAdd]
      obtain ⟨h1, h2⟩ := hc
      rw [UpdateCalls_eq_nil_iff] at h1 h2
      simp [h1.1, h1.2, h2.1, h2.2]
    · rw [if_neg hc]
      constructor
      · exact Or.inl
      · rintro (h | ⟨_, h1, h2, h3, h4⟩)
        · exact h
        · refine absurd ⟨?_, ?_⟩ hc
          · rw [UpdateCalls_eq_nil_iff]
            exact ⟨h1, h2⟩
          · rw [UpdateCalls_eq_nil_iff]
            exact ⟨h3, h4⟩

theorem AddNode_leaves_mem (cg : CallGraph) (n : GraphNode) (k : String) :
    k ∈ (cg.AddNode n).leaves ↔
      k ∈ cg.leaves ∨ (k = n.Name ∧ n.CallsOut = [] ∧ nOut cg n.Name = [] ∧
        n.FlowsOut = [] ∧ fOut cg n.Name = []) := by
  unfold CallGraph.AddNode
  cases hex : alookup cg.nodes n.Name with
  | none =>
    have hnin : nOut cg n.Name = [] := by unfold nOut; rw [hex]; rfl
    have hfin : fOut cg n.Name = [] := by unfold fOut; rw [hex]; rfl
    simp only [hex, hnin, hfin, and_true]
    by_cases hc : n.CallsOut = [] ∧ n.FlowsOut = []
    · rw [if_pos hc, mem_sAdd]
      simp [hc.1, hc.2]
    · rw [if_neg hc]
      constructor
      · exact Or.inl
      · rintro (h | ⟨_, h1, -, h2⟩)
        · exact h
        · exact absurd ⟨h1, h2⟩ hc
  | some ex =>
    have hnin : nOut cg n.Name = ex.CallsOut := by unfold nOut; rw [hex]; rfl
    have hfin : fOut cg n.Name = ex.FlowsOut := by unfold fOut; rw [hex]; rfl
    simp only [hex, hnin, hfin]
    show k ∈ (if (n.Update ex).CallsOut = [] ∧ (n.Update ex).FlowsOut = [] then
        sAdd cg.leaves n.Name else cg.leaves) ↔ _
    have hui : (n.Update ex).CallsOut = UpdateCalls n.CallsOut ex.CallsOut := rfl
    have huf : (n.Update ex).FlowsOut = UpdateCalls n.FlowsOut ex.FlowsOut := rfl
    rw [hui, huf]
    by_cases hc : UpdateCalls n.CallsOut ex.CallsOut = [] ∧
        UpdateCalls n.FlowsOut ex.FlowsOut = []
    · rw [if_pos hc, mem_sAdd]
      obtain ⟨h1, h2⟩ := hc
      rw [UpdateCalls_eq_nil_iff] at h1 h2
      simp [h1.1, h1.2, h2.1, h2.2]
    · rw [if_neg hc]
      constructor
      · exact Or.inl
      · rintro (h | ⟨_, h1, h2, h3, h4⟩)
        · exact h
        · refine absurd ⟨?_, ?_⟩ hc
          · rw [UpdateCalls_eq_nil_iff]
            exact ⟨h1, h2⟩
          · rw [UpdateCalls_eq_nil_iff]
            exact ⟨h3, h4⟩

theorem AddNode_roots_nodup (cg : CallGraph) (n : GraphNode)
    (h : cg.roots.Nodup) : (cg.AddNode n).roots.Nodup := by
  unfold CallGraph.AddNode
  cases hex : alookup cg.nodes n.Name with
  | none =>
    simp only [hex]
    split
    · exact sAdd_nodup h _
    · exact h
  | some ex =>
    simp only [hex]
    split
    · exact sAdd_nodup h _
    · exact h

theorem AddNode_leaves_nodup (cg : CallGraph) (n : GraphNode)
    (h : cg.leaves.Nodup) : (cg.AddNode n).leaves.Nodup := by
  unfold CallGraph.AddNode
  cases hex : alookup cg.nodes n.Name with
  | none =>
    simp only [hex]
    split
    · exact sAdd_nodup h _
    · exact h
  | some ex =>
    simp only [hex]
    split
    · exact sAdd_nodup h _
    · exact h

theorem AddNode_nodes_nodup (cg : CallGraph) (n : GraphNode)
    (h : (akeys cg.nodes).Nodup) : (akeys (cg.AddNode n).nodes).Nodup :=
  akeys_ainsert_nodup _ _ _ h

theorem AddCall_nOut_mem (cg : CallGraph) (c : Call) (k : String) (x : Call) :
    x ∈ nOut (cg.AddCall c) k ↔ x ∈ nOut cg k ∨ (k = c.Caller ∧ x = c) := by
  unfold nOut CallGraph.AddCall
  by_cases hke : c.Callee = k
  · by_cases hkc : c.Caller = k
    · have hcc : c.Caller = c.Callee := hkc.trans hke.symm
      simp only [alookup_ainsert, hke, hkc, hcc, if_pos rfl]
      simp [mem_UpdateCalls]
    · have hcc : ¬ c.Caller = c.Callee := fun hx => hkc (hx.trans hke)
      have hkc' : ¬ k = c.Caller := fun hx => hkc hx.symm
      simp only [alookup_ainsert, if_pos hke, if_neg hcc]
      rw [hke]
      simp [hkc']
  · by_cases hkc : c.Caller = k
    · simp only [alookup_ainsert, if_neg hke, if_pos hkc]
      rw [hkc]
      simp [mem_UpdateCalls]
    · have hkc' : ¬ k = c.Caller := fun hx => hkc hx.symm
      simp only [alookup_ainsert, if_neg hke, if_neg hkc]
      simp [hkc']

theorem AddCall_nIn_mem (cg : CallGraph) (c : Call) (k : String) (x : Call) :
    x ∈ nIn (cg.AddCall c) k ↔ x ∈ nIn cg k ∨ (k = c.Callee ∧ x = c) := by
  unfold nIn CallGraph.AddCall
  by_cases hke : c.Callee = k
  · by_cases hkc : c.Caller = k
    · have hcc : c.Caller = c.Callee := hkc.trans hke.symm
      simp only [alookup_ainsert, hke, hkc, hcc, if_pos rfl]
      simp [mem_UpdateCalls]
    · have hcc : ¬ c.Caller = c.Callee := fun hx => hkc (hx.trans hke)
      simp only [alookup_ainsert, if_pos hke, if_neg hcc]
      rw [hke]
      simp [mem_UpdateCalls]
  · by_cases hkc : c.Caller = k
    · have hke' : ¬ k = c.Callee := fun hx => hke hx.symm
      simp only [alookup_ainsert, if_neg hke, if_pos hkc]
      rw [hkc]
      simp [hke']
    · have hke' : ¬ k = c.Callee := fun hx => hke hx.symm
      simp only [alookup_ainsert, if_neg hke, if_neg hkc]
      simp [hke']

theorem AddCall_fOut_eq (cg : CallGraph) (c : Call) (k : String) :
    fOut (cg.AddCall c) k = fOut cg k := by
  unfold fOut CallGraph.AddCall
  by_cases hke : c.Callee = k
  · by_cases hkc : c.Caller = k
    · have hcc : c.Caller = c.Callee := hkc.trans hke.symm
      simp only [alookup_ainsert, hke, hkc, hcc, if_pos rfl]
      simp
    · have hcc : ¬ c.Caller = c.Callee := fun hx => hkc (hx.trans hke)
      simp only [alookup_ainsert, if_pos hke, if_neg hcc]
      simp [hke]
  · by_cases hkc : c.Caller = k
    · have hcc : ¬ c.Caller = c.Callee := fun hx => hke (hx.symm.trans hkc)
      simp only [alookup_ainsert, if_neg hke, if_pos hkc]
      simp [hkc]
    · simp only [alookup_ainsert, if_neg hke, if_neg hkc]

theorem AddCall_fIn_eq (cg : CallGraph) (c : Call) (k : String) :
    fIn (cg.AddCall c) k = fIn cg k := by
  unfold fIn CallGraph.AddCall
  by_cases hke : c.Callee = k
  · by_cases hkc : c.Caller = k
    · have hcc : c.Caller = c.Callee := hkc.trans hke.symm
      simp only [alookup_ainsert, hke, hkc, hcc, if_pos rfl]
      simp
    · have hcc : ¬ c.Caller = c.Callee := fun hx => hkc (hx.trans hke)
      simp only [alookup_ainsert, if_pos hke, if_neg hcc]
      simp [hke]
  · by_cases hkc : c.Caller = k
    · have hcc : ¬ c.Caller = c.Callee := fun hx => hke (hx.symm.trans hkc)
      simp only [alookup_ainsert, if_neg hke, if_pos hkc]
      simp [hkc]
    · simp only [alookup_ainsert, if_neg hke, if_neg hkc]

theorem AddCall_nName_eq (cg : CallGraph) (c : Call) (k : String) :
    nName (cg.AddCall c) k = nName cg k := by
  unfold nName CallGraph.AddCall
  by_cases hke : c.Callee = k
  · by_cases hkc : c.Caller = k
    · have hcc : c.Caller = c.Callee := hkc.trans hke.symm
      simp only [alookup_ainsert, hke, hkc, hcc, if_pos rfl]
      simp
    · have hcc : ¬ c.Caller = c.Callee := fun hx => hkc (hx.trans hke)
      simp only [alookup_ainsert, if_pos hke, if_neg hcc]
      simp [hke]
  · by_cases hkc : c.Caller = k
    · have hcc : ¬ c.Caller = c.Callee := fun hx => hke (hx.symm.trans hkc)
      simp only [alookup_ainsert, if_neg hke, if_pos hkc]
      simp [hkc]
    · simp only [alookup_ainsert, if_neg hke, if_neg hkc]

theorem AddCall_roots_mem (cg : CallGraph) (c : Call) (k : String)
    (hnd : cg.roots.Nodup) :
    k ∈ (cg.AddCall c).roots ↔ k ∈ cg.roots ∧ k ≠ c.Callee := by
  show k ∈ sRemove cg.roots c.Callee ↔ _
  rw [mem_sRemove hnd]

theorem AddCall_leaves_mem (cg : CallGraph) (c : Call) (k : String)
    (hnd : cg.leaves.Nodup) :
    k ∈ (cg.AddCall c).leaves ↔ k ∈ cg.leaves ∧ k ≠ c.Caller := by
  show k ∈ sRemove cg.leaves c.Caller ↔ _
  rw [mem_sRemove hnd]

theorem AddCall_roots_nodup (cg : CallGraph) (c : Call)
    (hnd : cg.roots.Nodup) : (cg.AddCall c).roots.Nodup :=
  sRemove_nodup hnd _

theorem AddCall_leaves_nodup (cg : CallGraph) (c : Call)
    (hnd : cg.leaves.Nodup) : (cg.AddCall c).leaves.Nodup :=
  sRemove_nodup hnd _

theorem AddCall_nodes_nodup (cg : CallGraph) (c : Call)
    (hnd : (akeys cg.nodes).Nodup) : (akeys (cg.AddCall c).nodes).Nodup := by
  show (akeys (ainsert (ainsert cg.nodes c.Caller _) c.Callee _)).Nodup
  exact akeys_ainsert_nodup _ _ _ (akeys_ainsert_nodup _ _ _ hnd)

theorem AddCall_calls_nodup (cg : CallGraph) (c : Call)
    (hnd : (akeys cg.calls).Nodup) : (akeys (cg.AddCall c).calls).Nodup := by
  rw [AddCall_calls]
  exact akeys_ainsert_nodup _ _ _ hnd

theorem AddFlow_fOut_mem (cg : CallGraph) (c : Call) (k : String) (x : Call) :
    x ∈ fOut (cg.AddFlow c) k ↔ x ∈ fOut cg k ∨ (k = c.Caller ∧ x = c) := by
  unfold fOut CallGraph.AddFlow
  by_cases hke : c.Callee = k
  · by_cases hkc : c.Caller = k
    · have hcc : c.Caller = c.Callee := hkc.trans hke.symm
      simp only [alookup_ainsert, hke, hkc, hcc, if_pos rfl]
      simp [mem_UpdateCalls]
    · have hcc : ¬ c.Caller = c.Callee := fun hx => hkc (hx.trans hke)
      have hkc' : ¬ k = c.Caller := fun hx => hkc hx.symm
      simp only [alookup_ainsert, if_pos hke, if_neg hcc]
      rw [hke]
      simp [hkc']
  · by_cases hkc : c.Caller = k
    · simp only [alookup_ainsert, if_neg hke, if_pos hkc]
      rw [hkc]
      simp [mem_UpdateCalls]
    · have hkc' : ¬ k = c.Caller := fun hx => hkc hx.symm
      simp only [alookup_ainsert, if_neg hke, if_neg hkc]
      simp [hkc']

theorem AddFlow_fIn_mem (cg : CallGraph) (c : Call) (k : String) (x : Call) :
    x ∈ fIn (cg.AddFlow c) k ↔ x ∈ fIn cg k ∨ (k = c.Callee ∧ x = c) := by
  unfold fIn CallGraph.AddFlow
  by_cases hke : c.Callee = k
  · by_cases hkc : c.Caller = k
    · have hcc : c.Caller = c.Callee := hkc.trans hke.symm
      simp only [alookup_ainsert, hke, hkc, hcc, if_pos rfl]
      simp [mem_UpdateCalls]
    · have hcc : ¬ c.Caller = c.Callee := fun hx => hkc (hx.trans hke)
      simp only [alookup_ainsert, if_pos hke, if_neg hcc]
      rw [hke]
      simp [mem_UpdateCalls]
  · by_cases hkc : c.Caller = k
    · have hke' : ¬ k = c.Callee := fun hx => hke hx.symm
      simp only [alookup_ainsert, if_neg hke, if_pos hkc]
      rw [hkc]
      simp [hke']
    · have hke' : ¬ k = c.Callee := fun hx => hke hx.symm
      simp only [alookup_ainsert, if_neg hke, if_neg hkc]
      simp [hke']

theorem AddFlow_nOut_eq (cg : CallGraph) (c : Call) (k : String) :
    nOut (cg.AddFlow c) k = nOut cg k := by
  unfold nOut CallGraph.AddFlow
  by_cases hke : c.Callee = k
  · by_cases hkc : c.Caller = k
    · have hcc : c.Caller = c.Callee := hkc.trans hke.symm
      simp only [alookup_ainsert, hke, hkc, hcc, if_pos rfl]
      simp
    · have hcc : ¬ c.Caller = c.Callee := fun hx => hkc (hx.trans hke)
      simp only [alookup_ainsert, if_pos hke, if_neg hcc]
      simp [hke]
  · by_cases hkc : c.Caller = k
    · simp only [alookup_ainsert, if_neg hke, if_pos hkc]
      simp [hkc]
    · simp only [alookup_ainsert, if_neg hke, if_neg hkc]

theorem AddFlow_nIn_eq (cg : CallGraph) (c : Call) (k : String) :
    nIn (cg.AddFlow c) k = nIn cg k := by
  unfold nIn CallGraph.AddFlow
  by_cases hke : c.Callee = k
  · by_cases hkc : c.Caller = k
    · have hcc : c.Caller = c.Callee := hkc.trans hke.symm
      simp only [alookup_ainsert, hke, hkc, hcc, if_pos rfl]
      simp
    · have hcc : ¬ c.Caller = c.Callee := fun hx => hkc (hx.trans hke)
      simp only [alookup_ainsert, if_pos hke, if_neg hcc]
      simp [hke]
  · by_cases hkc : c.Caller = k
    · simp only [alookup_ainsert, if_neg hke, if_pos hkc]
      simp [hkc]
    · simp only [alookup_ainsert, if_neg hke, if_neg hkc]

theorem AddFlow_nName_eq (cg : CallGraph) (c : Call) (k : String) :
    nName (cg.AddFlow c) k = nName cg k := by
  unfold nName CallGraph.AddFlow
  by_cases hke : c.Callee = k
  · by_cases hkc : c.Caller = k
    · have hcc : c.Caller = c.Callee := hkc.trans hke.symm
      simp only [alookup_ainsert, hke, hkc, hcc, if_pos rfl]
      simp
    · have hcc : ¬ c.Caller = c.Callee := fun hx => hkc (hx.trans hke)
      simp only [alookup_ainsert, if_pos hke, if_neg hcc]
      simp [hke]
  · by_cases hkc : c.Caller = k
    · simp only [alookup_ainsert, if_neg hke, if_pos hkc]
      simp [hkc]
    · simp only [alookup_ainsert, if_neg hke, if_neg hkc]

theorem AddFlow_roots_mem (cg : CallGraph) (c : Call) (k : String)
    (hnd : cg.roots.Nodup) :
    k ∈ (cg.AddFlow c).roots ↔ k ∈ cg.roots ∧ k ≠ c.Callee := by
  show k ∈ sRemove cg.roots c.Callee ↔ _
  rw [mem_sRemove hnd]

theorem AddFlow_leaves_mem (cg : CallGraph) (c : Call) (k : String)
    (hnd : cg.leaves.Nodup) :
    k ∈ (cg.AddFlow c).leaves ↔ k ∈ cg.leaves ∧ k ≠ c.Caller := by
  show k ∈ sRemove cg.leaves c.Caller ↔ _
  rw [mem_sRemove hnd]

theorem AddFlow_roots_nodup (cg : CallGraph) (c : Call)
    (hnd : cg.roots.Nodup) : (cg.AddFlow c).roots.Nodup :=
  sRemove_nodup hnd _

theorem AddFlow_leaves_nodup (cg : CallGraph) (c : Call)
    (hnd : cg.leaves.Nodup) : (cg.AddFlow c).leaves.Nodup :=
  sRemove_nodup hnd _

theorem AddFlow_nodes_nodup (cg : CallGraph) (c : Call)
    (hnd : (akeys cg.nodes).Nodup) : (akeys (cg.AddFlow c).nodes).Nodup := by
  show (akeys (ainsert (ainsert cg.nodes c.Caller _) c.Callee _)).Nodup
  exact akeys_ainsert_nodup _ _ _ (akeys_ainsert_nodup _ _ _ hnd)

theorem AddFlow_flows_nodup (cg : CallGraph) (c : Call)
    (hnd : (akeys cg.flows).Nodup) : (akeys (cg.AddFlow c).flows).Nodup := by
  rw [AddFlow_flows]
  exact akeys_ainsert_nodup _ _ _ hnd

/-- The structural invariant the engine maintains: duplicate-free maps and
sets, nodes keyed by their own names, per-node edge lists that mirror the
edge maps, and root/leaf sets that equal what a full scan of the edge maps
computes. -/
structure EngineInv (cg : CallGraph) : Prop where
  ndK : (akeys cg.nodes).Nodup
  ndC : (akeys cg.calls).Nodup
  ndF : (akeys cg.flows).Nodup
  ndR : cg.roots.Nodup
  ndL : cg.leaves.Nodup
  named : ∀ k ∈ akeys cg.nodes, nName cg k = k
  co : ∀ (k : String) (x : Call), x ∈ nOut cg k ↔ (x ∈ akeys cg.calls ∧ x.Caller = k)
  ci : ∀ (k : String) (x : Call), x ∈ nIn cg k ↔ (x ∈ akeys cg.calls ∧ x.Callee = k)
  fo : ∀ (k : String) (x : Call), x ∈ fOut cg k ↔ (x ∈ akeys cg.flows ∧ x.Caller = k)
  fi : ∀ (k : String) (x : Call), x ∈ fIn cg k ↔ (x ∈ akeys cg.flows ∧ x.Callee = k)
  rts : ∀ k : String, k ∈ cg.roots ↔ (k ∈ akeys cg.nodes ∧
    (∀ c ∈ akeys cg.calls, (c : Call).Callee ≠ k) ∧
    (∀ c ∈ akeys cg.flows, (c : Call).Callee ≠ k))
  lvs : ∀ k : String, k ∈ cg.leaves ↔ (k ∈ akeys cg.nodes ∧
    (∀ c ∈ akeys cg.calls, (c : Call).Caller ≠ k) ∧
    (∀ c ∈ akeys cg.flows, (c : Call).Caller ≠ k))

theorem inv_new : EngineInv NewCallGraph := by
  constructor <;>
    simp [NewCallGraph, akeys, nOut, nIn, fOut, fIn, nName, alookup,
      GraphNode.zero]

theorem nIn_nil_iff {cg : CallGraph} (hinv : EngineInv cg) (k : String) :
    nIn cg k = [] ↔ ∀ c ∈ akeys cg.calls, (c : Call).Callee ≠ k := by
  rw [List.eq_nil_iff_forall_not_mem]
  constructor
  · intro h c hc hck
    exact h c ((hinv.ci k c).mpr ⟨hc, hck⟩)
  · intro h x hx
    obtain ⟨h1, h2⟩ := (hinv.ci k x).mp hx
    exact h x h1 h2

theorem fIn_nil_iff {cg : CallGraph} (hinv : EngineInv cg) (k : String) :
    fIn cg k = [] ↔ ∀ c ∈ akeys cg.flows, (c : Call).Callee ≠ k := by
  rw [List.eq_nil_iff_forall_not_mem]
  constructor
  · intro h c hc hck
    exact h c ((hinv.fi k c).mpr ⟨hc, hck⟩)
  · intro h x hx
    obtain ⟨h1, h2⟩ := (hinv.fi k x).mp hx
    exact h x h1 h2

theorem nOut_nil_iff {cg : CallGraph} (hinv : EngineInv cg) (k : String) :
    nOut cg k = [] ↔ ∀ c ∈ akeys cg.calls, (c : Call).Caller ≠ k := by
  rw [List.eq_nil_iff_forall_not_mem]
  constructor
  · intro h c hc hck
    exact h c ((hinv.co k c).mpr ⟨hc, hck⟩)
  · intro h x hx
    obtain ⟨h1, h2⟩ := (hinv.co k x).mp hx
    exact h x h1 h2

theorem fOut_nil_iff {cg : CallGraph} (hinv : EngineInv cg) (k : String) :
    fOut cg k = [] ↔ ∀ c ∈ akeys cg.flows, (c : Call).Caller ≠ k := by
  rw [List.eq_nil_iff_forall_not_mem]
  constructor
  · intro h c hc hck
    exact h c ((hinv.fo k c).mpr ⟨hc, hck⟩)
  · intro h x hx
    obtain ⟨h1, h2⟩ := (hinv.fo k x).mp hx
    exact h x h1 h2

theorem nOut_absent {cg : CallGraph} {k : String} (h : k ∉ akeys cg.nodes) :
    nOut cg k = [] := by
  unfold nOut
  rw [(alookup_eq_none_iff cg.nodes k).mpr h]
  rfl

theorem nIn_absent {cg : CallGraph} {k : String} (h : k ∉ akeys cg.nodes) :
    nIn cg k = [] := by
  unfold nIn
  rw [(alookup_eq_none_iff cg.nodes k).mpr h]
  rfl

theorem fOut_absent {cg : CallGraph} {k : String} (h : k ∉ akeys cg.nodes) :
    fOut cg k = [] := by
  unfold fOut
  rw [(alookup_eq_none_iff cg.nodes k).mpr h]
  rfl

theorem fIn_absent {cg : CallGraph} {k : String} (h : k ∉ akeys cg.nodes) :
    fIn cg k = [] := by
  unfold fIn
  rw [(alookup_eq_none_iff cg.nodes k).mpr h]
  rfl

theorem call_endpoints {cg : CallGraph} (hinv : EngineInv cg) {x : Call}
    (hx : x ∈ akeys cg.calls) :
    x.Caller ∈ akeys cg.nodes ∧ x.Callee ∈ akeys cg.nodes := by
  constructor
  · by_contra h
    have h0 : x ∈ nOut cg x.Caller := (hinv.co x.Caller x).mpr ⟨hx, rfl⟩
    rw [nOut_absent h] at h0
    simp at h0
  · by_contra h
    have h0 : x ∈ nIn cg x.Callee := (hinv.ci x.Callee x).mpr ⟨hx, rfl⟩
    rw [nIn_absent h] at h0
    simp at h0

theorem flow_endpoints {cg : CallGraph} (hinv : EngineInv cg) {x : Call}
    (hx : x ∈ akeys cg.flows) :
    x.Caller ∈ akeys cg.nodes ∧ x.Callee ∈ akeys cg.nodes := by
  constructor
  · by_contra h
    have h0 : x ∈ fOut cg x.Caller := (hinv.fo x.Caller x).mpr ⟨hx, rfl⟩
    rw [fOut_absent h] at h0
    simp at h0
  · by_contra h
    have h0 : x ∈ fIn cg x.Callee := (hinv.fi x.Callee x).mpr ⟨hx, rfl⟩
    rw [fIn_absent h] at h0
    simp at h0

theorem inv_addNode {cg : CallGraph} (hinv : EngineInv cg) (n : GraphNode)
    (h1 : n.CallsIn = []) (h2 : n.CallsOut = []) (h3 : n.FlowsIn = [])
    (h4 : n.FlowsOut = []) : EngineInv (cg.AddNode n) := by
  refine ⟨AddNode_nodes_nodup cg n hinv.ndK, ?_, ?_,
    AddNode_roots_nodup cg n hinv.ndR, AddNode_leaves_nodup cg n hinv.ndL,
    ?_, ?_, ?_, ?_, ?_, ?_, ?_⟩
  · rw [AddNode_calls]
    exact hinv.ndC
  · rw [AddNode_flows]
    exact hinv.ndF
  · intro k hk
    rw [AddNode_nName]
    by_cases hkn : k = n.Name
    · rw [if_pos hkn, hkn]
    · rw [if_neg hkn]
      rcases (mem_akeys_AddNode_nodes cg n k).mp hk with h | h
      · exact hinv.named k h
      · exact absurd h hkn
  · intro k x
    rw [show akeys (cg.AddNode n).calls = akeys cg.calls from by rw [AddNode_calls]]
    rw [AddNode_nOut_mem]
    by_cases hkn : k = n.Name
    · rw [if_pos hkn, h2]
      simp only [List.not_mem_nil, false_or]
      exact hinv.co k x
    · rw [if_neg hkn]
      exact hinv.co k x
  · intro k x
    rw [show akeys (cg.AddNode n).calls = akeys cg.calls from by rw [AddNode_calls]]
    rw [AddNode_nIn_mem]
    by_cases hkn : k = n.Name
    · rw [if_pos hkn, h1]
      simp only [List.not_mem_nil, false_or]
      exact hinv.ci k x
    · rw [if_neg hkn]
      exact hinv.ci k x
  · intro k x
    rw [show akeys (cg.AddNode n).flows = akeys cg.flows from by rw [AddNode_flows]]
    rw [AddNode_fOut_mem]
    by_cases hkn : k = n.Name
    · rw [if_pos hkn, h4]
      simp only [List.not_mem_nil, false_or]
      exact hinv.fo k x
    · rw [if_neg hkn]
      exact hinv.fo k x
  · intro k x
    rw [show akeys (cg.AddNode n).flows = akeys cg.flows from by rw [AddNode_flows]]
    rw [AddNode_fIn_mem]
    by_cases hkn : k = n.Name
    · rw [if_pos hkn, h3]
      simp only [List.not_mem_nil, false_or]
      exact hinv.fi k x
    · rw [if_neg hkn]
      exact hinv.fi k x
  · intro k
    rw [AddNode_roots_mem,
      show akeys (cg.AddNode n).calls = akeys cg.calls from by rw [AddNode_calls],
      show akeys (cg.AddNode n).flows = akeys cg.flows from by rw [AddNode_flows]]
    rw [hinv.rts k]
    constructor
    · rintro (⟨hk, hc, hf⟩ | ⟨hk, -, hni, -, hfi⟩)
      · exact ⟨(mem_akeys_AddNode_nodes cg n k).mpr (Or.inl hk), hc, hf⟩
      · subst hk
        exact ⟨(mem_akeys_AddNode_nodes cg n n.Name).mpr (Or.inr rfl),
          (nIn_nil_iff hinv n.Name).mp hni, (fIn_nil_iff hinv n.Name).mp hfi⟩
    · rintro ⟨hk, hc, hf⟩
      rcases (mem_akeys_AddNode_nodes cg n k).mp hk with hk' | hk'
      · exact Or.inl ⟨hk', hc, hf⟩
      · subst hk'
        exact Or.inr ⟨rfl, h1, (nIn_nil_iff hinv n.Name).mpr hc, h3,
          (fIn_nil_iff hinv n.Name).mpr hf⟩
  · intro k
    rw [AddNode_leaves_mem,
      show akeys (cg.AddNode n).calls = akeys cg.calls from by rw [AddNode_calls],
      show akeys (cg.AddNode n).flows = akeys cg.flows from by rw [AddNode_flows]]
    rw [hinv.lvs k]
    constructor
    · rintro (⟨hk, hc, hf⟩ | ⟨hk, -, hni, -, hfi⟩)
      · exact ⟨(mem_akeys_AddNode_nodes cg n k).mpr (Or.inl hk), hc, hf⟩
      · subst hk
        exact ⟨(mem_akeys_AddNode_nodes cg n n.Name).mpr (Or.inr rfl),
          (nOut_nil_iff hinv n.Name).mp hni, (fOut_nil_iff hinv n.Name).mp hfi⟩
    · rintro ⟨hk, hc, hf⟩
      rcases (mem_akeys_AddNode_nodes cg n k).mp hk with hk' | hk'
      · exact Or.inl ⟨hk', hc, hf⟩
      · subst hk'
        exact Or.inr ⟨rfl, h2, (nOut_nil_iff hinv n.Name).mpr hc, h4,
          (fOut_nil_iff hinv n.Name).mpr hf⟩

theorem akeys_AddCall_nodes_eq {cg : CallGraph} {c : Call}
    (hcr : c.Caller ∈ akeys cg.nodes) (hce : c.Callee ∈ akeys cg.nodes)
    (k : String) : k ∈ akeys (cg.AddCall c).nodes ↔ k ∈ akeys cg.nodes := by
  rw [mem_akeys_AddCall_nodes]
  constructor
  · rintro (h | h | h)
    · exact h
    · exact h ▸ hcr
    · exact h ▸ hce
  · exact Or.inl

theorem inv_addCall {cg : CallGraph} (hinv : EngineInv cg) (c : Call)
    (hcr : c.Caller ∈ akeys cg.nodes) (hce : c.Callee ∈ akeys cg.nodes) :
    EngineInv (cg.AddCall c) := by
  refine ⟨AddCall_nodes_nodup cg c hinv.ndK, AddCall_calls_nodup cg c hinv.ndC,
    ?_, AddCall_roots_nodup cg c hinv.ndR, AddCall_leaves_nodup cg c hinv.ndL,
    ?_, ?_, ?_, ?_, ?_, ?_, ?_⟩
  · rw [AddCall_flows]
    exact hinv.ndF
  · intro k hk
    rw [AddCall_nName_eq]
    exact hinv.named k ((akeys_AddCall_nodes_eq hcr hce k).mp hk)
  · intro k x
    rw [AddCall_nOut_mem, mem_akeys_AddCall_calls, hinv.co k x]
    constructor
    · rintro (⟨hx, hk⟩ | ⟨hk, hx⟩)
      · exact ⟨Or.inl hx, hk⟩
      · subst hx
        exact ⟨Or.inr rfl, hk.symm⟩
    · rintro ⟨hx | hx, hk⟩
      · exact Or.inl ⟨hx, hk⟩
      · subst hx
        exact Or.inr ⟨hk.symm, rfl⟩
  · intro k x
    rw [AddCall_nIn_mem, mem_akeys_AddCall_calls, hinv.ci k x]
    constructor
    · rintro (⟨hx, hk⟩ | ⟨hk, hx⟩)
      · exact ⟨Or.inl hx, hk⟩
      · subst hx
        exact ⟨Or.inr rfl, hk.symm⟩
    · rintro ⟨hx | hx, hk⟩
      · exact Or.inl ⟨hx, hk⟩
      · subst hx
        exact Or.inr ⟨hk.symm, rfl⟩
  · intro k x
    rw [AddCall_fOut_eq,
      show akeys (cg.AddCall c).flows = akeys cg.flows from by rw [AddCall_flows]]
    exact hinv.fo k x
  · intro k x
    rw [AddCall_fIn_eq,
      show akeys (cg.AddCall c).flows = akeys cg.flows from by rw [AddCall_flows]]
    exact hinv.fi k x
  · intro k
    rw [AddCall_roots_mem cg c k hinv.ndR, hinv.rts k,
      show akeys (cg.AddCall c).flows = akeys cg.flows from by rw [AddCall_flows]]
    constructor
    · rintro ⟨⟨hk, hc, hf⟩, hne⟩
      refine ⟨(akeys_AddCall_nodes_eq hcr hce k).mpr hk, ?_, hf⟩
      intro e he
      rcases (mem_akeys_AddCall_calls cg c e).mp he with he' | he'
      · exact hc e he'
      · subst he'
        exact fun hx => hne hx.symm
    · rintro ⟨hk, hc, hf⟩
      refine ⟨⟨(akeys_AddCall_nodes_eq hcr hce k).mp hk, ?_, hf⟩, ?_⟩
      · intro e he
        exact hc e ((mem_akeys_AddCall_calls cg c e).mpr (Or.inl he))
      · intro hx
        exact hc c ((mem_akeys_AddCall_calls cg c c).mpr (Or.inr rfl)) hx.symm
  · intro k
    rw [AddCall_leaves_mem cg c k hinv.ndL, hinv.lvs k,
      show akeys (cg.AddCall c).flows = akeys cg.flows from by rw [AddCall_flows]]
    constructor
    · rintro ⟨⟨hk, hc, hf⟩, hne⟩
      refine ⟨(akeys_AddCall_nodes_eq hcr hce k).mpr hk, ?_, hf⟩
      intro e he
      rcases (mem_akeys_AddCall_calls cg c e).mp he with he' | he'
      · exact hc e he'
      · subst he'
        exact fun hx => hne hx.symm
    · rintro ⟨hk, hc, hf⟩
      refine ⟨⟨(akeys_AddCall_nodes_eq hcr hce k).mp hk, ?_, hf⟩, ?_⟩
      · intro e he
        exact hc e ((mem_akeys_AddCall_calls cg c e).mpr (Or.inl he))
      · intro hx
        exact hc c ((mem_akeys_AddCall_calls cg c c).mpr (Or.inr rfl)) hx.symm

theorem mem_akeys_AddFlow_flows_iff (cg : CallGraph) (c e : Call) :
    e ∈ akeys (cg.AddFlow c).flows ↔ e ∈ akeys cg.flows ∨ e = c :=
  mem_akeys_AddFlow_flows cg c e

theorem akeys_AddFlow_nodes_eq {cg : CallGraph} {c : Call}
    (hcr : c.Caller ∈ akeys cg.nodes) (hce : c.Callee ∈ akeys cg.nodes)
    (k : String) : k ∈ akeys (cg.AddFlow c).nodes ↔ k ∈ akeys cg.nodes := by
  rw [mem_akeys_AddFlow_nodes]
  constructor
  · rintro (h | h | h)
    · exact h
    · exact h ▸ hcr
    · exact h ▸ hce
  · exact Or.inl

theorem inv_addFlow {cg : CallGraph} (hinv : EngineInv cg) (c : Call)
    (hcr : c.Caller ∈ akeys cg.nodes) (hce : c.Callee ∈ akeys cg.nodes) :
    EngineInv (cg.AddFlow c) := by
  refine ⟨AddFlow_nodes_nodup cg c hinv.ndK, ?_, AddFlow_flows_nodup cg c hinv.ndF,
    AddFlow_roots_nodup cg c hinv.ndR, AddFlow_leaves_nodup cg c hinv.ndL,
    ?_, ?_, ?_, ?_, ?_, ?_, ?_⟩
  · rw [AddFlow_calls]
    exact hinv.ndC
  · intro k hk
    rw [AddFlow_nName_eq]
    exact hinv.named k ((akeys_AddFlow_nodes_eq hcr hce k).mp hk)
  · intro k x
    rw [AddFlow_nOut_eq,
      show akeys (cg.AddFlow c).calls = akeys cg.calls from by rw [AddFlow_calls]]
    exact hinv.co k x
  · intro k x
    rw [AddFlow_nIn_eq,
      show akeys (cg.AddFlow c).calls = akeys cg.calls from by rw [AddFlow_calls]]
    exact hinv.ci k x
  · intro k x
    rw [AddFlow_fOut_mem, mem_akeys_AddFlow_flows, hinv.fo k x]
    constructor
    · rintro (⟨hx, hk⟩ | ⟨hk, hx⟩)
      · exact ⟨Or.inl hx, hk⟩
      · subst hx
        exact ⟨Or.inr rfl, hk.symm⟩
    · rintro ⟨hx | hx, hk⟩
      · exact Or.inl ⟨hx, hk⟩
      · subst hx
        exact Or.inr ⟨hk.symm, rfl⟩
  · intro k x
    rw [AddFlow_fIn_mem, mem_akeys_AddFlow_flows, hinv.fi k x]
    constructor
    · rintro (⟨hx, hk⟩ | ⟨hk, hx⟩)
      · exact ⟨Or.inl hx, hk⟩
      · subst hx
        exact ⟨Or.inr rfl, hk.symm⟩
    · rintro ⟨hx | hx, hk⟩
      · exact Or.inl ⟨hx, hk⟩
      · subst hx
        exact Or.inr ⟨hk.symm, rfl⟩
  · intro k
    rw [AddFlow_roots_mem cg c k hinv.ndR, hinv.rts k,
      show akeys (cg.AddFlow c).calls = akeys cg.calls from by rw [AddFlow_calls]]
    constructor
    · rintro ⟨⟨hk, hc, hf⟩, hne⟩
      refine ⟨(akeys_AddFlow_nodes_eq hcr hce k).mpr hk, hc, ?_⟩
      intro e he
      rcases (mem_akeys_AddFlow_flows cg c e).mp he with he' | he'
      · exact hf e he'
      · subst he'
        exact fun hx => hne hx.symm
    · rintro ⟨hk, hc, hf⟩
      refine ⟨⟨(akeys_AddFlow_nodes_eq hcr hce k).mp hk, hc, ?_⟩, ?_⟩
      · intro e he
        exact hf e ((mem_akeys_AddFlow_flows cg c e).mpr (Or.inl he))
      · intro hx
        exact hf c ((mem_akeys_AddFlow_flows cg c c).mpr (Or.inr rfl)) hx.symm
  · intro k
    rw [AddFlow_leaves_mem cg c k hinv.ndL, hinv.lvs k,
      show akeys (cg.AddFlow c).calls = akeys cg.calls from by rw [AddFlow_calls]]
    constructor
    · rintro ⟨⟨hk, hc, hf⟩, hne⟩
      refine ⟨(akeys_AddFlow_nodes_eq hcr hce k).mpr hk, hc, ?_⟩
      intro e he
      rcases (mem_akeys_AddFlow_flows cg c e).mp he with he' | he'
      · exact hf e he'
      · subst he'
        exact fun hx => hne hx.symm
    · rintro ⟨hk, hc, hf⟩
      refine ⟨⟨(akeys_AddFlow_nodes_eq hcr hce k).mp hk, hc, ?_⟩, ?_⟩
      · intro e he
        exact hf e ((mem_akeys_AddFlow_flows cg c e).mpr (Or.inl he))
      · intro hx
        exact hf c ((mem_akeys_AddFlow_flows cg c c).mpr (Or.inr rfl)) hx.symm

theorem AddNode_nOut_ne (cg : CallGraph) (n : GraphNode) (k : String)
    (h : k ≠ n.Name) : nOut (cg.AddNode n) k = nOut cg k := by
  unfold nOut
  rw [AddNode_lookup_ne cg n k h]

theorem AddNode_nIn_ne (cg : CallGraph) (n : GraphNode) (k : String)
    (h : k ≠ n.Name) : nIn (cg.AddNode n) k = nIn cg k := by
  unfold nIn
  rw [AddNode_lookup_ne cg n k h]

theorem AddNode_fOut_ne (cg : CallGraph) (n : GraphNode) (k : String)
    (h : k ≠ n.Name) : fOut (cg.AddNode n) k = fOut cg k := by
  unfold fOut
  rw [AddNode_lookup_ne cg n k h]

theorem AddNode_fIn_ne (cg : CallGraph) (n : GraphNode) (k : String)
    (h : k ≠ n.Name) : fIn (cg.AddNode n) k = fIn cg k := by
  unfold fIn
  rw [AddNode_lookup_ne cg n k h]

/-- The stored incoming-call list in a raw node map. -/
def pIn (l : List (String × GraphNode)) (k : String) : List Call :=
  ((alookup l k).getD GraphNode.zero).CallsIn

/-- The stored outgoing-call list in a raw node map. -/
def pOut (l : List (String × GraphNode)) (k : String) : List Call :=
  ((alookup l k).getD GraphNode.zero).CallsOut

/-- The stored incoming-flow list in a raw node map. -/
def pfIn (l : List (String × GraphNode)) (k : String) : List Call :=
  ((alookup l k).getD GraphNode.zero).FlowsIn

/-- The stored outgoing-flow list in a raw node map. -/
def pfOut (l : List (String × GraphNode)) (k : String) : List Call :=
  ((alookup l k).getD GraphNode.zero).FlowsOut

theorem pIn_nodes (g : CallGraph) (k : String) : pIn g.nodes k = nIn g k := rfl

theorem pOut_nodes (g : CallGraph) (k : String) : pOut g.nodes k = nOut g k := rfl

theorem pfIn_nodes (g : CallGraph) (k : String) : pfIn g.nodes k = fIn g k := rfl

theorem pfOut_nodes (g : CallGraph) (k : String) : pfOut g.nodes k = fOut g k := rfl

theorem foldA_nOut (l : List (String × GraphNode)) (acc : CallGraph)
    (hnd : (akeys l).Nodup) (hnm : ∀ p ∈ l, (p.2 : GraphNode).Name = p.1)
    (k : String) (x : Call) :
    x ∈ nOut (l.foldl (fun a p => a.AddNode p.2) acc) k ↔
      x ∈ nOut acc k ∨ x ∈ pOut l k := by
  induction l generalizing acc with
  | nil => simp [pOut, alookup, GraphNode.zero]
  | cons p t ih =>
    obtain ⟨k0, v0⟩ := p
    simp only [akeys, List.map_cons, List.nodup_cons] at hnd
    have hnm1 : v0.Name = k0 := hnm (k0, v0) (List.mem_cons_self _ _)
    rw [List.foldl_cons,
      ih _ hnd.2 (fun q hq => hnm q (List.mem_cons_of_mem _ hq))]
    by_cases hk : k = k0
    · subst hk
      have hout : pOut t k = [] := by
        unfold pOut
        rw [(alookup_eq_none_iff t k).mpr hnd.1]
        rfl
      have hmem := AddNode_nOut_mem acc v0 k x
      rw [if_pos hnm1.symm] at hmem
      rw [hmem, hout]
      have hl : pOut ((k, v0) :: t) k = v0.CallsOut := by
        unfold pOut
        simp [alookup]
      rw [hl]
      simp only [List.not_mem_nil, or_false]
      tauto
    · have hne : k ≠ v0.Name := fun hx => hk (hx.trans hnm1)
      rw [AddNode_nOut_ne acc v0 k hne]
      have hl : pOut ((k0, v0) :: t) k = pOut t k := by
        unfold pOut
        simp only [alookup, if_neg (fun hx : k0 = k => hk hx.symm)]
      rw [hl]

theorem foldA_nIn (l : List (String × GraphNode)) (acc : CallGraph)
    (hnd : (akeys l).Nodup) (hnm : ∀ p ∈ l, (p.2 : GraphNode).Name = p.1)
    (k : String) (x : Call) :
    x ∈ nIn (l.foldl (fun a p => a.AddNode p.2) acc) k ↔
      x ∈ nIn acc k ∨ x ∈ pIn l k := by
  induction l generalizing acc with
  | nil => simp [pIn, alookup, GraphNode.zero]
  | cons p t ih =>
    obtain ⟨k0, v0⟩ := p
    simp only [akeys, List.map_cons, List.nodup_cons] at hnd
    have hnm1 : v0.Name = k0 := hnm (k0, v0) (List.mem_cons_self _ _)
    rw [List.foldl_cons,
      ih _ hnd.2 (fun q hq => hnm q (List.mem_cons_of_mem _ hq))]
    by_cases hk : k = k0
    · subst hk
      have hout : pIn t k = [] := by
        unfold pIn
        rw [(alookup_eq_none_iff t k).mpr hnd.1]
        rfl
      have hmem := AddNode_nIn_mem acc v0 k x
      rw [if_pos hnm1.symm] at hmem
      rw [hmem, hout]
      have hl : pIn ((k, v0) :: t) k = v0.CallsIn := by
        unfold pIn
        simp [alookup]
      rw [hl]
      simp only [List.not_mem_nil, or_false]
      tauto
    · have hne : k ≠ v0.Name := fun hx => hk (hx.trans hnm1)
      rw [AddNode_nIn_ne acc v0 k hne]
      have hl : pIn ((k0, v0) :: t) k = pIn t k := by
        unfold pIn
        simp only [alookup, if_neg (fun hx : k0 = k => hk hx.symm)]
      rw [hl]

theorem foldA_fOut (l : List (String × GraphNode)) (acc : CallGraph)
    (hnd : (akeys l).Nodup) (hnm : ∀ p ∈ l, (p.2 : GraphNode).Name = p.1)
    (k : String) (x : Call) :
    x ∈ fOut (l.foldl (fun a p => a.AddNode p.2) acc) k ↔
      x ∈ fOut acc k ∨ x ∈ pfOut l k := by
  induction l generalizing acc with
  | nil => simp [pfOut, alookup, GraphNode.zero]
  | cons p t ih =>
    obtain ⟨k0, v0⟩ := p
    simp only [akeys, List.map_cons, List.nodup_cons] at hnd
    have hnm1 : v0.Name = k0 := hnm (k0, v0) (List.mem_cons_self _ _)
    rw [List.foldl_cons,
      ih _ hnd.2 (fun q hq => hnm q (List.mem_cons_of_mem _ hq))]
    by_cases hk : k = k0
    · subst hk
      have hout : pfOut t k = [] := by
        unfold pfOut
        rw [(alookup_eq_none_iff t k).mpr hnd.1]
        rfl
      have hmem := AddNode_fOut_mem acc v0 k x
      rw [if_pos hnm1.symm] at hmem
      rw [hmem, hout]
      have hl : pfOut ((k, v0) :: t) k = v0.FlowsOut := by
        unfold pfOut
        simp [alookup]
      rw [hl]
      simp only [List.not_mem_nil, or_false]
      tauto
    · have hne : k ≠ v0.Name := fun hx => hk (hx.trans hnm1)
      rw [AddNode_fOut_ne acc v0 k hne]
      have hl : pfOut ((k0, v0) :: t) k = pfOut t k := by
        unfold pfOut
        simp only [alookup, if_neg (fun hx : k0 = k => hk hx.symm)]
      rw [hl]

theorem foldA_fIn (l : List (String × GraphNode)) (acc : CallGraph)
    (hnd : (akeys l).Nodup) (hnm : ∀ p ∈ l, (p.2 : GraphNode).Name = p.1)
    (k : String) (x : Call) :
    x ∈ fIn (l.foldl (fun a p => a.AddNode p.2) acc) k ↔
      x ∈ fIn acc k ∨ x ∈ pfIn l k := by
  induction l generalizing acc with
  | nil => simp [pfIn, alookup, GraphNode.zero]
  | cons p t ih =>
    obtain ⟨k0, v0⟩ := p
    simp only [akeys, List.map_cons, List.nodup_cons] at hnd
    have hnm1 : v0.Name = k0 := hnm (k0, v0) (List.mem_cons_self _ _)
    rw [List.foldl_cons,
      ih _ hnd.2 (fun q hq => hnm q (List.mem_cons_of_mem _ hq))]
    by_cases hk : k = k0
    · subst hk
      have hout : pfIn t k = [] := by
        unfold pfIn
        rw [(alookup_eq_none_iff t k).mpr hnd.1]
        rfl
      have hmem := AddNode_fIn_mem acc v0 k x
      rw [if_pos hnm1.symm] at hmem
      rw [hmem, hout]
      have hl : pfIn ((k, v0) :: t) k = v0.FlowsIn := by
        unfold pfIn
        simp [alookup]
      rw [hl]
      simp only [List.not_mem_nil, or_false]
      tauto
    · have hne : k ≠ v0.Name := fun hx => hk (hx.trans hnm1)
      rw [AddNode_fIn_ne acc v0 k hne]
      have hl : pfIn ((k0, v0) :: t) k = pfIn t k := by
        unfold pfIn
        simp only [alookup, if_neg (fun hx : k0 = k => hk hx.symm)]
      rw [hl]

theorem pIn_cons_self (k : String) (v : GraphNode) (t : List (String × GraphNode)) :
    pIn ((k, v) :: t) k = v.CallsIn := by
  unfold pIn
  simp [alookup]

theorem pOut_cons_self (k : String) (v : GraphNode) (t : List (String × GraphNode)) :
    pOut ((k, v) :: t) k = v.CallsOut := by
  unfold pOut
  simp [alookup]

theorem pfIn_cons_self (k : String) (v : GraphNode) (t : List (String × GraphNode)) :
    pfIn ((k, v) :: t) k = v.FlowsIn := by
  unfold pfIn
  simp [alookup]

theorem pfOut_cons_self (k : String) (v : GraphNode) (t : List (String × GraphNode)) :
    pfOut ((k, v) :: t) k = v.FlowsOut := by
  unfold pfOut
  simp [alookup]

theorem pIn_cons_ne (k0 : String) (v : GraphNode) (t : List (String × GraphNode))
    (k : String) (h : k ≠ k0) : pIn ((k0, v) :: t) k = pIn t k := by
  unfold pIn
  simp only [alookup, if_neg (fun hx : k0 = k => h hx.symm)]

theorem pOut_cons_ne (k0 : String) (v : GraphNode) (t : List (String × GraphNode))
    (k : String) (h : k ≠ k0) : pOut ((k0, v) :: t) k = pOut t k := by
  unfold pOut
  simp only [alookup, if_neg (fun hx : k0 = k => h hx.symm)]

theorem pfIn_cons_ne (k0 : String) (v : GraphNode) (t : List (String × GraphNode))
    (k : String) (h : k ≠ k0) : pfIn ((k0, v) :: t) k = pfIn t k := by
  unfold pfIn
  simp only [alookup, if_neg (fun hx : k0 = k => h hx.symm)]

theorem pfOut_cons_ne (k0 : String) (v : GraphNode) (t : List (String × GraphNode))
    (k : String) (h : k ≠ k0) : pfOut ((k0, v) :: t) k = pfOut t k := by
  unfold pfOut
  simp only [alookup, if_neg (fun hx : k0 = k => h hx.symm)]

theorem foldA_nName (l : List (String × GraphNode)) (acc : CallGraph)
    (hnm : ∀ p ∈ l, (p.2 : GraphNode).Name = p.1) (k : String) :
    nName (l.foldl (fun a p => a.AddNode p.2) acc) k =
      if k ∈ akeys l then k else nName acc k := by
  induction l generalizing acc with
  | nil => simp [akeys]
  | cons p t ih =>
    obtain ⟨k0, v0⟩ := p
    have hnm1 : v0.Name = k0 := hnm (k0, v0) (List.mem_cons_self _ _)
    rw [List.foldl_cons, ih _ (fun q hq => hnm q (List.mem_cons_of_mem _ hq))]
    have hnn := AddNode_nName acc v0 k
    by_cases ht : k ∈ akeys t
    · have hc : k ∈ akeys ((k0, v0) :: t) := by
        simp only [akeys, List.map_cons, List.mem_cons]
        exact Or.inr ht
      rw [if_pos ht, if_pos hc]
    · by_cases hk : k = k0
      · subst hk
        have hc : k ∈ akeys ((k, v0) :: t) := by simp [akeys]
        rw [if_neg ht, hnn, if_pos hnm1.symm, if_pos hc, hnm1]
      · have hc : k ∉ akeys ((k0, v0) :: t) := by
          simp only [akeys, List.map_cons, List.mem_cons]
          rintro (h | h)
          · exact hk h
          · exact ht h
        rw [if_neg ht, hnn, if_neg (fun hx => hk (hx.trans hnm1)), if_neg hc]

theorem foldA_roots (l : List (String × GraphNode)) (acc : CallGraph)
    (hnd : (akeys l).Nodup) (hnm : ∀ p ∈ l, (p.2 : GraphNode).Name = p.1)
    (k : String) :
    k ∈ (l.foldl (fun a p => a.AddNode p.2) acc).roots ↔
      k ∈ acc.roots ∨ (k ∈ akeys l ∧ pIn l k = [] ∧ nIn acc k = [] ∧
        pfIn l k = [] ∧ fIn acc k = []) := by
  induction l generalizing acc with
  | nil => simp [akeys]
  | cons p t ih =>
    obtain ⟨k0, v0⟩ := p
    simp only [akeys, List.map_cons, List.nodup_cons] at hnd
    have hnm1 : v0.Name = k0 := hnm (k0, v0) (List.mem_cons_self _ _)
    rw [List.foldl_cons,
      ih _ hnd.2 (fun q hq => hnm q (List.mem_cons_of_mem _ hq))]
    by_cases hk : k = k0
    · subst hk
      have htk : k ∉ akeys t := hnd.1
      have hkc : k ∈ akeys ((k, v0) :: t) := by simp [akeys]
      have hr := AddNode_roots_mem acc v0 k
      rw [hnm1] at hr
      rw [hr, pIn_cons_self, pfIn_cons_self]
      simp only [htk, false_and, or_false, hkc, true_and]
    · have hne : k ≠ v0.Name := fun hx => hk (hx.trans hnm1)
      have hr := AddNode_roots_mem acc v0 k
      have hnin := AddNode_nIn_ne acc v0 k hne
      have hfin := AddNode_fIn_ne acc v0 k hne
      rw [hr, hnin, hfin, pIn_cons_ne _ _ _ _ hk, pfIn_cons_ne _ _ _ _ hk]
      have hkeys : k ∈ akeys ((k0, v0) :: t) ↔ k ∈ akeys t := by
        simp [akeys, hk]
      rw [hkeys]
      have hnot : ¬(k = v0.Name ∧ v0.CallsIn = [] ∧ nIn acc v0.Name = [] ∧
          v0.FlowsIn = [] ∧ fIn acc v0.Name = []) := fun hx => hne hx.1
      tauto

theorem foldA_leaves (l : List (String × GraphNode)) (acc : CallGraph)
    (hnd : (akeys l).Nodup) (hnm : ∀ p ∈ l, (p.2 : GraphNode).Name = p.1)
    (k : String) :
    k ∈ (l.foldl (fun a p => a.AddNode p.2) acc).leaves ↔
      k ∈ acc.leaves ∨ (k ∈ akeys l ∧ pOut l k = [] ∧ nOut acc k = [] ∧
        pfOut l k = [] ∧ fOut acc k = []) := by
  induction l generalizing acc with
  | nil => simp [akeys]
  | cons p t ih =>
    obtain ⟨k0, v0⟩ := p
    simp only [akeys, List.map_cons, List.nodup_cons] at hnd
    have hnm1 : v0.Name = k0 := hnm (k0, v0) (List.mem_cons_self _ _)
    rw [List.foldl_cons,
      ih _ hnd.2 (fun q hq => hnm q (List.mem_cons_of_mem _ hq))]
    by_cases hk : k = k0
    · subst hk
      have htk : k ∉ akeys t := hnd.1
      have hkc : k ∈ akeys ((k, v0) :: t) := by simp [akeys]
      have hr := AddNode_leaves_mem acc v0 k
      rw [hnm1] at hr
      rw [hr, pOut_cons_self, pfOut_cons_self]
      simp only [htk, false_and, or_false, hkc, true_and]
    · have hne : k ≠ v0.Name := fun hx => hk (hx.trans hnm1)
      have hr := AddNode_leaves_mem acc v0 k
      have hnout := AddNode_nOut_ne acc v0 k hne
      have hfout := AddNode_fOut_ne acc v0 k hne
      rw [hr, hnout, hfout, pOut_cons_ne _ _ _ _ hk, pfOut_cons_ne _ _ _ _ hk]
      have hkeys : k ∈ akeys ((k0, v0) :: t) ↔ k ∈ akeys t := by
        simp [akeys, hk]
      rw [hkeys]
      have hnot : ¬(k = v0.Name ∧ v0.CallsOut = [] ∧ nOut acc v0.Name = [] ∧
          v0.FlowsOut = [] ∧ fOut acc v0.Name = []) := fun hx => hne hx.1
      tauto

theorem foldA_roots_nodup (l : List (String × GraphNode)) (acc : CallGraph)
    (h : acc.roots.Nodup) :
    (l.foldl (fun a p => a.AddNode p.2) acc).roots.Nodup := by
  induction l generalizing acc with
  | nil => exact h
  | cons p t ih => exact ih _ (AddNode_roots_nodup _ _ h)

theorem foldA_leaves_nodup (l : List (String × GraphNode)) (acc : CallGraph)
    (h : acc.leaves.Nodup) :
    (l.foldl (fun a p => a.AddNode p.2) acc).leaves.Nodup := by
  induction l generalizing acc with
  | nil => exact h
  | cons p t ih => exact ih _ (AddNode_leaves_nodup _ _ h)

theorem foldA_nodes_nodup (l : List (String × GraphNode)) (acc : CallGraph)
    (h : (akeys acc.nodes).Nodup) :
    (akeys (l.foldl (fun a p => a.AddNode p.2) acc).nodes).Nodup := by
  induction l generalizing acc with
  | nil => exact h
  | cons p t ih => exact ih _ (AddNode_nodes_nodup _ _ h)

theorem unionCallStep_nOut (a : CallGraph) (p : Call × Int) (k : String) :
    nOut (unionCallStep a p) k = nOut (a.AddCall p.1) k := rfl

theorem unionCallStep_nIn (a : CallGraph) (p : Call × Int) (k : String) :
    nIn (unionCallStep a p) k = nIn (a.AddCall p.1) k := rfl

theorem unionCallStep_fOut (a : CallGraph) (p : Call × Int) (k : String) :
    fOut (unionCallStep a p) k = fOut a k := by
  have h : fOut (unionCallStep a p) k = fOut (a.AddCall p.1) k := rfl
  rw [h, AddCall_fOut_eq]

theorem unionCallStep_fIn (a : CallGraph) (p : Call × Int) (k : String) :
    fIn (unionCallStep a p) k = fIn a k := by
  have h : fIn (unionCallStep a p) k = fIn (a.AddCall p.1) k := rfl
  rw [h, AddCall_fIn_eq]

theorem unionCallStep_nName (a : CallGraph) (p : Call × Int) (k : String) :
    nName (unionCallStep a p) k = nName a k := by
  have h : nName (unionCallStep a p) k = nName (a.AddCall p.1) k := rfl
  rw [h, AddCall_nName_eq]

theorem unionCallStep_roots (a : CallGraph) (p : Call × Int) :
    (unionCallStep a p).roots = (a.AddCall p.1).roots := rfl

theorem unionCallStep_leaves (a : CallGraph) (p : Call × Int) :
    (unionCallStep a p).leaves = (a.AddCall p.1).leaves := rfl

theorem unionCallStep_nodes (a : CallGraph) (p : Call × Int) :
    (unionCallStep a p).nodes = (a.AddCall p.1).nodes := rfl

theorem unionCallStep_calls_nodup (a : CallGraph) (p : Call × Int)
    (h : (akeys a.calls).Nodup) : (akeys (unionCallStep a p).calls).Nodup := by
  have hh : (unionCallStep a p).calls =
      ainsert (a.AddCall p.1).calls p.1
        (agetD (a.AddCall p.1).calls p.1 0 + (p.2 - 1)) := rfl
  rw [hh]
  exact akeys_ainsert_nodup _ _ _ (AddCall_calls_nodup _ _ h)

theorem unionFlowStep_fOut (a : CallGraph) (p : Call × Int) (k : String) :
    fOut (unionFlowStep a p) k = fOut (a.AddFlow p.1) k := rfl

theorem unionFlowStep_fIn (a : CallGraph) (p : Call × Int) (k : String) :
    fIn (unionFlowStep a p) k = fIn (a.AddFlow p.1) k := rfl

theorem unionFlowStep_nOut (a : CallGraph) (p : Call × Int) (k : String) :
    nOut (unionFlowStep a p) k = nOut a k := by
  have h : nOut (unionFlowStep a p) k = nOut (a.AddFlow p.1) k := rfl
  rw [h, AddFlow_nOut_eq]

theorem unionFlowStep_nIn (a : CallGraph) (p : Call × Int) (k : String) :
    nIn (unionFlowStep a p) k = nIn a k := by
  have h : nIn (unionFlowStep a p) k = nIn (a.AddFlow p.1) k := rfl
  rw [h, AddFlow_nIn_eq]

theorem unionFlowStep_nName (a : CallGraph) (p : Call × Int) (k : String) :
    nName (unionFlowStep a p) k = nName a k := by
  have h : nName (unionFlowStep a p) k = nName (a.AddFlow p.1) k := rfl
  rw [h, AddFlow_nName_eq]

theorem unionFlowStep_roots (a : CallGraph) (p : Call × Int) :
    (unionFlowStep a p).roots = (a.AddFlow p.1).roots := rfl

theorem unionFlowStep_leaves (a : CallGraph) (p : Call × Int) :
    (unionFlowStep a p).leaves = (a.AddFlow p.1).leaves := rfl

theorem unionFlowStep_nodes (a : CallGraph) (p : Call × Int) :
    (unionFlowStep a p).nodes = (a.AddFlow p.1).nodes := rfl

theorem unionFlowStep_flows_nodup (a : CallGraph) (p : Call × Int)
    (h : (akeys a.flows).Nodup) : (akeys (unionFlowStep a p).flows).Nodup := by
  have hh : (unionFlowStep a p).flows =
      ainsert (a.AddFlow p.1).flows p.1
        (agetD (a.AddFlow p.1).flows p.1 0 + (p.2 - 1)) := rfl
  rw [hh]
  exact akeys_ainsert_nodup _ _ _ (AddFlow_flows_nodup _ _ h)

theorem unionCallsFold_nOut (l : List (Call × Int)) (acc : CallGraph)
    (k : String) (x : Call) :
    x ∈ nOut (l.foldl unionCallStep acc) k ↔
      x ∈ nOut acc k ∨ ∃ p ∈ l, x = (p : Call × Int).1 ∧ k = p.1.Caller := by
  induction l generalizing acc with
  | nil => simp
  | cons p t ih =>
    rw [List.foldl_cons, ih, unionCallStep_nOut, AddCall_nOut_mem]
    simp only [List.mem_cons]
    constructor
    · rintro ((h | ⟨hk, hx⟩) | ⟨q, hq, hx, hk⟩)
      · exact Or.inl h
      · exact Or.inr ⟨p, Or.inl rfl, hx, hk⟩
      · exact Or.inr ⟨q, Or.inr hq, hx, hk⟩
    · rintro (h | ⟨q, (hq | hq), hx, hk⟩)
      · exact Or.inl (Or.inl h)
      · subst hq
        exact Or.inl (Or.inr ⟨hk, hx⟩)
      · exact Or.inr ⟨q, hq, hx, hk⟩

theorem unionCallsFold_nIn (l : List (Call × Int)) (acc : CallGraph)
    (k : String) (x : Call) :
    x ∈ nIn (l.foldl unionCallStep acc) k ↔
      x ∈ nIn acc k ∨ ∃ p ∈ l, x = (p : Call × Int).1 ∧ k = p.1.Callee := by
  induction l generalizing acc with
  | nil => simp
  | cons p t ih =>
    rw [List.foldl_cons, ih, unionCallStep_nIn, AddCall_nIn_mem]
    simp only [List.mem_cons]
    constructor
    · rintro ((h | ⟨hk, hx⟩) | ⟨q, hq, hx, hk⟩)
      · exact Or.inl h
      · exact Or.inr ⟨p, Or.inl rfl, hx, hk⟩
      · exact Or.inr ⟨q, Or.inr hq, hx, hk⟩
    · rintro (h | ⟨q, (hq | hq), hx, hk⟩)
      · exact Or.inl (Or.inl h)
      · subst hq
        exact Or.inl (Or.inr ⟨hk, hx⟩)
      · exact Or.inr ⟨q, hq, hx, hk⟩

theorem unionCallsFold_fOut (l : List (Call × Int)) (acc : CallGraph)
    (k : String) : fOut (l.foldl unionCallStep acc) k = fOut acc k := by
  induction l generalizing acc with
  | nil => rfl
  | cons p t ih => rw [List.foldl_cons, ih, unionCallStep_fOut]

theorem unionCallsFold_fIn (l : List (Call × Int)) (acc : CallGraph)
    (k : String) : fIn (l.foldl unionCallStep acc) k = fIn acc k := by
  induction l generalizing acc with
  | nil => rfl
  | cons p t ih => rw [List.foldl_cons, ih, unionCallStep_fIn]

theorem unionCallsFold_nName (l : List (Call × Int)) (acc : CallGraph)
    (k : String) : nName (l.foldl unionCallStep acc) k = nName acc k := by
  induction l generalizing acc with
  | nil => rfl
  | cons p t ih => rw [List.foldl_cons, ih, unionCallStep_nName]

theorem unionCallsFold_roots_nodup (l : List (Call × Int)) (acc : CallGraph)
    (h : acc.roots.Nodup) : (l.foldl unionCallStep acc).roots.Nodup := by
  induction l generalizing acc with
  | nil => exact h
  | cons p t ih =>
    rw [List.foldl_cons]
    refine ih _ ?_
    rw [unionCallStep_roots]
    exact AddCall_roots_nodup _ _ h

theorem unionCallsFold_leaves_nodup (l : List (Call × Int)) (acc : CallGraph)
    (h : acc.leaves.Nodup) : (l.foldl unionCallStep acc).leaves.Nodup := by
  induction l generalizing acc with
  | nil => exact h
  | cons p t ih =>
    rw [List.foldl_cons]
    refine ih _ ?_
    rw [unionCallStep_leaves]
    exact AddCall_leaves_nodup _ _ h

theorem unionCallsFold_nodes_nodup (l : List (Call × Int)) (acc : CallGraph)
    (h : (akeys acc.nodes).Nodup) :
    (akeys (l.foldl unionCallStep acc).nodes).Nodup := by
  induction l generalizing acc with
  | nil => exact h
  | cons p t ih =>
    rw [List.foldl_cons]
    refine ih _ ?_
    rw [unionCallStep_nodes]
    exact AddCall_nodes_nodup _ _ h

theorem unionCallsFold_calls_nodup (l : List (Call × Int)) (acc : CallGraph)
    (h : (akeys acc.calls).Nodup) :
    (akeys (l.foldl unionCallStep acc).calls).Nodup := by
  induction l generalizing acc with
  | nil => exact h
  | cons p t ih =>
    rw [List.foldl_cons]
    exact ih _ (unionCallStep_calls_nodup _ _ h)

theorem unionCallsFold_roots (l : List (Call × Int)) (acc : CallGraph)
    (hnd : acc.roots.Nodup) (k : String) :
    k ∈ (l.foldl unionCallStep acc).roots ↔
      k ∈ acc.roots ∧ ∀ p ∈ l, k ≠ ((p : Call × Int).1 : Call).Callee := by
  induction l generalizing acc with
  | nil => simp
  | cons p t ih =>
    rw [List.foldl_cons,
      ih _ (by rw [unionCallStep_roots]; exact AddCall_roots_nodup _ _ hnd),
      unionCallStep_roots, AddCall_roots_mem _ _ _ hnd]
    simp only [List.mem_cons, forall_eq_or_imp]
    tauto

theorem unionCallsFold_leaves (l : List (Call × Int)) (acc : CallGraph)
    (hnd : acc.leaves.Nodup) (k : String) :
    k ∈ (l.foldl unionCallStep acc).leaves ↔
      k ∈ acc.leaves ∧ ∀ p ∈ l, k ≠ ((p : Call × Int).1 : Call).Caller := by
  induction l generalizing acc with
  | nil => simp
  | cons p t ih =>
    rw [List.foldl_cons,
      ih _ (by rw [unionCallStep_leaves]; exact AddCall_leaves_nodup _ _ hnd),
      unionCallStep_leaves, AddCall_leaves_mem _ _ _ hnd]
    simp only [List.mem_cons, forall_eq_or_imp]
    tauto

theorem unionFlowsFold_fOut (l : List (Call × Int)) (acc : CallGraph)
    (k : String) (x : Call) :
    x ∈ fOut (l.foldl unionFlowStep acc) k ↔
      x ∈ fOut acc k ∨ ∃ p ∈ l, x = (p : Call × Int).1 ∧ k = p.1.Caller := by
  induction l generalizing acc with
  | nil => simp
  | cons p t ih =>
    rw [List.foldl_cons, ih, unionFlowStep_fOut, AddFlow_fOut_mem]
    simp only [List.mem_cons]
    constructor
    · rintro ((h | ⟨hk, hx⟩) | ⟨q, hq, hx, hk⟩)
      · exact Or.inl h
      · exact Or.inr ⟨p, Or.inl rfl, hx, hk⟩
      · exact Or.inr ⟨q, Or.inr hq, hx, hk⟩
    · rintro (h | ⟨q, (hq | hq), hx, hk⟩)
      · exact Or.inl (Or.inl h)
      · subst hq
        exact Or.inl (Or.inr ⟨hk, hx⟩)
      · exact Or.inr ⟨q, hq, hx, hk⟩

theorem unionFlowsFold_fIn (l : List (Call × Int)) (acc : CallGraph)
    (k : String) (x : Call) :
    x ∈ fIn (l.foldl unionFlowStep acc) k ↔
      x ∈ fIn acc k ∨ ∃ p ∈ l, x = (p : Call × Int).1 ∧ k = p.1.Callee := by
  induction l generalizing acc with
  | nil => simp
  | cons p t ih =>
    rw [List.foldl_cons, ih, unionFlowStep_fIn, AddFlow_fIn_mem]
    simp only [List.mem_cons]
    constructor
    · rintro ((h | ⟨hk, hx⟩) | ⟨q, hq, hx, hk⟩)
      · exact Or.inl h
      · exact Or.inr ⟨p, Or.inl rfl, hx, hk⟩
      · exact Or.inr ⟨q, Or.inr hq, hx, hk⟩
    · rintro (h | ⟨q, (hq | hq), hx, hk⟩)
      · exact Or.inl (Or.inl h)
      · subst hq
        exact Or.inl (Or.inr ⟨hk, hx⟩)
      · exact Or.inr ⟨q, hq, hx, hk⟩

theorem unionFlowsFold_nOut (l : List (Call × Int)) (acc : CallGraph)
    (k : String) : nOut (l.foldl unionFlowStep acc) k = nOut acc k := by
  induction l generalizing acc with
  | nil => rfl
  | cons p t ih => rw [List.foldl_cons, ih, unionFlowStep_nOut]

theorem unionFlowsFold_nIn (l : List (Call × Int)) (acc : CallGraph)
    (k : String) : nIn (l.foldl unionFlowStep acc) k = nIn acc k := by
  induction l generalizing acc with
  | nil => rfl
  | cons p t ih => rw [List.foldl_cons, ih, unionFlowStep_nIn]

theorem unionFlowsFold_nName (l : List (Call × Int)) (acc : CallGraph)
    (k : String) : nName (l.foldl unionFlowStep acc) k = nName acc k := by
  induction l generalizing acc with
  | nil => rfl
  | cons p t ih => rw [List.foldl_cons, ih, unionFlowStep_nName]

theorem unionFlowsFold_roots_nodup (l : List (Call × Int)) (acc : CallGraph)
    (h : acc.roots.Nodup) : (l.foldl unionFlowStep acc).roots.Nodup := by
  induction l generalizing acc with
  | nil => exact h
  | cons p t ih =>
    rw [List.foldl_cons]
    refine ih _ ?_
    rw [unionFlowStep_roots]
    exact AddFlow_roots_nodup _ _ h

theorem unionFlowsFold_leaves_nodup (l : List (Call × Int)) (acc : CallGraph)
    (h : acc.leaves.Nodup) : (l.foldl unionFlowStep acc).leaves.Nodup := by
  induction l generalizing acc with
  | nil => exact h
  | cons p t ih =>
    rw [List.foldl_cons]
    refine ih _ ?_
    rw [unionFlowStep_leaves]
    exact AddFlow_leaves_nodup _ _ h

theorem unionFlowsFold_nodes_nodup (l : List (Call × Int)) (acc : CallGraph)
    (h : (akeys acc.nodes).Nodup) :
    (akeys (l.foldl unionFlowStep acc).nodes).Nodup := by
  induction l generalizing acc with
  | nil => exact h
  | cons p t ih =>
    rw [List.foldl_cons]
    refine ih _ ?_
    rw [unionFlowStep_nodes]
    exact AddFlow_nodes_nodup _ _ h

theorem unionFlowsFold_flows_nodup (l : List (Call × Int)) (acc : CallGraph)
    (h : (akeys acc.flows).Nodup) :
    (akeys (l.foldl unionFlowStep acc).flows).Nodup := by
  induction l generalizing acc with
  | nil => exact h
  | cons p t ih =>
    rw [List.foldl_cons]
    exact ih _ (unionFlowStep_flows_nodup _ _ h)

theorem unionFlowsFold_roots (l : List (Call × Int)) (acc : CallGraph)
    (hnd : acc.roots.Nodup) (k : String) :
    k ∈ (l.foldl unionFlowStep acc).roots ↔
      k ∈ acc.roots ∧ ∀ p ∈ l, k ≠ ((p : Call × Int).1 : Call).Callee := by
  induction l generalizing acc with
  | nil => simp
  | cons p t ih =>
    rw [List.foldl_cons,
      ih _ (by rw [unionFlowStep_roots]; exact AddFlow_roots_nodup _ _ hnd),
      unionFlowStep_roots, AddFlow_roots_mem _ _ _ hnd]
    simp only [List.mem_cons, forall_eq_or_imp]
    tauto

theorem unionFlowsFold_leaves (l : List (Call × Int)) (acc : CallGraph)
    (hnd : acc.leaves.Nodup) (k : String) :
    k ∈ (l.foldl unionFlowStep acc).leaves ↔
      k ∈ acc.leaves ∧ ∀ p ∈ l, k ≠ ((p : Call × Int).1 : Call).Caller := by
  induction l generalizing acc with
  | nil => simp
  | cons p t ih =>
    rw [List.foldl_cons,
      ih _ (by rw [unionFlowStep_leaves]; exact AddFlow_leaves_nodup _ _ hnd),
      unionFlowStep_leaves, AddFlow_leaves_mem _ _ _ hnd]
    simp only [List.mem_cons, forall_eq_or_imp]
    tauto

theorem exists_caller_iff (l : List (Call × Int)) (x : Call) (k : String) :
    (∃ p ∈ l, x = (p : Call × Int).1 ∧ k = ((p : Call × Int).1 : Call).Caller) ↔
      x ∈ akeys l ∧ x.Caller = k := by
  constructor
  · rintro ⟨p, hp, hx, hk⟩
    refine ⟨(mem_akeys_iff_exists _ _).mpr ⟨p, hp, hx.symm⟩, ?_⟩
    rw [hx]
    exact hk.symm
  · rintro ⟨hm, hf⟩
    obtain ⟨p, hp, hpk⟩ := (mem_akeys_iff_exists _ _).mp hm
    refine ⟨p, hp, hpk.symm, ?_⟩
    rw [hpk]
    exact hf.symm

theorem exists_callee_iff (l : List (Call × Int)) (x : Call) (k : String) :
    (∃ p ∈ l, x = (p : Call × Int).1 ∧ k = ((p : Call × Int).1 : Call).Callee) ↔
      x ∈ akeys l ∧ x.Callee = k := by
  constructor
  · rintro ⟨p, hp, hx, hk⟩
    refine ⟨(mem_akeys_iff_exists _ _).mpr ⟨p, hp, hx.symm⟩, ?_⟩
    rw [hx]
    exact hk.symm
  · rintro ⟨hm, hf⟩
    obtain ⟨p, hp, hpk⟩ := (mem_akeys_iff_exists _ _).mp hm
    refine ⟨p, hp, hpk.symm, ?_⟩
    rw [hpk]
    exact hf.symm

theorem forall_callee_iff (l : List (Call × Int)) (k : String) :
    (∀ p ∈ l, k ≠ ((p : Call × Int).1 : Call).Callee) ↔
      ∀ c ∈ akeys l, (c : Call).Callee ≠ k := by
  constructor
  · intro h c hc hck
    obtain ⟨p, hp, hpk⟩ := (mem_akeys_iff_exists _ _).mp hc
    refine h p hp ?_
    rw [hpk.symm] at hck
    exact hck.symm
  · intro h p hp hk
    exact h p.1 ((mem_akeys_iff_exists _ _).mpr ⟨p, hp, rfl⟩) hk.symm

theorem forall_caller_iff (l : List (Call × Int)) (k : String) :
    (∀ p ∈ l, k ≠ ((p : Call × Int).1 : Call).Caller) ↔
      ∀ c ∈ akeys l, (c : Call).Caller ≠ k := by
  constructor
  · intro h c hc hck
    obtain ⟨p, hp, hpk⟩ := (mem_akeys_iff_exists _ _).mp hc
    refine h p hp ?_
    rw [hpk.symm] at hck
    exact hck.symm
  · intro h p hp hk
    exact h p.1 ((mem_akeys_iff_exists _ _).mpr ⟨p, hp, rfl⟩) hk.symm

theorem named_entries {g : CallGraph} (hinv : EngineInv g) :
    ∀ p ∈ g.nodes, (p.2 : GraphNode).Name = p.1 := by
  intro p hp
  have hk : p.1 ∈ akeys g.nodes := (mem_akeys_iff_exists _ _).mpr ⟨p, hp, rfl⟩
  have hname := hinv.named p.1 hk
  have hl : alookup g.nodes p.1 = some p.2 := alookup_of_mem_nodup hinv.ndK hp
  unfold nName at hname
  rw [hl] at hname
  simpa using hname

theorem inv_union {cg g : CallGraph} (hcg : EngineInv cg) (hg : EngineInv g) :
    EngineInv (cg.Union g) := by
  have hgnm : ∀ p ∈ g.nodes, (p.2 : GraphNode).Name = p.1 := named_entries hg
  have hAnd : (g.nodes.foldl (fun a p => a.AddNode p.2) cg).roots.Nodup :=
    foldA_roots_nodup _ _ hcg.ndR
  have hAndL : (g.nodes.foldl (fun a p => a.AddNode p.2) cg).leaves.Nodup :=
    foldA_leaves_nodup _ _ hcg.ndL
  have hBnd : (g.calls.foldl unionCallStep
      (g.nodes.foldl (fun a p => a.AddNode p.2) cg)).roots.Nodup :=
    unionCallsFold_roots_nodup _ _ hAnd
  have hBndL : (g.calls.foldl unionCallStep
      (g.nodes.foldl (fun a p => a.AddNode p.2) cg)).leaves.Nodup :=
    unionCallsFold_leaves_nodup _ _ hAndL
  have hAcalls : (g.nodes.foldl (fun a p => a.AddNode p.2) cg).calls = cg.calls :=
    unionNodesFold_calls _ _
  have hAflows : (g.nodes.foldl (fun a p => a.AddNode p.2) cg).flows = cg.flows :=
    unionNodesFold_flows _ _
  have hAkeys : ∀ k : String,
      k ∈ akeys (g.nodes.foldl (fun a p => a.AddNode p.2) cg).nodes ↔
      k ∈ akeys cg.nodes ∨ k ∈ akeys g.nodes := by
    intro k
    rw [unionNodesFold_keys]
    constructor
    · rintro (h | ⟨p, hp, hk⟩)
      · exact Or.inl h
      · exact Or.inr ((mem_akeys_iff_exists _ _).mpr
          ⟨p, hp, (hgnm p hp).symm.trans hk.symm⟩)
    · rintro (h | h)
      · exact Or.inl h
      · obtain ⟨p, hp, hpk⟩ := (mem_akeys_iff_exists _ _).mp h
        exact Or.inr ⟨p, hp, hpk.symm.trans (hgnm p hp).symm⟩
  have hBkeysN : ∀ k : String,
      k ∈ akeys (g.calls.foldl unionCallStep
        (g.nodes.foldl (fun a p => a.AddNode p.2) cg)).nodes ↔
      k ∈ akeys cg.nodes ∨ k ∈ akeys g.nodes := by
    intro k
    rw [unionCallsFold_nodes_keys, hAkeys]
    constructor
    · rintro (h | ⟨p, hp, hk⟩)
      · exact h
      · have hpc : (p : Call × Int).1 ∈ akeys g.calls :=
          (mem_akeys_iff_exists _ _).mpr ⟨p, hp, rfl⟩
        have hend := call_endpoints hg hpc
        rcases hk with hk | hk
        · rw [hk]
          exact Or.inr hend.1
        · rw [hk]
          exact Or.inr hend.2
    · intro h
      exact Or.inl h
  have hUkeysN : ∀ k : String,
      k ∈ akeys (g.flows.foldl unionFlowStep
        (g.calls.foldl unionCallStep
          (g.nodes.foldl (fun a p => a.AddNode p.2) cg))).nodes ↔
      k ∈ akeys cg.nodes ∨ k ∈ akeys g.nodes := by
    intro k
    rw [unionFlowsFold_nodes_keys, hBkeysN]
    constructor
    · rintro (h | ⟨p, hp, hk⟩)
      · exact h
      · have hpc : (p : Call × Int).1 ∈ akeys g.flows :=
          (mem_akeys_iff_exists _ _).mpr ⟨p, hp, rfl⟩
        have hend := flow_endpoints hg hpc
        rcases hk with hk | hk
        · rw [hk]
          exact Or.inr hend.1
        · rw [hk]
          exact Or.inr hend.2
    · intro h
      exact Or.inl h
  have hUcalls : (g.flows.foldl unionFlowStep
      (g.calls.foldl unionCallStep
        (g.nodes.foldl (fun a p => a.AddNode p.2) cg))).calls =
      (g.calls.foldl unionCallStep
        (g.nodes.foldl (fun a p => a.AddNode p.2) cg)).calls :=
    unionFlowsFold_calls _ _
  have hUcallsK : ∀ e : Call, e ∈ akeys (g.flows.foldl unionFlowStep
      (g.calls.foldl unionCallStep
        (g.nodes.foldl (fun a p => a.AddNode p.2) cg))).calls ↔
      e ∈ akeys cg.calls ∨ e ∈ akeys g.calls := by
    intro e
    rw [hUcalls, unionCallsFold_keys, hAcalls]
  have hBflows : (g.calls.foldl unionCallStep
      (g.nodes.foldl (fun a p => a.AddNode p.2) cg)).flows = cg.flows := by
    rw [unionCallsFold_flows, hAflows]
  have hUflowsK : ∀ e : Call, e ∈ akeys (g.flows.foldl unionFlowStep
      (g.calls.foldl unionCallStep
        (g.nodes.foldl (fun a p => a.AddNode p.2) cg))).flows ↔
      e ∈ akeys cg.flows ∨ e ∈ akeys g.flows := by
    intro e
    rw [unionFlowsFold_keys, hBflows]
  rw [Union_unfold]
  refine ⟨?_, ?_, ?_, ?_, ?_, ?_, ?_, ?_, ?_, ?_, ?_, ?_⟩
  · exact unionFlowsFold_nodes_nodup _ _
      (unionCallsFold_nodes_nodup _ _ (foldA_nodes_nodup _ _ hcg.ndK))
  · rw [hUcalls]
    refine unionCallsFold_calls_nodup _ _ ?_
    rw [hAcalls]
    exact hcg.ndC
  · refine unionFlowsFold_flows_nodup _ _ ?_
    rw [hBflows]
    exact hcg.ndF
  · exact unionFlowsFold_roots_nodup _ _ hBnd
  · exact unionFlowsFold_leaves_nodup _ _ hBndL
  · intro k hk
    rw [unionFlowsFold_nName, unionCallsFold_nName, foldA_nName _ _ hgnm]
    by_cases hkg : k ∈ akeys g.nodes
    · rw [if_pos hkg]
    · rw [if_neg hkg]
      rcases (hUkeysN k).mp hk with h | h
      · exact hcg.named k h
      · exact absurd h hkg
  · intro k x
    rw [unionFlowsFold_nOut, unionCallsFold_nOut, foldA_nOut _ _ hg.ndK hgnm,
      pOut_nodes, exists_caller_iff, hcg.co, hg.co, hUcallsK x]
    tauto
  · intro k x
    rw [unionFlowsFold_nIn, unionCallsFold_nIn, foldA_nIn _ _ hg.ndK hgnm,
      pIn_nodes, exists_callee_iff, hcg.ci, hg.ci, hUcallsK x]
    tauto
  · intro k x
    rw [unionFlowsFold_fOut, unionCallsFold_fOut, foldA_fOut _ _ hg.ndK hgnm,
      pfOut_nodes, exists_caller_iff, hcg.fo, hg.fo, hUflowsK x]
    tauto
  · intro k x
    rw [unionFlowsFold_fIn, unionCallsFold_fIn, foldA_fIn _ _ hg.ndK hgnm,
      pfIn_nodes, exists_callee_iff, hcg.fi, hg.fi, hUflowsK x]
    tauto
  · intro k
    rw [unionFlowsFold_roots _ _ hBnd k, unionCallsFold_roots _ _ hAnd k,
      foldA_roots _ _ hg.ndK hgnm k, pIn_nodes, pfIn_nodes,
      nIn_nil_iff hg, nIn_nil_iff hcg, fIn_nil_iff hg, fIn_nil_iff hcg,
      forall_callee_iff g.calls k, forall_callee_iff g.flows k,
      hcg.rts k, hUkeysN k]
    have hsC : (∀ c ∈ akeys (g.flows.foldl unionFlowStep
        (g.calls.foldl unionCallStep
          (g.nodes.foldl (fun a p => a.AddNode p.2) cg))).calls,
        (c : Call).Callee ≠ k) ↔
        ((∀ c ∈ akeys cg.calls, (c : Call).Callee ≠ k) ∧
         (∀ c ∈ akeys g.calls, (c : Call).Callee ≠ k)) := by
      constructor
      · intro h
        exact ⟨fun c hc => h c ((hUcallsK c).mpr (Or.inl hc)),
          fun c hc => h c ((hUcallsK c).mpr (Or.inr hc))⟩
      · rintro ⟨h1, h2⟩ c hc
        rcases (hUcallsK c).mp hc with h | h
        · exact h1 c h
        · exact h2 c h
    have hsF : (∀ c ∈ akeys (g.flows.foldl unionFlowStep
        (g.calls.foldl unionCallStep
          (g.nodes.foldl (fun a p => a.AddNode p.2) cg))).flows,
        (c : Call).Callee ≠ k) ↔
        ((∀ c ∈ akeys cg.flows, (c : Call).Callee ≠ k) ∧
         (∀ c ∈ akeys g.flows, (c : Call).Callee ≠ k)) := by
      constructor
      · intro h
        exact ⟨fun c hc => h c ((hUflowsK c).mpr (Or.inl hc)),
          fun c hc => h c ((hUflowsK c).mpr (Or.inr hc))⟩
      · rintro ⟨h1, h2⟩ c hc
        rcases (hUflowsK c).mp hc with h | h
        · exact h1 c h
        · exact h2 c h
    rw [hsC, hsF]
    tauto
  · intro k
    rw [unionFlowsFold_leaves _ _ hBndL k, unionCallsFold_leaves _ _ hAndL k,
      foldA_leaves _ _ hg.ndK hgnm k, pOut_nodes, pfOut_nodes,
      nOut_nil_iff hg, nOut_nil_iff hcg, fOut_nil_iff hg, fOut_nil_iff hcg,
      forall_caller_iff g.calls k, forall_caller_iff g.flows k,
      hcg.lvs k, hUkeysN k]
    have hsC : (∀ c ∈ akeys (g.flows.foldl unionFlowStep
        (g.calls.foldl unionCallStep
          (g.nodes.foldl (fun a p => a.AddNode p.2) cg))).calls,
        (c : Call).Caller ≠ k) ↔
        ((∀ c ∈ akeys cg.calls, (c : Call).Caller ≠ k) ∧
         (∀ c ∈ akeys g.calls, (c : Call).Caller ≠ k)) := by
      constructor
      · intro h
        exact ⟨fun c hc => h c ((hUcallsK c).mpr (Or.inl hc)),
          fun c hc => h c ((hUcallsK c).mpr (Or.inr hc))⟩
      · rintro ⟨h1, h2⟩ c hc
        rcases (hUcallsK c).mp hc with h | h
        · exact h1 c h
        · exact h2 c h
    have hsF : (∀ c ∈ akeys (g.flows.foldl unionFlowStep
        (g.calls.foldl unionCallStep
          (g.nodes.foldl (fun a p => a.AddNode p.2) cg))).flows,
        (c : Call).Caller ≠ k) ↔
        ((∀ c ∈ akeys cg.flows, (c : Call).Caller ≠ k) ∧
         (∀ c ∈ akeys g.flows, (c : Call).Caller ≠ k)) := by
      constructor
      · intro h
        exact ⟨fun c hc => h c ((hUflowsK c).mpr (Or.inl hc)),
          fun c hc => h c ((hUflowsK c).mpr (Or.inr hc))⟩
      · rintro ⟨h1, h2⟩ c hc
        rcases (hUflowsK c).mp hc with h | h
        · exact h1 c h
        · exact h2 c h
    rw [hsC, hsF]
    tauto

/-- The call graphs the engine can build with the operations that preserve
the root/leaf bookkeeping: the fresh graph, AddNode of a node carrying no
edge lists, AddCall and AddFlow between endpoints already stored in the
node map, and Union of two such graphs. -/
inductive EngineReachable : CallGraph → Prop where
  | base : EngineReachable NewCallGraph
  | addNode {cg : CallGraph} (n : GraphNode) (hr : EngineReachable cg)
      (h1 : n.CallsIn = []) (h2 : n.CallsOut = [])
      (h3 : n.FlowsIn = []) (h4 : n.FlowsOut = []) :
      EngineReachable (cg.AddNode n)
  | addCall {cg : CallGraph} (c : Call) (hr : EngineReachable cg)
      (hcr : c.Caller ∈ akeys cg.nodes) (hce : c.Callee ∈ akeys cg.nodes) :
      EngineReachable (cg.AddCall c)
  | addFlow {cg : CallGraph} (c : Call) (hr : EngineReachable cg)
      (hcr : c.Caller ∈ akeys cg.nodes) (hce : c.Callee ∈ akeys cg.nodes) :
      EngineReachable (cg.AddFlow c)
  | union {cg g : CallGraph} (hr1 : EngineReachable cg)
      (hr2 : EngineReachable g) : EngineReachable (cg.Union g)

theorem inv_of_reachable {cg : CallGraph} (h : EngineReachable cg) :
    EngineInv cg := by
  induction h with
  | base => exact inv_new
  | addNode n _ h1 h2 h3 h4 ih => exact inv_addNode ih n h1 h2 h3 h4
  | addCall c _ h1 h2 ih => exact inv_addCall ih c h1 h2
  | addFlow c _ h1 h2 ih => exact inv_addFlow ih c h1 h2
  | union _ _ ih1 ih2 => exact inv_union ih1 ih2

/-- The graph obtained by AddCall("a" -> "b") on a fresh graph: the engine
creates both endpoint nodes on the fly but never revisits the root set. -/
def c3Graph : CallGraph := NewCallGraph.AddCall ⟨"a", "b", SourceLocation.zero, ""⟩

/-- The two-node graph built the invariant-respecting way: both endpoints
added as fresh nodes first, then the call edge. -/
def c3WitnessGraph : CallGraph :=
  ((NewCallGraph.AddNode { GraphNode.zero with Name := "a" }).AddNode
    { GraphNode.zero with Name := "b" }).AddCall ⟨"a", "b", SourceLocation.zero, ""⟩

/-- C3 counterexample: after AddCall("a" -> "b") on a fresh graph, a full
scan of the edge maps computes "a" as a root (it is a stored node with no
incoming call or flow edge), but the incrementally maintained roots set
does not contain "a": AddCall removes the callee from the roots set but
never inserts the caller, so the claimed invariant fails for graphs built
by AddCall on endpoints that were never AddNode-ed. -/
theorem C3_counterexample :
    ("a" ∈ akeys c3Graph.nodes ∧
      (∀ c ∈ akeys c3Graph.calls, (c : Call).Callee ≠ "a") ∧
      (∀ c ∈ akeys c3Graph.flows, (c : Call).Callee ≠ "a")) ∧
    "a" ∉ c3Graph.roots := by decide

/-- C3: the claim that the incrementally maintained roots and leaves sets
always equal what a full scan of the edge maps would compute does not hold
for every sequence of engine operations (AddCall on fresh endpoints breaks
it, as do Intersect and Simplified, which build result graphs whose root
and leaf sets are copied or left empty rather than recomputed).  Amended to
the operations that do maintain it: for every graph reachable from
NewCallGraph by AddNode of an edge-list-free node, AddCall and AddFlow
between already-stored endpoints, and Union, the roots set is exactly the
set of stored node names with no incoming call or flow edge, and the leaves
set is exactly the set of stored node names with no outgoing call or flow
edge. -/
theorem C3_amended {cg : CallGraph} (h : EngineReachable cg) :
    (∀ k : String, k ∈ cg.roots ↔ (k ∈ akeys cg.nodes ∧
      (∀ c ∈ akeys cg.calls, (c : Call).Callee ≠ k) ∧
      (∀ c ∈ akeys cg.flows, (c : Call).Callee ≠ k))) ∧
    (∀ k : String, k ∈ cg.leaves ↔ (k ∈ akeys cg.nodes ∧
      (∀ c ∈ akeys cg.calls, (c : Call).Caller ≠ k) ∧
      (∀ c ∈ akeys cg.flows, (c : Call).Caller ≠ k))) :=
  ⟨(inv_of_reachable h).rts, (inv_of_reachable h).lvs⟩

/-- Witness for C3 at a concrete engine-reachable graph: nodes "a" and "b"
added fresh, then the call "a" -> "b"; the maintained roots and leaves sets
match the scan of the edge maps. -/
theorem C3_witness :
    EngineReachable c3WitnessGraph ∧
    ((∀ k : String, k ∈ c3WitnessGraph.roots ↔ (k ∈ akeys c3WitnessGraph.nodes ∧
      (∀ c ∈ akeys c3WitnessGraph.calls, (c : Call).Callee ≠ k) ∧
      (∀ c ∈ akeys c3WitnessGraph.flows, (c : Call).Callee ≠ k))) ∧
    (∀ k : String, k ∈ c3WitnessGraph.leaves ↔ (k ∈ akeys c3WitnessGraph.nodes ∧
      (∀ c ∈ akeys c3WitnessGraph.calls, (c : Call).Caller ≠ k) ∧
      (∀ c ∈ akeys c3WitnessGraph.flows, (c : Call).Caller ≠ k)))) := by
  have hr : EngineReachable c3WitnessGraph :=
    EngineReachable.addCall _
      (EngineReachable.addNode _
        (EngineReachable.addNode _ EngineReachable.base rfl rfl rfl rfl)
        rfl rfl rfl rfl)
      (by decide) (by decide)
  exact ⟨hr, C3_amended hr⟩
